import Mathlib

/-!
Verification of the cryptogram-solver core of this repository
(`src/services/cryptogram.server.ts`) against its natural-language
specification.

The TypeScript source is shallowly embedded as executable Lean functions:

* JavaScript `Map`s are insertion-ordered association lists (`JMap`):
  `alSet` overwrites in place (keeping the entry's position) and otherwise
  appends, exactly like `Map.prototype.set`; lookup takes the first match.
* JavaScript `Set`s are insertion-ordered duplicate-free lists; `slAdd`
  appends only when absent, like `Set.prototype.add`.
* Strings are `List Char`.
* `Math.random()` is modelled by an oracle stream `r : Nat → Nat` together
  with a running counter: the JS expression `Math.floor(Math.random() * x)`
  at the k-th draw becomes `r k % x`.  Every JS outcome corresponds to some
  stream and every stream outcome is realisable, so universal and
  existential statements about the randomized paths transfer.
* Wall-clock timeouts are abstracted by a fuel parameter on the search
  loop: running out of fuel behaves exactly like the deadline firing at the
  next check (the source then breaks out of the loop), and an infinite
  timeout corresponds to quantifying over all fuels.
* Word frequencies and mean frequencies use exact rationals; the source
  uses IEEE doubles but only ever compares the ratios `valid / size`
  against 0.5, 0.3 and 0.2 and orders solutions by mean frequency, and at
  the denominators occurring here those comparisons agree with the exact
  ones.
* The `invariant` throws of the source become an `Except` error
  (`SolveError.internalError`); the retry loop of the brute-force fallback
  can fail to terminate for adversarial random streams, which the model
  reflects by an `Option` layer (`none` = the JS loop does not terminate
  within the retry budget).
-/

/-- JS-`Map`-style association list: insertion ordered, first key wins. -/
abbrev JMap (κ : Type) (ν : Type) : Type := List (κ × ν)

/-- `Map.prototype.get`: first matching entry. -/
def mapGet {κ ν : Type} [DecidableEq κ] (m : JMap κ ν) (k : κ) : Option ν :=
  match m with
  | [] => none
  | (k', v) :: rest => if k' = k then some v else mapGet rest k

/-- `Map.prototype.has`. -/
def mapHas {κ ν : Type} [DecidableEq κ] (m : JMap κ ν) (k : κ) : Bool :=
  (mapGet m k).isSome

/-- `Map.prototype.set`: overwrite in place, else append at the end. -/
def mapSet {κ ν : Type} [DecidableEq κ] (m : JMap κ ν) (k : κ) (v : ν) : JMap κ ν :=
  match m with
  | [] => [(k, v)]
  | (k', v') :: rest => if k' = k then (k', v) :: rest else (k', v') :: mapSet rest k v

/-- The keys, in entry order. -/
def jmKeys {κ ν : Type} (m : JMap κ ν) : List κ := m.map Prod.fst

/-- The values, in entry order. -/
def jmValues {κ ν : Type} (m : JMap κ ν) : List ν := m.map Prod.snd

/-- Map over the values, keeping keys and order (lfi's `map` + `toMap`
    over an existing map). -/
def jmMapValues {κ ν μ : Type} (f : κ → ν → μ) (m : JMap κ ν) : JMap κ μ :=
  m.map fun e => (e.1, f e.1 e.2)

/-- JS-`Set`-style add: append only when absent. -/
def slAdd {α : Type} [DecidableEq α] (s : List α) (a : α) : List α :=
  if a ∈ s then s else s ++ [a]

/-- Helper of `dedupFirst`: drop elements already seen. -/
def dedupFirstGo {α : Type} [DecidableEq α] : List α → List α → List α
  | _, [] => []
  | seen, a :: rest =>
    if a ∈ seen then dedupFirstGo seen rest
    else a :: dedupFirstGo (a :: seen) rest

/-- Deduplicate keeping the first occurrence, like iterating a JS `Set`
    built from a sequence. -/
def dedupFirst {α : Type} [DecidableEq α] (l : List α) : List α :=
  dedupFirstGo [] l

/-- `lfi`'s `toGrouped(toSet(), toMap())`: group a pair sequence into a map
    from first components to the (insertion-ordered, deduplicated) list of
    second components. -/
def groupPairs {κ ν : Type} [DecidableEq κ] [DecidableEq ν]
    (ps : List (κ × ν)) : JMap κ (List ν) :=
  ps.foldl (fun g p =>
    match mapGet g p.1 with
    | none => g ++ [(p.1, [p.2])]
    | some s => mapSet g p.1 (slAdd s p.2)) []

/-- Set intersection as in the source's `intersection` helper: the elements
    of the first set, in order, that the second set also contains. -/
def intersection {α : Type} [DecidableEq α] (set1 set2 : List α) : List α :=
  set1.filter (· ∈ set2)

/-- Insertion of an element into a sorted list, after all weakly-preceding
    elements.  `stableSort` below agrees with JavaScript's stable
    `Array.prototype.sort` for any total comparator.  (Lean's `mergeSort`
    is defined by well-founded recursion, which the kernel cannot
    evaluate; insertion sort is structurally recursive.) -/
def insertSorted {α : Type} (le : α → α → Bool) (a : α) : List α → List α
  | [] => [a]
  | b :: rest => if le b a then b :: insertSorted le a rest else a :: b :: rest

/-- Stable sort by a total comparator (see `insertSorted`). -/
def stableSort {α : Type} (le : α → α → Bool) (l : List α) : List α :=
  l.foldl (fun acc a => insertSorted le a acc) []

/-- Rational addition written through `mkRat` so that the kernel can
    evaluate it (`Rat.add` itself is `@[irreducible]`); the value is the
    ordinary sum. -/
def qAdd (a b : ℚ) : ℚ := mkRat (a.num * b.den + b.num * a.den) (a.den * b.den)

/-- Division of a rational by a natural number, written through `mkRat`
    for the same reason; the value is the ordinary quotient. -/
def qDivNat (a : ℚ) (n : Nat) : ℚ := mkRat a.num (a.den * n)

/-! ## The external collaborators, modelled from the spec

The repository's `pattern.server.ts`, `words.server.ts` and
`dictionary.server.ts` are not part of the provided sources; only their
contracts are given by the specification (§4.1, §6).  They are modelled
from those contracts. -/

/-- Modelled from the spec: `computePattern` of the missing
    `pattern.server.ts`.  §3/§4.1: "A canonical sequence assigning each
    position the index of its letter's first occurrence". -/
def computePattern (word : List Char) : List Nat :=
  word.map fun c => word.indexOf c

/-- Helper of `splitRuns`: scan the text, carrying the current (reversed)
    run of alphabet characters. -/
def splitRunsGo (alphabet : List Char) : List Char → List Char → List (List Char)
  | acc, [] => if acc = [] then [] else [acc.reverse]
  | acc, c :: rest =>
    if c ∈ alphabet then splitRunsGo alphabet (c :: acc) rest
    else if acc = [] then splitRunsGo alphabet [] rest
    else acc.reverse :: splitRunsGo alphabet [] rest

/-- Modelled from the spec: the maximal runs of alphabet characters of a
    text, in order ("Extracts maximal runs of alphabet characters as words;
    other characters are separators", §6). -/
def splitRuns (alphabet : List Char) (text : List Char) : List (List Char) :=
  splitRunsGo alphabet [] text

/-- Modelled from the spec: `parseWords` of the missing `words.server.ts`.
    §6: "`parse_words(text, alphabet) → set of words`. Extracts maximal
    runs of alphabet characters as words; other characters are separators;
    returned set is deduplicated; order … must be deterministic" — the
    deterministic order of a JS `Set` is first-occurrence order. -/
def parseWords (text : List Char) (alphabet : List Char) : List (List Char) :=
  dedupFirst (splitRuns alphabet text)

/-- Modelled from the spec: the `Dictionary` contract of the missing
    `dictionary.server.ts` (§6): alphabet, pattern → words, and
    word → nonnegative frequency. -/
structure Dictionary : Type where
  alphabet : List Char
  patternWords : JMap (List Nat) (List (List Char))
  wordFrequencies : JMap (List Char) ℚ

/-! ## The solver core, translated from `cryptogram.server.ts` -/

/-- The spec's outcome classes (§7): `InvalidInput` for rejected inputs and
    `InternalError` for the source's `invariant` failures. -/
inductive SolveError : Type where
  | invalidInput : SolveError
  | internalError : SolveError
deriving DecidableEq, Repr

/-- `zipWords` (source line 392): the positionwise letter pairs of two
    words.  The source asserts equal lengths; at every use site the two
    words share a pattern and hence a length, where `zip` agrees with it. -/
def zipWords (word1 word2 : List Char) : List (Char × Char) :=
  word1.zip word2

/-- `decryptCiphertext` (line 400): apply the cipher letterwise, leaving
    unmapped characters unchanged. -/
def decryptCiphertext (ciphertext : List Char) (cipher : JMap Char Char) : List Char :=
  ciphertext.map fun letter => (mapGet cipher letter).getD letter

/-- `computeMeanFrequency` (line 410): mean dictionary frequency of the
    words of a plaintext, 0 for absent words.  (The source's
    `words.size > 0` invariant is guarded at every call site.) -/
def computeMeanFrequency (plaintext : List Char) (dictionary : Dictionary) : ℚ :=
  let words := parseWords plaintext dictionary.alphabet
  let frequencySum : ℚ :=
    (words.map fun word => ((mapGet dictionary.wordFrequencies word).getD 0)).foldl
      qAdd (mkRat 0 1)
  qDivNat frequencySum words.length

/-- `findWordCandidates` (line 153): each ciphertext word is mapped to the
    dictionary words sharing its pattern (empty when the pattern is
    unknown). -/
def findWordCandidates (words : List (List Char)) (dictionary : Dictionary) :
    JMap (List Char) (List (List Char)) :=
  words.map fun word =>
    (word, (mapGet dictionary.patternWords (computePattern word)).getD [])

/-- The per-word letter constraints of `computeLetterCandidates`
    (lines 240-246): letter ↦ union over the word's candidates of the
    letters at the corresponding positions. -/
def wordLetterMap (word : List Char) (candidateWords : List (List Char)) :
    JMap Char (List Char) :=
  groupPairs (candidateWords.flatMap fun candidateWord => zipWords word candidateWord)

/-- The intersection fold of `computeLetterCandidates` (lines 247-267):
    start from alphabet ↦ full alphabet and intersect with each word's
    constraint map (absent letters default to the full alphabet). -/
def initialLetterCandidates (wordCandidates : JMap (List Char) (List (List Char)))
    (dictionary : Dictionary) : JMap Char (List Char) :=
  (wordCandidates.map fun e => wordLetterMap e.1 e.2).foldl
    (fun letterCandidates1 letterCandidates2 =>
      jmMapValues (fun letter candidateLetters =>
        intersection candidateLetters
          ((mapGet letterCandidates2 letter).getD dictionary.alphabet))
        letterCandidates1)
    (dictionary.alphabet.map fun letter => (letter, dictionary.alphabet))

/-- One grouping step of the pigeonhole loop (lines 278-285): letters are
    grouped by their candidate set, keyed by the sorted set elements (the
    source keys by the sorted joined string). -/
def groupByCandidates (letterCandidates : JMap Char (List Char)) :
    JMap (List Char) (List Char) :=
  groupPairs (letterCandidates.map fun e => (stableSort (fun a b => a ≤ b) e.2, e.1))

/-- Whether the pigeonhole rule (lines 290-303) deletes candidate `cand`
    from the set of letter `letter`, given the pass's groups. -/
def pigeonholeRemoves (groups : JMap (List Char) (List Char))
    (letter : Char) (cand : Char) : Bool :=
  groups.any fun e =>
    let currentCandidateLetters := dedupFirst e.1
    ((currentCandidateLetters.length = e.2.length ∧ letter ∉ e.2) ∨
      currentCandidateLetters.length < e.2.length) ∧
    cand ∈ currentCandidateLetters

/-- One full pass of the pigeonhole do-while loop (lines 270-305).  The
    source mutates the live sets while iterating, but the groups are
    computed before the deletions, so one iteration of the outer loop is
    this pure map. -/
def pigeonholePass (letterCandidates : JMap Char (List Char)) :
    JMap Char (List Char) :=
  let groups := groupByCandidates letterCandidates
  jmMapValues (fun letter candidateLetters =>
    candidateLetters.filter fun cand => ¬ pigeonholeRemoves groups letter cand)
    letterCandidates

/-- The pigeonhole do-while loop, with fuel.  A pass only ever deletes
    candidates, so each changing pass strictly decreases the total number
    of candidates; with fuel exceeding that total the loop reaches the
    fixpoint exactly as the unbounded source loop does. -/
def pigeonholeLoop : Nat → JMap Char (List Char) → JMap Char (List Char)
  | 0, letterCandidates => letterCandidates
  | fuel + 1, letterCandidates =>
    let next := pigeonholePass letterCandidates
    if next = letterCandidates then next else pigeonholeLoop fuel next

/-- `computeLetterCandidates` (line 234): intersection of per-word
    constraints followed by pigeonhole closure. -/
def computeLetterCandidates (wordCandidates : JMap (List Char) (List (List Char)))
    (dictionary : Dictionary) : JMap Char (List Char) :=
  let letterCandidates := initialLetterCandidates wordCandidates dictionary
  pigeonholeLoop ((letterCandidates.map fun e => e.2.length).sum + 1) letterCandidates

/-- `pruneWordCandidates` (line 173): keep only the candidates compatible
    with the letter candidates; `none` when the map is empty or some word
    has no candidate left. -/
def pruneWordCandidates (wordCandidates : JMap (List Char) (List (List Char)))
    (dictionary : Dictionary) : Option (JMap (List Char) (List (List Char))) :=
  let letterCandidates := computeLetterCandidates wordCandidates dictionary
  let prunedWordCandidates := jmMapValues (fun word candidateWords =>
    candidateWords.filter fun candidateWord =>
      (zipWords word candidateWord).all fun p =>
        p.2 ∈ ((mapGet letterCandidates p.1).getD [])) wordCandidates
  if prunedWordCandidates.length > 0 ∧
      prunedWordCandidates.all (fun e => e.2.length > 0) then
    some prunedWordCandidates
  else
    none

/-- The loop body of `partitionWordCandidates` (lines 344-359), iterating
    over the keys in entry order while threading the mutated
    `remainingWordCandidates`.  Deleting a word's first candidate is `tail`
    (candidate sets are duplicate-free JS sets; `erase` of the head is the
    tail for any list). -/
def partitionLoop : List (List Char) → JMap (List Char) (List (List Char)) →
    List (JMap (List Char) (List (List Char))) →
    List (JMap (List Char) (List (List Char))) × JMap (List Char) (List (List Char))
  | [], remaining, acc => (acc, remaining)
  | word :: rest, remaining, acc =>
    match (mapGet remaining word).getD [] with
    | [] => partitionLoop rest remaining acc
    | [c] =>
      -- size 1: skipped (the `[c]` match is only to name the singleton case)
      let _ := c
      partitionLoop rest remaining acc
    | candidateWord :: more =>
      let remaining' := mapSet remaining word (candidateWord :: more).tail
      let newWordCandidates := mapSet remaining' word [candidateWord]
      partitionLoop rest remaining' (acc ++ [newWordCandidates])

/-- `partitionWordCandidates` (line 334).  (The source would throw on an
    empty candidate set — `get(first(∅))` — but is only called after a
    successful prune, so all sets are nonempty; the model skips that
    unreachable case.) -/
def partitionWordCandidates (wordCandidates : JMap (List Char) (List (List Char))) :
    List (JMap (List Char) (List (List Char))) :=
  let p := partitionLoop (jmKeys wordCandidates) wordCandidates []
  p.1 ++ [p.2]

/-- `computeCipher` (line 371): zip every word with its chosen candidate,
    group by ciphertext letter, and check the two invariants (one candidate
    per letter; injectivity). -/
def computeCipher (wordCandidates : JMap (List Char) (List Char)) :
    Except SolveError (JMap Char Char) :=
  let grouped := groupPairs (wordCandidates.flatMap fun e => zipWords e.1 e.2)
  if grouped.all fun e => e.2.length = 1 then
    let cipher : JMap Char Char := grouped.map fun e => (e.1, e.2.headD 'A')
    if (dedupFirst (jmValues cipher)).length = (jmValues cipher).length then
      Except.ok cipher
    else
      Except.error SolveError.internalError
  else
    Except.error SolveError.internalError

/-- The internal solutions accumulator: plaintext ↦ (mean frequency, cipher). -/
abbrev Sols : Type := JMap (List Char) (ℚ × JMap Char Char)

/-- The `validWordCount / words.size >= threshold` tests of the fallback
    paths (`threshold = num/den`), as exact arithmetic. -/
def validWordRatioAtLeast (plaintext : List Char) (dictionary : Dictionary)
    (num den : Nat) : Bool :=
  let words := parseWords plaintext dictionary.alphabet
  let validWordCount := words.countP fun word => mapHas dictionary.wordFrequencies word
  validWordCount > 0 ∧ den * validWordCount ≥ num * words.length

/-- The `do { … } while (cipher already uses the letter)` retry loop of
    `tryBruteForceForShortCryptogram` (lines 469-472), drawing uppercase
    letters `A`-`Z` from the random stream.  The retry budget reflects that
    the JS loop may simply never terminate for adversarial streams
    (`none`). -/
def pickFreshLetter (r : Nat → Nat) : Nat → Nat → List Char → Option (Char × Nat)
  | 0, _, _ => none
  | retries + 1, k, used =>
    let candidateLetter := Char.ofNat (65 + r k % 26)
    if candidateLetter ∈ used then pickFreshLetter r retries (k + 1) used
    else some (candidateLetter, k + 1)

/-- Lines 464-475: draw a random injective cipher on the unique letters. -/
def buildRandomCipher (r : Nat → Nat) :
    List Char → Nat → JMap Char Char → Option (JMap Char Char × Nat)
  | [], k, cipher => some (cipher, k)
  | letter :: restLetters, k, cipher =>
    match pickFreshLetter r 1000 k (jmValues cipher) with
    | none => none
    | some (candidateLetter, k') =>
      buildRandomCipher r restLetters k' (mapSet cipher letter candidateLetter)

/-- The attempt loop of `tryBruteForceForShortCryptogram` (lines 459-500). -/
def bruteLoop (ciphertext : List Char) (dictionary : Dictionary)
    (maxSolutionCount : Int) (uniqueLettersArray : List Char) (r : Nat → Nat) :
    Nat → Nat → Sols → Option Sols
  | 0, _, solutions => some solutions
  | attempts + 1, k, solutions =>
    match buildRandomCipher r uniqueLettersArray k [] with
    | none => none
    | some (cipher, k') =>
      let plaintext := decryptCiphertext ciphertext cipher
      if validWordRatioAtLeast plaintext dictionary 1 2 then
        let solutions' := mapSet solutions plaintext
          (computeMeanFrequency plaintext dictionary, cipher)
        if (solutions'.length : Int) ≥ maxSolutionCount then some solutions'
        else bruteLoop ciphertext dictionary maxSolutionCount uniqueLettersArray r
          attempts k' solutions'
      else bruteLoop ciphertext dictionary maxSolutionCount uniqueLettersArray r
        attempts k' solutions

/-- `tryBruteForceForShortCryptogram` (line 430). -/
def tryBruteForceForShortCryptogram (ciphertext : List Char)
    (dictionary : Dictionary) (maxSolutionCount : Int) (r : Nat → Nat) :
    Option (JMap (List Char) (JMap Char Char)) :=
  let uniqueLetters := dedupFirst (ciphertext.filter (· ∈ dictionary.alphabet))
  if uniqueLetters.length > 10 then some [] else
  let permutationAttempts := min 1000 (26 ^ uniqueLetters.length)
  (bruteLoop ciphertext dictionary maxSolutionCount uniqueLetters r
      permutationAttempts 0 []).map
    fun solutions => solutions.map fun e => (e.1, e.2.2)

/-- Lines 530-535 (and 694-700): count each alphabet letter of the
    ciphertext. -/
def countLetters (ciphertext : List Char) (alphabet : List Char) : JMap Char Nat :=
  ciphertext.foldl
    (fun letterCount char =>
      if char ∈ alphabet then
        mapSet letterCount char ((mapGet letterCount char).getD 0 + 1)
      else letterCount)
    []

/-- Lines 537-540: the ciphertext letters sorted by decreasing frequency
    (JS `sort` is stable; ties keep first-appearance order). -/
def sortedByCountDesc (letterCount : JMap Char Nat) : List Char :=
  (stableSort (fun a b => b.2 ≤ a.2) letterCount).map Prod.fst

/-- Lines 542-557 (and 710-725): map the i-th most frequent ciphertext
    letter to the i-th letter of the English frequency order (the
    `i % length` wrap-around of the source coincides with the main branch
    because the frequency string has exactly 26 letters). -/
def buildFrequencyCipher (sortedCipherLetters : List Char)
    (englishFrequency : List Char) : JMap Char Char :=
  sortedCipherLetters.enum.foldl
    (fun frequencyCipher e =>
      mapSet frequencyCipher e.2
        ((englishFrequency.get? (e.1 % englishFrequency.length)).getD 'A'))
    []

/-- One candidate-pair swap of the modification loops (lines 594-620 and
    856-880): two random indices; if distinct, the two letters' images are
    exchanged.  With fewer than two letters nothing is drawn (`continue`
    before the draws). -/
def swapOnce (sortedCipherLetters : List Char) (modifiedCipher : JMap Char Char)
    (r : Nat → Nat) (k : Nat) : JMap Char Char × Nat :=
  if sortedCipherLetters.length < 2 then (modifiedCipher, k) else
  let index1 := r k % sortedCipherLetters.length
  let index2 := r (k + 1) % sortedCipherLetters.length
  let k' := k + 2
  if index1 ≠ index2 then
    let letter1 := (sortedCipherLetters.get? index1).getD 'A'
    let letter2 := (sortedCipherLetters.get? index2).getD 'A'
    match mapGet modifiedCipher letter1, mapGet modifiedCipher letter2 with
    | some value1, some value2 =>
      (mapSet (mapSet modifiedCipher letter1 value2) letter2 value1, k')
    | _, _ => (modifiedCipher, k')
  else (modifiedCipher, k')

/-- `swapCount` successive swaps. -/
def swapMany (sortedCipherLetters : List Char) (r : Nat → Nat) :
    Nat → JMap Char Char → Nat → JMap Char Char × Nat
  | 0, modifiedCipher, k => (modifiedCipher, k)
  | j + 1, modifiedCipher, k =>
    let p := swapOnce sortedCipherLetters modifiedCipher r k
    swapMany sortedCipherLetters r j p.1 p.2

/-- The 500-attempt modification loop of `tryFrequencyAnalysis`
    (lines 583-643). -/
def freqLoop (ciphertext : List Char) (dictionary : Dictionary)
    (maxSolutionCount : Int) (sortedCipherLetters : List Char)
    (frequencyCipher : JMap Char Char) (r : Nat → Nat) :
    Nat → Nat → Sols → Sols × Nat
  | 0, k, solutions => (solutions, k)
  | attempts + 1, k, solutions =>
    if (solutions.length : Int) ≥ maxSolutionCount then (solutions, k)
    else
      let swapCount := min 3 sortedCipherLetters.length
      let p := swapMany sortedCipherLetters r swapCount frequencyCipher k
      let modifiedPlaintext := decryptCiphertext ciphertext p.1
      if modifiedPlaintext ≠ [] ∧ validWordRatioAtLeast modifiedPlaintext dictionary 3 10 then
        freqLoop ciphertext dictionary maxSolutionCount sortedCipherLetters
          frequencyCipher r attempts p.2
          (mapSet solutions modifiedPlaintext
            (computeMeanFrequency modifiedPlaintext dictionary, p.1))
      else
        freqLoop ciphertext dictionary maxSolutionCount sortedCipherLetters
          frequencyCipher r attempts p.2 solutions

/-- `tryFrequencyAnalysis` (line 514).  With an infinite timeout the
    attempt bound `min(500, timeoutMs / 10)` is 500. -/
def tryFrequencyAnalysis (ciphertext : List Char) (dictionary : Dictionary)
    (maxSolutionCount : Int) (r : Nat → Nat) (k : Nat) : Sols × Nat :=
  let englishFrequency := "ETAOINSRHDLUCMFYWGPBVKXQJZ".toList
  let letterCount := countLetters ciphertext dictionary.alphabet
  let sortedCipherLetters := sortedByCountDesc letterCount
  let frequencyCipher := buildFrequencyCipher sortedCipherLetters englishFrequency
  let plaintext := decryptCiphertext ciphertext frequencyCipher
  let solutions : Sols :=
    if plaintext ≠ [] ∧ validWordRatioAtLeast plaintext dictionary 3 10 then
      [(plaintext, (computeMeanFrequency plaintext dictionary, frequencyCipher))]
    else []
  freqLoop ciphertext dictionary maxSolutionCount sortedCipherLetters
    frequencyCipher r 500 k solutions

/-- Line 760: the common two-letter words of `tryCelebrityQuoteAnalysis`. -/
def commonTwoLetterWords : List (List Char) :=
  ["TO", "OF", "IN", "IS", "IT", "BE", "AS", "AT", "SO", "WE", "HE", "BY",
    "OR", "ON", "DO", "IF", "ME", "MY", "UP", "AN", "GO", "NO", "US", "AM"].map
    String.toList

/-- Line 761: the common three-letter words of `tryCelebrityQuoteAnalysis`. -/
def commonThreeLetterWords : List (List Char) :=
  ["THE", "AND", "FOR", "ARE", "BUT", "NOT", "YOU", "ALL", "ANY", "CAN",
    "HAD", "HER", "WAS", "ONE", "OUR", "OUT", "DAY", "GET", "HAS", "HIM",
    "HOW", "MAN", "NEW", "NOW", "OLD", "SEE", "TWO", "WAY", "WHO", "BOY",
    "DID", "ITS", "LET", "PUT", "SAY", "SHE", "TOO", "USE"].map String.toList

/-- Lines 747-757: map each one-letter ciphertext word to `I` with
    probability 0.8, else to `A` (a one-letter word is its own letter
    key). -/
def celebOneLetterLoop (r : Nat → Nat) :
    List (List Char) → JMap Char Char → Nat → JMap Char Char × Nat
  | [], specializedCipher, k => (specializedCipher, k)
  | word :: rest, specializedCipher, k =>
    let letter := word.headD 'A'
    let specializedCipher' :=
      if r k % 10 < 8 then mapSet specializedCipher letter 'I'
      else mapSet specializedCipher letter 'A'
    celebOneLetterLoop r rest specializedCipher' (k + 1)

/-- Lines 763-795: map each short ciphertext word's letters onto a randomly
    chosen common word of the same length. -/
def celebWordMapLoop (r : Nat → Nat) (commonWords : List (List Char)) :
    List (List Char) → JMap Char Char → Nat → JMap Char Char × Nat
  | [], specializedCipher, k => (specializedCipher, k)
  | word :: rest, specializedCipher, k =>
    let randomIndex := r k % commonWords.length
    let targetWord := (commonWords.get? randomIndex).getD []
    let specializedCipher' :=
      if word.length = targetWord.length then
        (zipWords word targetWord).foldl (fun c p => mapSet c p.1 p.2)
          specializedCipher
      else specializedCipher
    celebWordMapLoop r commonWords rest specializedCipher' (k + 1)

/-- Lines 797-807: a cipher is valid when no two sources map to the same
    target. -/
def cipherTargetsDistinct (cipher : JMap Char Char) : Bool :=
  (dedupFirst (jmValues cipher)).length = (jmValues cipher).length

/-- The five specialization attempts of `tryCelebrityQuoteAnalysis`
    (lines 740-812). -/
def celebBuildBases (standardCipher : JMap Char Char)
    (oneLetterWords twoLetterWords threeLetterWords : List (List Char))
    (r : Nat → Nat) :
    Nat → Nat → List (JMap Char Char) → List (JMap Char Char) × Nat
  | 0, k, bases => (bases, k)
  | attempt + 1, k, bases =>
    let p1 := celebOneLetterLoop r oneLetterWords standardCipher k
    let p2 := celebWordMapLoop r commonTwoLetterWords twoLetterWords p1.1 p1.2
    let p3 := celebWordMapLoop r commonThreeLetterWords threeLetterWords p2.1 p2.2
    let bases' := if cipherTargetsDistinct p3.1 then bases ++ [p3.1] else bases
    celebBuildBases standardCipher oneLetterWords twoLetterWords threeLetterWords
      r attempt p3.2 bases'

/-- The 100-attempt permutation loop per base cipher (lines 846-907); with
    an infinite timeout `min(100, remaining / 10)` is 100.  The swap count
    `Math.min(5, length / 2)` is fractional: the `j < swapCount` loop runs
    `⌈length / 2⌉` times when `length < 10`, else 5 times. -/
def celebPermLoop (ciphertext : List Char) (dictionary : Dictionary)
    (maxSolutionCount : Int) (sortedCipherLetters : List Char)
    (baseCipher : JMap Char Char) (r : Nat → Nat) :
    Nat → Nat → Sols → Sols × Nat
  | 0, k, solutions => (solutions, k)
  | attempts + 1, k, solutions =>
    if (solutions.length : Int) ≥ maxSolutionCount then (solutions, k)
    else
      let swapIterations :=
        if sortedCipherLetters.length ≥ 10 then 5
        else (sortedCipherLetters.length + 1) / 2
      let p := swapMany sortedCipherLetters r swapIterations baseCipher k
      let modifiedPlaintext := decryptCiphertext ciphertext p.1
      if modifiedPlaintext ≠ [] ∧
          validWordRatioAtLeast modifiedPlaintext dictionary 1 5 then
        celebPermLoop ciphertext dictionary maxSolutionCount sortedCipherLetters
          baseCipher r attempts p.2
          (mapSet solutions modifiedPlaintext
            (computeMeanFrequency modifiedPlaintext dictionary, p.1))
      else
        celebPermLoop ciphertext dictionary maxSolutionCount sortedCipherLetters
          baseCipher r attempts p.2 solutions

/-- The outer loop over base ciphers of `tryCelebrityQuoteAnalysis`
    (lines 815-909). -/
def celebBaseLoop (ciphertext : List Char) (dictionary : Dictionary)
    (maxSolutionCount : Int) (sortedCipherLetters : List Char) (r : Nat → Nat) :
    List (JMap Char Char) → Nat → Sols → Sols × Nat
  | [], k, solutions => (solutions, k)
  | baseCipher :: rest, k, solutions =>
    if (solutions.length : Int) ≥ maxSolutionCount then (solutions, k)
    else
      let plaintext := decryptCiphertext ciphertext baseCipher
      if plaintext ≠ [] then
        if validWordRatioAtLeast plaintext dictionary 1 5 then
          let solutions1 := mapSet solutions plaintext
            (computeMeanFrequency plaintext dictionary, baseCipher)
          if (solutions1.length : Int) ≥ maxSolutionCount then (solutions1, k)
          else
            let p := celebPermLoop ciphertext dictionary maxSolutionCount
              sortedCipherLetters baseCipher r 100 k solutions1
            celebBaseLoop ciphertext dictionary maxSolutionCount
              sortedCipherLetters r rest p.2 p.1
        else
          let p := celebPermLoop ciphertext dictionary maxSolutionCount
            sortedCipherLetters baseCipher r 100 k solutions
          celebBaseLoop ciphertext dictionary maxSolutionCount
            sortedCipherLetters r rest p.2 p.1
      else
        celebBaseLoop ciphertext dictionary maxSolutionCount sortedCipherLetters
          r rest k solutions

/-- `tryCelebrityQuoteAnalysis` (line 651).  The author-attribution split
    (`quoteText`, `authorPart`) and the common starting/ending pattern
    tables of the source are computed but never read afterwards, so they
    are omitted here. -/
def tryCelebrityQuoteAnalysis (ciphertext : List Char) (dictionary : Dictionary)
    (maxSolutionCount : Int) (r : Nat → Nat) (k : Nat) : Sols × Nat :=
  let englishFrequency := "ETAOINHSRDLUCMFWYGPBVKJXQZ".toList
  let letterCount := countLetters ciphertext dictionary.alphabet
  let sortedCipherLetters := sortedByCountDesc letterCount
  let standardCipher := buildFrequencyCipher sortedCipherLetters englishFrequency
  let words := parseWords ciphertext dictionary.alphabet
  let oneLetterWords := words.filter fun w => w.length = 1
  let twoLetterWords := words.filter fun w => w.length = 2
  let threeLetterWords := words.filter fun w => w.length = 3
  let p := celebBuildBases standardCipher oneLetterWords twoLetterWords
    threeLetterWords r 5 k []
  let baseCiphers := standardCipher :: p.1
  celebBaseLoop ciphertext dictionary maxSolutionCount sortedCipherLetters r
    baseCiphers p.2 []

/-- The depth-first search loop of `solveCryptogram` (lines 57-107), with
    fuel standing for the wall-clock budget: fuel 0 is the deadline firing
    at the next check (the returned flag records whether that happened, as
    line 110 of the source distinguishes a timeout from an exhausted
    search). -/
def mainSearchLoop (ciphertext : List Char) (dictionary : Dictionary)
    (maxSolutionCount : Int) :
    Nat → List (JMap (List Char) (List (List Char))) → Sols →
    Except SolveError (Sols × Bool)
  | 0, _, solutions => Except.ok (solutions, true)
  | fuel + 1, stack, solutions =>
    match stack.getLast? with
    | none => Except.ok (solutions, false)
    | some popped =>
      let rest := stack.dropLast
      match pruneWordCandidates popped dictionary with
      | none =>
        if (solutions.length : Int) < maxSolutionCount ∧ rest ≠ [] then
          mainSearchLoop ciphertext dictionary maxSolutionCount fuel rest solutions
        else Except.ok (solutions, false)
      | some wordCandidates =>
        let maxCandidateWordsSize :=
          ((wordCandidates.map fun e => e.2.length).max?).getD 0
        if maxCandidateWordsSize > 1 then
          let stack' := rest ++ (partitionWordCandidates wordCandidates).reverse
          if (solutions.length : Int) < maxSolutionCount ∧ stack' ≠ [] then
            mainSearchLoop ciphertext dictionary maxSolutionCount fuel stack' solutions
          else Except.ok (solutions, false)
        else
          match computeCipher (wordCandidates.map fun e => (e.1, e.2.headD [])) with
          | Except.error err => Except.error err
          | Except.ok cipher =>
            let plaintext := decryptCiphertext ciphertext cipher
            let solutions' :=
              if mapHas solutions plaintext then solutions
              else mapSet solutions plaintext
                (computeMeanFrequency plaintext dictionary, cipher)
            if (solutions'.length : Int) < maxSolutionCount ∧ rest ≠ [] then
              mainSearchLoop ciphertext dictionary maxSolutionCount fuel rest solutions'
            else Except.ok (solutions', false)

/-- The final ranking step of `solveCryptogram` (lines 133-150): stable
    sort by descending mean frequency, each cipher's entries sorted by
    ciphertext letter. -/
def rankSolutions (solutions : Sols) : JMap (List Char) (JMap Char Char) :=
  (stableSort (fun a b => ! Rat.blt a.2.1 b.2.1) solutions).map fun e =>
    (e.1, stableSort (fun x y => x.1 ≤ y.1) e.2.2)

/-- `solveCryptogram` (line 29), at infinite timeout, with the search
    budget as fuel and the random stream explicit.  `none` means the run
    does not terminate (the brute-force retry loop can spin forever on an
    adversarial stream). -/
def solveCryptogram (ciphertext : List Char) (dictionary : Dictionary)
    (maxSolutionCount : Int) (fuel : Nat) (r : Nat → Nat) :
    Option (Except SolveError (JMap (List Char) (JMap Char Char))) :=
  let words := parseWords ciphertext dictionary.alphabet
  if words.length < 2 then
    (tryBruteForceForShortCryptogram ciphertext dictionary maxSolutionCount r).map
      Except.ok
  else
    match mainSearchLoop ciphertext dictionary maxSolutionCount fuel
        [findWordCandidates words dictionary] [] with
    | Except.error err => some (Except.error err)
    | Except.ok (solutions, timedOut) =>
      if solutions.length = 0 ∧ ¬ timedOut then
        let p1 := tryFrequencyAnalysis ciphertext dictionary maxSolutionCount r 0
        if p1.1.length > 0 then
          some (Except.ok (p1.1.map fun e => (e.1, e.2.2)))
        else
          let p2 := tryCelebrityQuoteAnalysis ciphertext dictionary
            maxSolutionCount r p1.2
          if p2.1.length > 0 then
            some (Except.ok (p2.1.map fun e => (e.1, e.2.2)))
          else some (Except.ok (rankSolutions solutions))
      else some (Except.ok (rankSolutions solutions))

/-! ## Descriptions and well-formedness predicates used by the claim
theorems -/

/-- The child of the partition that fixes `fixedWord` to its first
    candidate: every earlier multi-candidate word (collected in `earlier`)
    has had its first candidate removed, later words are untouched. -/
def fixFirstChild (wordCandidates : JMap (List Char) (List (List Char)))
    (fixedWord : List Char) (earlier : List (List Char)) :
    JMap (List Char) (List (List Char)) :=
  jmMapValues
    (fun word candidateWords =>
      if word = fixedWord then [candidateWords.headD []]
      else if word ∈ earlier then candidateWords.tail
      else candidateWords)
    wordCandidates

/-- The final "remainder" child: every multi-candidate word has had its
    first candidate removed. -/
def removeFirstAll (wordCandidates : JMap (List Char) (List (List Char))) :
    JMap (List Char) (List (List Char)) :=
  jmMapValues
    (fun _ candidateWords =>
      if candidateWords.length > 1 then candidateWords.tail else candidateWords)
    wordCandidates

/-- The emitted children, in order: one `fixFirstChild` per multi-candidate
    word (in map iteration order), each seeing the first candidates of the
    previously fixed words removed. -/
def descChildren (wordCandidates : JMap (List Char) (List (List Char)))
    (earlier : List (List Char)) : List (List Char) →
    List (JMap (List Char) (List (List Char)))
  | [] => []
  | word :: rest =>
    if ((mapGet wordCandidates word).getD []).length > 1 then
      fixFirstChild wordCandidates word earlier ::
        descChildren wordCandidates (earlier ++ [word]) rest
    else descChildren wordCandidates earlier rest

/-- Well-formedness of a dictionary (§6): every word filed under pattern
    `p` has pattern `p` and consists of alphabet letters. -/
def DictWF (dictionary : Dictionary) : Prop :=
  ∀ e ∈ dictionary.patternWords, ∀ w ∈ e.2,
    computePattern w = e.1 ∧ ∀ c ∈ w, c ∈ dictionary.alphabet

/-- Soundness of one returned (plaintext, cipher) pair, as the claim states
    it: the plaintext is the cipher applied letterwise to the ciphertext
    (non-alphabet characters unchanged), the cipher is injective, and every
    alphabet-only word of the plaintext appears in the dictionary (in
    `pattern_words[pattern(w)]`). -/
def SolutionSound (dictionary : Dictionary) (ciphertext : List Char)
    (plaintext : List Char) (cipher : JMap Char Char) : Prop :=
  plaintext = decryptCiphertext ciphertext cipher ∧
  (jmKeys cipher).Nodup ∧ (jmValues cipher).Nodup ∧
  ∀ word ∈ parseWords plaintext dictionary.alphabet,
    word ∈ (mapGet dictionary.patternWords (computePattern word)).getD []

/-- Soundness invariant of a word-candidates map on the search stack: its
    words are exactly the ciphertext's words and every candidate is filed
    in the dictionary under the word's pattern. -/
def WCSound (dictionary : Dictionary) (words : List (List Char))
    (wordCandidates : JMap (List Char) (List (List Char))) : Prop :=
  jmKeys wordCandidates = words ∧
  ∀ e ∈ wordCandidates, ∀ c ∈ e.2,
    c ∈ (mapGet dictionary.patternWords (computePattern e.1)).getD []

/-- Soundness of every accumulated solution. -/
def SolsSound (dictionary : Dictionary) (ciphertext : List Char)
    (sols : Sols) : Prop :=
  ∀ e ∈ sols, SolutionSound dictionary ciphertext e.1 e.2.2

instance (dictionary : Dictionary) : Decidable (DictWF dictionary) := by
  unfold DictWF
  infer_instance

instance (dictionary : Dictionary) (ciphertext plaintext : List Char)
    (cipher : JMap Char Char) :
    Decidable (SolutionSound dictionary ciphertext plaintext cipher) := by
  unfold SolutionSound
  infer_instance

/-! ## Concrete instances used by the claim theorems -/

/-- A dictionary with alphabet `{A,B,X,Y,Z}` and no words (only the
    alphabet matters for letter-candidate computations). -/
def dictC6 : Dictionary :=
  { alphabet := "ABXYZ".toList
    patternWords := []
    wordFrequencies := [] }

/-- Word candidates in which the three one-letter ciphertext words `X`,
    `Y`, `Z` share the two-element candidate set `{A, B}` — a strict
    pigeonhole violation. -/
def wcC6 : JMap (List Char) (List (List Char)) :=
  [(['X'], [['A'], ['B']]), (['Y'], [['A'], ['B']]), (['Z'], [['A'], ['B']])]

/-- A dictionary with alphabet `{A,B,C,D,X,Y}` and no words. -/
def dictC8 : Dictionary :=
  { alphabet := "ABCDXY".toList
    patternWords := []
    wordFrequencies := [] }

/-- Word candidates on which pruning is not idempotent: the first prune
    removes `AB` from `XY` (because `Y` must be `D`), which only on the
    second prune eliminates `A` as a candidate for the word `X`. -/
def wcC8 : JMap (List Char) (List (List Char)) :=
  [(['X','Y'], [['A','B'], ['C','D']]), (['X'], [['A'], ['C']]), (['Y'], [['D']])]

/-- Word candidates with two multi-candidate words, exposing the order and
    contents of the partition's children. -/
def wcC7 : JMap (List Char) (List (List Char)) :=
  [(['U'], [['a'], ['b']]), (['V'], [['c'], ['d']])]

/-- A lowercase a-z dictionary with no words. -/
def dict26 : Dictionary :=
  { alphabet := "abcdefghijklmnopqrstuvwxyz".toList
    patternWords := []
    wordFrequencies := [] }

/-- An uppercase A-Z dictionary containing the one-letter words `A` and
    `E`. -/
def dictA : Dictionary :=
  { alphabet := "ABCDEFGHIJKLMNOPQRSTUVWXYZ".toList
    patternWords := []
    wordFrequencies := [(['A'], mkRat 1 1), (['E'], mkRat 1 1)] }

/-- An uppercase A-Z dictionary containing only the word `AB`. -/
def dictBA : Dictionary :=
  { alphabet := "ABCDEFGHIJKLMNOPQRSTUVWXYZ".toList
    patternWords := []
    wordFrequencies := [(['A','B'], mkRat 1 1)] }

/-- An uppercase A-Z dictionary containing only the one-letter word `E`
    (with its pattern entry). -/
def dictEE : Dictionary :=
  { alphabet := "ABCDEFGHIJKLMNOPQRSTUVWXYZ".toList
    patternWords := [([0], [['E']])]
    wordFrequencies := [(['E'], mkRat 1 1)] }

/-- A four-letter dictionary `{AB: 1, CD: 1}` over alphabet `{A,B,C,D}`,
    on which the main constraint-propagation search succeeds. -/
def dictABCD : Dictionary :=
  { alphabet := "ABCD".toList
    patternWords := [([0,1], [['A','B'], ['C','D']])]
    wordFrequencies := [(['A','B'], mkRat 1 1), (['C','D'], mkRat 1 1)] }

/-- The spec's trivial-identity dictionary `{cat: 1, dog: 1}` over a-z. -/
def dictCat : Dictionary :=
  { alphabet := "abcdefghijklmnopqrstuvwxyz".toList
    patternWords := [([0,1,2], [['c','a','t'], ['d','o','g']])]
    wordFrequencies := [(['c','a','t'], mkRat 1 1), (['d','o','g'], mkRat 1 1)] }

deriving instance DecidableEq for Except

instance : DecidableEq Sols := inferInstance

instance : DecidableEq (Sols × Bool) := inferInstance

instance : DecidableEq (Except SolveError (Sols × Bool)) := inferInstance

/-! ## Helper lemmas about the JS map embedding -/

/-! ## The pigeonhole pass in set form (used to settle the closure bound) -/

/-- The letters sharing candidate set `v`. -/
def classOf (L : Finset Char) (S : Char → Finset Char) (v : Finset Char) : Finset Char :=
  L.filter fun k => S k = v

/-- The pigeonhole trigger: at least as many letters as candidates. -/
def trigV (L : Finset Char) (S : Char → Finset Char) (v : Finset Char) : Prop :=
  v.card ≤ (classOf L S v).card

instance (L : Finset Char) (S : Char → Finset Char) (v : Finset Char) :
    Decidable (trigV L S v) := by
  unfold trigV
  infer_instance

/-- Exactly as many letters as candidates. -/
def exactV (L : Finset Char) (S : Char → Finset Char) (v : Finset Char) : Prop :=
  (classOf L S v).card = v.card

instance (L : Finset Char) (S : Char → Finset Char) (v : Finset Char) :
    Decidable (exactV L S v) := by
  unfold exactV
  infer_instance

/-- Candidates removed from a letter whose current set is `v`. -/
def remSet (L : Finset Char) (S : Char → Finset Char) (v : Finset Char) : Finset Char :=
  (L.filter fun k => trigV L S (S k) ∧ ¬(exactV L S (S k) ∧ S k = v)).biUnion S

/-- One pigeonhole pass in set form. -/
def passS (L : Finset Char) (S : Char → Finset Char) : Char → Finset Char :=
  fun ℓ => if ℓ ∈ L then S ℓ \ remSet L S (S ℓ) else S ℓ

/-- The triggered letters. -/
def TrigL (L : Finset Char) (S : Char → Finset Char) : Finset Char :=
  L.filter fun ℓ => trigV L S (S ℓ)

/-- The letters already triggered before time `t`. -/
def OldT (L : Finset Char) (S0 : Char → Finset Char) : Nat → Finset Char
  | 0 => ∅
  | t + 1 => TrigL L ((passS L)^[t] S0)

/-- The letters first triggered at time `t`. -/
def freshAt (L : Finset Char) (S0 : Char → Finset Char) (t : Nat) : Finset Char :=
  TrigL L ((passS L)^[t] S0) \ OldT L S0 t

/-- The set-level view of a letter-candidates map. -/
def SFun (lc : JMap Char (List Char)) : Char → Finset Char :=
  fun ℓ => ((mapGet lc ℓ).getD []).toFinset

/-- Well-formedness of a letter-candidates map: its keys are exactly the
    alphabet and its candidate lists are duplicate-free. -/
def LCWF (A : List Char) (lc : JMap Char (List Char)) : Prop :=
  jmKeys lc = A ∧ ∀ e ∈ lc, e.2.Nodup

theorem mapGet_jmMapValues {κ ν μ : Type} [DecidableEq κ] (f : κ → ν → μ)
    (m : JMap κ ν) (k : κ) :
    mapGet (jmMapValues f m) k = (mapGet m k).map (f k) := by
  induction m with
  | nil => rfl
  | cons e rest ih =>
    obtain ⟨a, b⟩ := e
    simp only [jmMapValues, List.map_cons] at ih ⊢
    by_cases h : a = k
    · subst h
      simp [mapGet]
    · simp [mapGet, h, ih]

theorem jmKeys_jmMapValues {κ ν μ : Type} (f : κ → ν → μ) (m : JMap κ ν) :
    jmKeys (jmMapValues f m) = jmKeys m := by
  induction m with
  | nil => rfl
  | cons e rest ih =>
    simp only [jmMapValues, jmKeys, List.map_cons] at ih ⊢
    rw [ih]

theorem mapGet_isSome_of_mem_keys {κ ν : Type} [DecidableEq κ] {m : JMap κ ν}
    {k : κ} (h : k ∈ jmKeys m) : (mapGet m k).isSome := by
  induction m with
  | nil => simp [jmKeys] at h
  | cons e rest ih =>
    by_cases he : e.1 = k
    · simp [mapGet, he]
    · simp only [jmKeys, List.map_cons, List.mem_cons] at h
      rcases h with h | h
      · exact absurd h.symm he
      · simpa [mapGet, he] using ih h

theorem jmMapValues_ext {κ ν μ : Type} (f g : κ → ν → μ) (m : JMap κ ν)
    (h : ∀ e ∈ m, f e.1 e.2 = g e.1 e.2) :
    jmMapValues f m = jmMapValues g m := by
  induction m with
  | nil => rfl
  | cons e rest ih =>
    simp only [jmMapValues, List.map_cons, List.cons.injEq] at ih ⊢
    constructor
    · rw [h e (by simp)]
    · exact ih fun x hx => h x (by simp [hx])

theorem jmMapValues_id {κ ν : Type} (m : JMap κ ν) :
    jmMapValues (fun _ v => v) m = m := by
  induction m with
  | nil => rfl
  | cons e rest ih =>
    simp only [jmMapValues, List.map_cons] at ih ⊢
    rw [ih]

theorem jmMapValues_not_mem {κ ν μ : Type} [DecidableEq κ] (f : κ → ν → μ)
    (g : κ → ν → μ) (m : JMap κ ν) (k : κ) (hk : k ∉ jmKeys m)
    (h : ∀ a b, a ≠ k → f a b = g a b) :
    jmMapValues f m = jmMapValues g m := by
  refine jmMapValues_ext f g m fun e he => h e.1 e.2 fun hek => hk ?_
  rw [← hek]
  exact List.mem_map_of_mem Prod.fst he

theorem mapSet_jmMapValues {κ ν μ : Type} [DecidableEq κ] (f g : κ → ν → μ)
    (m : JMap κ ν) (k : κ) (ck : ν) (hnd : (jmKeys m).Nodup)
    (hget : mapGet m k = some ck)
    (hother : ∀ a b, a ≠ k → g a b = f a b) :
    mapSet (jmMapValues f m) k (g k ck) = jmMapValues g m := by
  induction m with
  | nil => simp [mapGet] at hget
  | cons e rest ih =>
    obtain ⟨a, b⟩ := e
    simp only [jmKeys, List.map_cons, List.nodup_cons] at hnd
    by_cases h : a = k
    · subst h
      simp only [mapGet, if_pos] at hget
      rw [Option.some.injEq] at hget
      subst hget
      simp only [jmMapValues, List.map_cons, mapSet, if_pos, List.cons.injEq,
        true_and]
      exact jmMapValues_not_mem f g rest a hnd.1
        fun x y hx => (hother x y hx).symm
    · simp only [mapGet, if_neg h] at hget
      simp only [jmMapValues, List.map_cons, mapSet, if_neg h, List.cons.injEq]
      exact ⟨by rw [hother a b h], ih hnd.2 hget⟩

/-! ## Counterexample theorems -/

/-- C6 counterexample.  The claim asserts that under a strict pigeonhole
    violation the shared candidates are removed only from letters
    *outside* the sharing group, the sharers' own sets being left
    unchanged.  In `wcC6` the letters `X`, `Y`, `Z` (three letters) share
    the two-element candidate set `{A, B}`; the source's rule
    `currentCandidateLetters.size < letters.size` applies to *every*
    letter, sharers included, so `X`'s candidate set ends up empty instead
    of remaining `{A, B}`. -/
theorem c6_counterexample :
    mapGet (initialLetterCandidates wcC6 dictC6) 'X' = some ['A', 'B'] ∧
    mapGet (initialLetterCandidates wcC6 dictC6) 'Y' = some ['A', 'B'] ∧
    mapGet (initialLetterCandidates wcC6 dictC6) 'Z' = some ['A', 'B'] ∧
    mapGet (computeLetterCandidates wcC6 dictC6) 'X' ≠ some ['A', 'B'] := by
  decide

/-- C7 counterexample.  The claim asserts each child fixes one word to its
    first candidate "while leaving every other word's candidate set
    unchanged".  On `wcC7` the second emitted child fixes `V` to `c` but
    the earlier word `U`'s candidate set is `{b}`, not the untouched
    `{a, b}`: the source removes the first candidate of every previously
    processed multi-candidate word from the children that follow. -/
theorem c7_counterexample :
    partitionWordCandidates wcC7 =
      [[(['U'], [['a']]), (['V'], [['c'], ['d']])],
       [(['U'], [['b']]), (['V'], [['c']])],
       [(['U'], [['b']]), (['V'], [['d']])]] ∧
    mapGet ((partitionWordCandidates wcC7).getD 1 []) ['U'] ≠ some [['a'], ['b']] := by
  decide

/-- C8 counterexample.  Pruning `wcC8` succeeds and removes candidate `AB`
    of the word `XY`; pruning the result again succeeds and further
    removes candidate `A` of the word `X` (whose only support was the
    removed `AB`), so `prune (prune WC) ≠ prune WC`. -/
theorem c8_counterexample :
    pruneWordCandidates wcC8 dictC8 =
      some [(['X','Y'], [['C','D']]), (['X'], [['A'], ['C']]), (['Y'], [['D']])] ∧
    pruneWordCandidates
      [(['X','Y'], [['C','D']]), (['X'], [['A'], ['C']]), (['Y'], [['D']])] dictC8 =
      some [(['X','Y'], [['C','D']]), (['X'], [['C']]), (['Y'], [['D']])] ∧
    ([(['X','Y'], [['C','D']]), (['X'], [['C']]), (['Y'], [['D']])] :
        JMap (List Char) (List (List Char))) ≠
      [(['X','Y'], [['C','D']]), (['X'], [['A'], ['C']]), (['Y'], [['D']])] := by
  decide

/-- C3 counterexample.  On the ciphertext `"!!!"` (no words after
    tokenization) with `maxSolutionCount = 0 ≤ 0` the solver neither
    throws nor reports `InvalidInput`: it returns normally with an empty
    solution map (via the brute-force path, whose single attempt finds no
    valid words). -/
theorem c3_counterexample :
    solveCryptogram "!!!".toList dict26 0 10 (fun _ => 0) =
      some (Except.ok []) ∧
    solveCryptogram "!!!".toList dict26 0 10 (fun _ => 0) ≠
      some (Except.error SolveError.invalidInput) :=
  ⟨by decide, by decide⟩

/-- C2 counterexample.  Two calls on the single-word ciphertext `"A"`
    (same dictionary, same `maxSolutionCount`, same unlimited budget)
    return different outputs for different draws of `Math.random`: the
    brute-force path maps `A` to the first fresh random uppercase letter,
    yielding the solution `A → A` for one stream and `A → E` for
    another. -/
theorem c2_counterexample :
    solveCryptogram "A".toList dictA 1 10 (fun _ => 0) ≠
    solveCryptogram "A".toList dictA 1 10 (fun _ => 4) := by
  decide

/-- C5 counterexample.  On the single-word ciphertext `"BA"` the
    brute-force path returns the solution `AB` with cipher entries
    `[B ↦ A, A ↦ B]` — in first-appearance order of the ciphertext
    letters, not sorted by ciphertext letter ascending as the claim
    requires of every returned solution. -/
theorem c5_counterexample :
    solveCryptogram "BA".toList dictBA 1 10 (fun k => k) =
      some (Except.ok [(['A','B'], [('B','A'), ('A','B')])]) ∧
    ¬ List.Pairwise (fun x y : Char × Char => x.1 ≤ y.1)
        [('B','A'), ('A','B')] := by
  decide

/-- C1 counterexample.  On ciphertext `"A AA"` with dictionary `{E: 1}`
    the main search finds nothing (no dictionary word has pattern `aa`),
    so the frequency-analysis fallback runs; its deterministic base
    attempt maps `A ↦ E`, and `1/2 ≥ 0.3` of the plaintext words are in
    the dictionary, so the solver returns the pair
    `("E EE", {A ↦ E})` — whose plaintext word `EE` is in neither
    `word_frequencies` nor `pattern_words`, contradicting the claimed
    dictionary membership of every plaintext word. -/
theorem c1_counterexample :
    solveCryptogram "A AA".toList dictEE 1 10 (fun _ => 0) =
      some (Except.ok [(['E',' ','E','E'], [('A','E')])]) ∧
    ['E','E'] ∈ parseWords ['E',' ','E','E'] dictEE.alphabet ∧
    mapGet dictEE.wordFrequencies ['E','E'] = none ∧
    mapGet dictEE.patternWords (computePattern ['E','E']) = none := by
  decide

/-! ## Amended and confirmed claim theorems -/

theorem pruneWordCandidates_some {wordCandidates : JMap (List Char) (List (List Char))}
    {dictionary : Dictionary} {pruned : JMap (List Char) (List (List Char))}
    (h : pruneWordCandidates wordCandidates dictionary = some pruned) :
    pruned = jmMapValues (fun word candidateWords =>
      candidateWords.filter fun candidateWord =>
        (zipWords word candidateWord).all fun p =>
          p.2 ∈ ((mapGet (computeLetterCandidates wordCandidates dictionary) p.1).getD []))
      wordCandidates := by
  unfold pruneWordCandidates at h
  simp only at h
  split at h
  · exact (Option.some.inj h).symm
  · exact absurd h (by simp)

/-- C8 amended.  Pruning is not idempotent (see the counterexample), but it
    is decreasing: when both prunes succeed, the twice-pruned map has
    exactly the same words and, word by word, a subset of the once-pruned
    candidate sets. -/
theorem c8_amended_prune_decreasing
    (wordCandidates : JMap (List Char) (List (List Char))) (dictionary : Dictionary)
    (wc1 wc2 : JMap (List Char) (List (List Char)))
    (h1 : pruneWordCandidates wordCandidates dictionary = some wc1)
    (h2 : pruneWordCandidates wc1 dictionary = some wc2) :
    jmKeys wc2 = jmKeys wc1 ∧
    ∀ word candidateWords2, mapGet wc2 word = some candidateWords2 →
      ∃ candidateWords1, mapGet wc1 word = some candidateWords1 ∧
        candidateWords2 ⊆ candidateWords1 := by
  have e2 := pruneWordCandidates_some h2
  subst e2
  refine ⟨jmKeys_jmMapValues _ _, ?_⟩
  intro word c2 hg
  rw [mapGet_jmMapValues] at hg
  cases hmg : mapGet wc1 word with
  | none => rw [hmg] at hg; simp at hg
  | some c1 =>
    rw [hmg] at hg
    simp only [Option.map_some'] at hg
    refine ⟨c1, rfl, ?_⟩
    intro x hx
    rw [← Option.some.inj hg] at hx
    exact List.mem_of_mem_filter hx

/-- C8 witness: the amended statement applied to the counterexample's
    concrete maps. -/
theorem c8_amended_witness :
    jmKeys ([(['X','Y'], [['C','D']]), (['X'], [['C']]), (['Y'], [['D']])] :
        JMap (List Char) (List (List Char))) =
      jmKeys ([(['X','Y'], [['C','D']]), (['X'], [['A'], ['C']]), (['Y'], [['D']])] :
        JMap (List Char) (List (List Char))) ∧
    ∀ word candidateWords2,
      mapGet ([(['X','Y'], [['C','D']]), (['X'], [['C']]), (['Y'], [['D']])] :
        JMap (List Char) (List (List Char))) word = some candidateWords2 →
      ∃ candidateWords1,
        mapGet ([(['X','Y'], [['C','D']]), (['X'], [['A'], ['C']]), (['Y'], [['D']])] :
          JMap (List Char) (List (List Char))) word = some candidateWords1 ∧
          candidateWords2 ⊆ candidateWords1 :=
  c8_amended_prune_decreasing wcC8 dictC8
    [(['X','Y'], [['C','D']]), (['X'], [['A'], ['C']]), (['Y'], [['D']])]
    [(['X','Y'], [['C','D']]), (['X'], [['C']]), (['Y'], [['D']])]
    (by decide) (by decide)

theorem partitionLoop_spec (wc : JMap (List Char) (List (List Char))) :
    ∀ (ks E : List (List Char)) (acc : List (JMap (List Char) (List (List Char)))),
      (jmKeys wc).Nodup → ks.Nodup → (∀ w ∈ ks, w ∉ E) →
      (∀ w ∈ ks, (mapGet wc w).isSome) →
      partitionLoop ks (jmMapValues (fun w C => if w ∈ E then C.tail else C) wc) acc =
        (acc ++ descChildren wc E ks,
          jmMapValues (fun w C =>
            if w ∈ E ++ ks.filter (fun x => ((mapGet wc x).getD []).length > 1)
            then C.tail else C) wc) := by
  intro ks
  induction ks with
  | nil =>
    intro E acc _ _ _ _
    simp [partitionLoop, descChildren]
  | cons w rest ih =>
    intro E acc hnd hnodup hdisj hsome
    obtain ⟨C, hC⟩ := Option.isSome_iff_exists.mp (hsome w (by simp))
    have hwE : w ∉ E := hdisj w (by simp)
    have hwrest : w ∉ rest := (List.nodup_cons.mp hnodup).1
    have hremget :
        mapGet (jmMapValues (fun w C => if w ∈ E then C.tail else C) wc) w = some C := by
      rw [mapGet_jmMapValues, hC]
      simp [hwE]
    have hrest_nodup : rest.Nodup := (List.nodup_cons.mp hnodup).2
    match hCshape : C with
    | [] =>
      subst hCshape
      have hmulti : ¬ ((mapGet wc w).getD []).length > 1 := by
        rw [hC]
        simp
      rw [partitionLoop, hremget]
      simp only [Option.getD_some]
      rw [ih E acc hnd hrest_nodup (fun x hx => hdisj x (by simp [hx]))
        (fun x hx => hsome x (by simp [hx]))]
      rw [descChildren, if_neg hmulti]
      simp [List.filter_cons, hmulti]
    | [c] =>
      subst hCshape
      have hmulti : ¬ ((mapGet wc w).getD []).length > 1 := by
        rw [hC]
        simp
      rw [partitionLoop, hremget]
      simp only [Option.getD_some]
      rw [ih E acc hnd hrest_nodup (fun x hx => hdisj x (by simp [hx]))
        (fun x hx => hsome x (by simp [hx]))]
      rw [descChildren, if_neg hmulti]
      simp [List.filter_cons, hmulti]
    | c :: c2 :: cs =>
      subst hCshape
      have hmulti : ((mapGet wc w).getD []).length > 1 := by
        rw [hC]
        simp
      rw [partitionLoop, hremget]
      simp only [Option.getD_some, List.tail_cons]
      -- the mutated remaining map is the (E ++ [w])-tailed map
      have hset1 : mapSet (jmMapValues (fun w' C' => if w' ∈ E then C'.tail else C') wc)
          w (c2 :: cs) =
          jmMapValues (fun w' C' => if w' ∈ E ++ [w] then C'.tail else C') wc := by
        have hs := mapSet_jmMapValues (fun w' C' => if w' ∈ E then C'.tail else C')
          (fun w' C' => if w' ∈ E ++ [w] then C'.tail else C') wc w (c :: c2 :: cs) hnd hC
          (by
            intro a b ha
            simp only [List.mem_append, List.mem_singleton, ha, or_false])
        have hval : ((fun w' (C' : List (List Char)) =>
            if w' ∈ E ++ [w] then C'.tail else C') w (c :: c2 :: cs)) = c2 :: cs := by
          simp
        rw [hval] at hs
        rw [← hs]
      have hset2 : mapSet (jmMapValues (fun w' C' => if w' ∈ E ++ [w] then C'.tail else C') wc)
          w [c] = fixFirstChild wc w E := by
        have hs := mapSet_jmMapValues (fun w' C' => if w' ∈ E ++ [w] then C'.tail else C')
          (fun w' C' => if w' = w then [C'.headD []]
            else if w' ∈ E then C'.tail else C') wc w (c :: c2 :: cs) hnd hC
          (by
            intro a b ha
            simp only [List.mem_append, List.mem_singleton, ha, or_false, if_neg ha,
              if_false])
        have hval : ((fun w' (C' : List (List Char)) =>
            if w' = w then [C'.headD []] else if w' ∈ E then C'.tail else C')
            w (c :: c2 :: cs)) = [c] := by
          simp
        rw [hval] at hs
        unfold fixFirstChild
        rw [← hs]
      rw [hset1, hset2]
      rw [ih (E ++ [w]) (acc ++ [fixFirstChild wc w E]) hnd hrest_nodup
        (by
          intro x hx
          simp only [List.mem_append, List.mem_singleton]
          push_neg
          exact ⟨hdisj x (by simp [hx]), by
            intro hxw
            exact hwrest (hxw ▸ hx)⟩)
        (fun x hx => hsome x (by simp [hx]))]
      rw [descChildren, if_pos hmulti]
      simp only [Prod.mk.injEq]
      constructor
      · simp
      · apply jmMapValues_ext
        intro e _
        have hfilter :
            List.filter (fun x => decide (((mapGet wc x).getD []).length > 1)) (w :: rest)
              = w :: List.filter
                  (fun x => decide (((mapGet wc x).getD []).length > 1)) rest := by
          simp [List.filter_cons, hmulti]
        rw [hfilter]
        apply if_congr _ rfl rfl
        simp only [List.mem_append, List.mem_cons, List.mem_singleton]
        tauto

theorem mapGet_of_mem_nodup {κ ν : Type} [DecidableEq κ] {m : JMap κ ν}
    (hnd : (jmKeys m).Nodup) {e : κ × ν} (he : e ∈ m) :
    mapGet m e.1 = some e.2 := by
  induction m with
  | nil => simp at he
  | cons x rest ih =>
    simp only [jmKeys, List.map_cons, List.nodup_cons] at hnd
    rcases List.mem_cons.mp he with h | h
    · subst h
      simp [mapGet]
    · have hx : x.1 ≠ e.1 := by
        intro hxe
        exact hnd.1 (hxe ▸ List.mem_map_of_mem Prod.fst h)
      simp only [mapGet, if_neg hx]
      exact ih hnd.2 h

/-- C7 amended.  `partitionWordCandidates` emits, for each multi-candidate
    word in iteration order, one child that fixes that word to its first
    candidate — with the first candidates of all *previously* fixed
    multi-candidate words removed (not with every other word untouched, as
    the claim put it) and later words unchanged — followed by one final
    remainder child in which every multi-candidate word has had its first
    candidate removed; and the driver pushes the emitted children in
    reverse order. -/
theorem c7_amended_partition_structure
    (wordCandidates : JMap (List Char) (List (List Char)))
    (hnd : (jmKeys wordCandidates).Nodup) :
    partitionWordCandidates wordCandidates =
      descChildren wordCandidates [] (jmKeys wordCandidates) ++
        [removeFirstAll wordCandidates] ∧
    ∀ (ciphertext : List Char) (dictionary : Dictionary) (maxSolutionCount : Int)
      (fuel : Nat) (stack : List (JMap (List Char) (List (List Char))))
      (solutions : Sols) (popped pruned : JMap (List Char) (List (List Char))),
      stack.getLast? = some popped →
      pruneWordCandidates popped dictionary = some pruned →
      ((pruned.map fun e => e.2.length).max?).getD 0 > 1 →
      (solutions.length : Int) < maxSolutionCount →
      stack.dropLast ++ (partitionWordCandidates pruned).reverse ≠ [] →
      mainSearchLoop ciphertext dictionary maxSolutionCount (fuel + 1) stack solutions =
        mainSearchLoop ciphertext dictionary maxSolutionCount fuel
          (stack.dropLast ++ (partitionWordCandidates pruned).reverse) solutions := by
  constructor
  · have hp := partitionLoop_spec wordCandidates (jmKeys wordCandidates) [] [] hnd hnd
      (by simp) (fun w hw => mapGet_isSome_of_mem_keys hw)
    have h0 : jmMapValues (fun w (C : List (List Char)) =>
        if w ∈ ([] : List (List Char)) then C.tail else C) wordCandidates =
        wordCandidates := by
      rw [jmMapValues_ext _ (fun _ v => v) _ (by intro e _; simp), jmMapValues_id]
    rw [h0] at hp
    unfold partitionWordCandidates
    rw [hp]
    simp only [List.nil_append]
    congr 1
    congr 1
    unfold removeFirstAll
    apply jmMapValues_ext
    intro e he
    apply if_congr _ rfl rfl
    simp only [List.nil_append, List.mem_filter, decide_eq_true_eq]
    constructor
    · intro h
      rw [mapGet_of_mem_nodup hnd he] at h
      simpa using h.2
    · intro h
      refine ⟨List.mem_map_of_mem Prod.fst he, ?_⟩
      rw [mapGet_of_mem_nodup hnd he]
      simpa using h
  · intro ciphertext dictionary maxSolutionCount fuel stack solutions popped pruned
      hlast hprune hmax hcount hne
    simp only [mainSearchLoop, hlast, hprune]
    rw [if_pos hmax, if_pos (And.intro hcount hne)]

/-- C7 witness: the amended statement applied to the concrete map `wcC7`,
    and the driver-step equation applied to the concrete search state of
    the `"AB CD"` cryptogram (whose pruned word candidates still have two
    candidates per word). -/
theorem c7_amended_witness :
    partitionWordCandidates wcC7 =
      descChildren wcC7 [] (jmKeys wcC7) ++ [removeFirstAll wcC7] ∧
    mainSearchLoop "AB CD".toList dictABCD 2 6
        [[(['A','B'], [['A','B'], ['C','D']]), (['C','D'], [['A','B'], ['C','D']])]] [] =
      mainSearchLoop "AB CD".toList dictABCD 2 5
        (([[(['A','B'], [['A','B'], ['C','D']]), (['C','D'], [['A','B'], ['C','D']])]] :
            List (JMap (List Char) (List (List Char)))).dropLast ++
          (partitionWordCandidates
            [(['A','B'], [['A','B'], ['C','D']]), (['C','D'], [['A','B'], ['C','D']])]).reverse)
        [] :=
  ⟨(c7_amended_partition_structure wcC7 (by decide)).1,
    (c7_amended_partition_structure
        [(['A','B'], [['A','B'], ['C','D']]), (['C','D'], [['A','B'], ['C','D']])]
        (by decide)).2
      "AB CD".toList dictABCD 2 5
      [[(['A','B'], [['A','B'], ['C','D']]), (['C','D'], [['A','B'], ['C','D']])]] []
      [(['A','B'], [['A','B'], ['C','D']]), (['C','D'], [['A','B'], ['C','D']])]
      [(['A','B'], [['A','B'], ['C','D']]), (['C','D'], [['A','B'], ['C','D']])]
      (by decide) (by decide) (by decide) (by decide) (by decide)⟩

theorem mem_of_mapGet_some {κ ν : Type} [DecidableEq κ] {m : JMap κ ν} {k : κ}
    {v : ν} (h : mapGet m k = some v) : (k, v) ∈ m := by
  induction m with
  | nil => simp [mapGet] at h
  | cons e rest ih =>
    by_cases he : e.1 = k
    · simp only [mapGet, if_pos he] at h
      have : e = (k, v) := by
        obtain ⟨a, b⟩ := e
        simp only at he
        simp only [Option.some.injEq] at h
        simp [he, h]
      rw [← this]
      exact List.mem_cons_self e rest
    · simp only [mapGet, if_neg he] at h
      exact List.mem_cons_of_mem _ (ih h)

theorem mapGet_mapSet_self {κ ν : Type} [DecidableEq κ] (m : JMap κ ν) (k : κ)
    (v : ν) : mapGet (mapSet m k v) k = some v := by
  induction m with
  | nil => simp [mapSet, mapGet]
  | cons e rest ih =>
    by_cases he : e.1 = k
    · simp [mapSet, mapGet, he]
    · simp [mapSet, mapGet, he, ih]

theorem mapGet_mapSet_ne {κ ν : Type} [DecidableEq κ] (m : JMap κ ν) (k k' : κ)
    (v : ν) (h : k ≠ k') : mapGet (mapSet m k v) k' = mapGet m k' := by
  induction m with
  | nil => simp [mapSet, mapGet, h]
  | cons e rest ih =>
    by_cases he : e.1 = k
    · subst he
      simp [mapSet, mapGet, h]
    · simp [mapSet, mapGet, he, ih]

theorem mapGet_append {κ ν : Type} [DecidableEq κ] (m1 m2 : JMap κ ν) (k : κ) :
    mapGet (m1 ++ m2) k = ((mapGet m1 k).map some).getD (mapGet m2 k) := by
  induction m1 with
  | nil => simp [mapGet]
  | cons e rest ih =>
    by_cases he : e.1 = k
    · simp [mapGet, he]
    · simpa [mapGet, he] using ih

theorem mapGet_eq_none_iff {κ ν : Type} [DecidableEq κ] (m : JMap κ ν) (k : κ) :
    mapGet m k = none ↔ k ∉ jmKeys m := by
  induction m with
  | nil => simp [mapGet, jmKeys]
  | cons e rest ih =>
    by_cases he : e.1 = k
    · simp [mapGet, he, jmKeys]
    · simp [mapGet, he, jmKeys, ih, Ne.symm he]

theorem jmKeys_mapSet_of_mem {κ ν : Type} [DecidableEq κ] (m : JMap κ ν) (k : κ)
    (v : ν) (h : k ∈ jmKeys m) : jmKeys (mapSet m k v) = jmKeys m := by
  induction m with
  | nil => simp [jmKeys] at h
  | cons e rest ih =>
    by_cases he : e.1 = k
    · simp [mapSet, he, jmKeys]
    · simp only [jmKeys, List.map_cons, List.mem_cons] at h
      rcases h with h | h
      · exact absurd h.symm he
      · have := ih h
        simp only [jmKeys] at this
        simp [mapSet, he, jmKeys, this]

theorem mem_slAdd {α : Type} [DecidableEq α] (s : List α) (a x : α) :
    x ∈ slAdd s a ↔ x ∈ s ∨ x = a := by
  unfold slAdd
  by_cases h : a ∈ s
  · simp only [if_pos h]
    constructor
    · exact Or.inl
    · rintro (hx | hx)
      · exact hx
      · exact hx ▸ h
  · simp [if_neg h]

theorem mem_dedupFirstGo {α : Type} [DecidableEq α] (l : List α) :
    ∀ (seen : List α) (x : α), x ∈ dedupFirstGo seen l ↔ x ∈ l ∧ x ∉ seen := by
  induction l with
  | nil => simp [dedupFirstGo]
  | cons a rest ih =>
    intro seen x
    by_cases ha : a ∈ seen
    · simp only [dedupFirstGo, if_pos ha, ih, List.mem_cons]
      constructor
      · rintro ⟨hx, hs⟩
        exact ⟨Or.inr hx, hs⟩
      · rintro ⟨hx | hx, hs⟩
        · exact absurd (hx ▸ ha) hs
        · exact ⟨hx, hs⟩
    · simp only [dedupFirstGo, if_neg ha, List.mem_cons, ih]
      constructor
      · rintro (hx | ⟨hx, hs⟩)
        · exact ⟨Or.inl hx, hx ▸ ha⟩
        · simp only [List.mem_cons, not_or] at hs
          exact ⟨Or.inr hx, hs.2⟩
      · rintro ⟨hx | hx, hs⟩
        · exact Or.inl hx
        · by_cases hxa : x = a
          · exact Or.inl hxa
          · exact Or.inr ⟨hx, by simp [hs, hxa]⟩

theorem mem_dedupFirst {α : Type} [DecidableEq α] (l : List α) (x : α) :
    x ∈ dedupFirst l ↔ x ∈ l := by
  unfold dedupFirst
  simp [mem_dedupFirstGo]

theorem insertSorted_perm {α : Type} (le : α → α → Bool) (a : α) (l : List α) :
    List.Perm (insertSorted le a l) (a :: l) := by
  induction l with
  | nil => simp [insertSorted]
  | cons b rest ih =>
    unfold insertSorted
    by_cases h : le b a
    · simp only [if_pos h]
      exact (List.Perm.cons b ih).trans (List.Perm.swap a b rest)
    · simp [if_neg h]

theorem stableSort_perm {α : Type} (le : α → α → Bool) (l : List α) :
    List.Perm (stableSort le l) l := by
  suffices h : ∀ (acc : List α),
      List.Perm (l.foldl (fun acc a => insertSorted le a acc) acc) (l.reverse ++ acc) by
    have := h []
    simp only [List.append_nil] at this
    exact this.trans (List.reverse_perm l)
  induction l with
  | nil => intro acc; simp
  | cons a rest ih =>
    intro acc
    simp only [List.foldl_cons, List.reverse_cons, List.append_assoc,
      List.singleton_append]
    refine (ih (insertSorted le a acc)).trans ?_
    exact List.Perm.append_left _ (insertSorted_perm le a acc)

theorem mem_stableSort {α : Type} (le : α → α → Bool) (l : List α) (x : α) :
    x ∈ stableSort le l ↔ x ∈ l :=
  (stableSort_perm le l).mem_iff

/-- C6 amended.  During pigeonhole closure, when the number of letters
    sharing an identical candidate set strictly exceeds that set's size,
    the shared candidate letters are removed from the candidate sets of
    *every* letter — the sharers included, whose sets therefore become
    empty — and no failure is raised at that stage: the loop simply
    carries on with the reduced map (infeasibility is left for
    word-pruning to detect). -/
theorem c6_amended_strict_violation_empties_sharers
    (letterCandidates : JMap Char (List Char)) (key letters : List Char)
    (hgrp : mapGet (groupByCandidates letterCandidates) key = some letters)
    (hviol : (dedupFirst key).length < letters.length) :
    (∀ letter c, c ∈ dedupFirst key →
      c ∉ (mapGet (pigeonholePass letterCandidates) letter).getD []) ∧
    (∀ letter cands, mapGet letterCandidates letter = some cands →
      stableSort (fun a b => a ≤ b) cands = key →
      mapGet (pigeonholePass letterCandidates) letter = some []) ∧
    (∀ fuel, pigeonholeLoop (fuel + 1) letterCandidates =
      if pigeonholePass letterCandidates = letterCandidates
      then pigeonholePass letterCandidates
      else pigeonholeLoop fuel (pigeonholePass letterCandidates)) := by
  have hremove : ∀ letter c, c ∈ dedupFirst key →
      pigeonholeRemoves (groupByCandidates letterCandidates) letter c = true := by
    intro letter c hc
    unfold pigeonholeRemoves
    rw [List.any_eq_true]
    refine ⟨(key, letters), mem_of_mapGet_some hgrp, ?_⟩
    simp only [decide_eq_true_eq]
    exact ⟨Or.inr hviol, hc⟩
  refine ⟨?_, ?_, ?_⟩
  · intro letter c hc
    unfold pigeonholePass
    rw [mapGet_jmMapValues]
    cases hg : mapGet letterCandidates letter with
    | none => simp
    | some cands =>
      simp only [Option.map_some', Option.getD_some, List.mem_filter]
      rintro ⟨-, habs⟩
      rw [hremove letter c hc] at habs
      simp at habs
  · intro letter cands hg hsorted
    unfold pigeonholePass
    rw [mapGet_jmMapValues, hg]
    simp only [Option.map_some', Option.some.injEq]
    rw [List.filter_eq_nil]
    intro c hc
    have hckey : c ∈ dedupFirst key := by
      rw [mem_dedupFirst, ← hsorted, mem_stableSort]
      exact hc
    rw [hremove letter c hckey]
    simp
  · intro fuel
    rfl

/-- C6 witness: the amended statement applied to the letter candidates of
    `wcC6`, where the three letters `X`, `Y`, `Z` share the two-element
    candidate set `{A, B}`. -/
theorem c6_amended_witness :
    (∀ letter c, c ∈ dedupFirst ['A', 'B'] →
      c ∉ (mapGet (pigeonholePass
        [('A', ['A','B','X','Y','Z']), ('B', ['A','B','X','Y','Z']),
          ('X', ['A','B']), ('Y', ['A','B']), ('Z', ['A','B'])]) letter).getD []) ∧
    (∀ letter cands,
      mapGet [('A', ['A','B','X','Y','Z']), ('B', ['A','B','X','Y','Z']),
          ('X', ['A','B']), ('Y', ['A','B']), ('Z', ['A','B'])] letter = some cands →
      stableSort (fun a b => a ≤ b) cands = ['A', 'B'] →
      mapGet (pigeonholePass
        [('A', ['A','B','X','Y','Z']), ('B', ['A','B','X','Y','Z']),
          ('X', ['A','B']), ('Y', ['A','B']), ('Z', ['A','B'])]) letter = some []) ∧
    (∀ fuel, pigeonholeLoop (fuel + 1)
        [('A', ['A','B','X','Y','Z']), ('B', ['A','B','X','Y','Z']),
          ('X', ['A','B']), ('Y', ['A','B']), ('Z', ['A','B'])] =
      if pigeonholePass
          [('A', ['A','B','X','Y','Z']), ('B', ['A','B','X','Y','Z']),
            ('X', ['A','B']), ('Y', ['A','B']), ('Z', ['A','B'])] =
          [('A', ['A','B','X','Y','Z']), ('B', ['A','B','X','Y','Z']),
            ('X', ['A','B']), ('Y', ['A','B']), ('Z', ['A','B'])]
      then pigeonholePass
        [('A', ['A','B','X','Y','Z']), ('B', ['A','B','X','Y','Z']),
          ('X', ['A','B']), ('Y', ['A','B']), ('Z', ['A','B'])]
      else pigeonholeLoop fuel (pigeonholePass
        [('A', ['A','B','X','Y','Z']), ('B', ['A','B','X','Y','Z']),
          ('X', ['A','B']), ('Y', ['A','B']), ('Z', ['A','B'])])) :=
  c6_amended_strict_violation_empties_sharers
    [('A', ['A','B','X','Y','Z']), ('B', ['A','B','X','Y','Z']),
      ('X', ['A','B']), ('Y', ['A','B']), ('Z', ['A','B'])]
    ['A', 'B'] ['X', 'Y', 'Z'] (by decide) (by decide)

/-- C2 amended.  The randomized fallbacks make `solveCryptogram` as a whole
    nondeterministic (see the counterexample), but whenever the ciphertext
    has at least two distinct words and the constraint-propagation search
    itself produces at least one solution, no fallback runs and the output
    is independent of the random stream: any two calls agree. -/
theorem c2_amended_main_path_deterministic
    (ciphertext : List Char) (dictionary : Dictionary) (maxSolutionCount : Int)
    (fuel : Nat) (r1 r2 : Nat → Nat) (solutions : Sols) (timedOut : Bool)
    (hwords : 2 ≤ (parseWords ciphertext dictionary.alphabet).length)
    (hmain : mainSearchLoop ciphertext dictionary maxSolutionCount fuel
      [findWordCandidates (parseWords ciphertext dictionary.alphabet) dictionary] [] =
      Except.ok (solutions, timedOut))
    (hsols : solutions ≠ []) :
    solveCryptogram ciphertext dictionary maxSolutionCount fuel r1 =
      solveCryptogram ciphertext dictionary maxSolutionCount fuel r2 := by
  unfold solveCryptogram
  rw [if_neg (by omega), if_neg (by omega), hmain]
  simp only []
  rw [if_neg (by simp [hsols]), if_neg (by simp [hsols])]

/-- C2 witness: the amended statement applied to the `"AB CD"` cryptogram
    over `{AB: 1, CD: 1}` (whose search finds two solutions) and two
    different random streams. -/
theorem c2_amended_witness :
    2 ≤ (parseWords "AB CD".toList dictABCD.alphabet).length ∧
    solveCryptogram "AB CD".toList dictABCD 2 10 (fun _ => 0) =
      solveCryptogram "AB CD".toList dictABCD 2 10 (fun _ => 7) :=
  ⟨by decide,
    c2_amended_main_path_deterministic "AB CD".toList dictABCD 2 10
      (fun _ => 0) (fun _ => 7)
      [(['A','B',' ','C','D'], (mkRat 1 1, [('A','A'),('B','B'),('C','C'),('D','D')])),
        (['C','D',' ','A','B'], (mkRat 1 1, [('A','C'),('B','D'),('C','A'),('D','B')]))]
      false (by decide) (by decide) (by decide)⟩

theorem splitRunsGo_nil_of_no_alpha (alphabet : List Char) :
    ∀ text : List Char, (∀ c ∈ text, c ∉ alphabet) →
      splitRunsGo alphabet [] text = [] := by
  intro text
  induction text with
  | nil => intro _; rfl
  | cons c rest ih =>
    intro h
    unfold splitRunsGo
    rw [if_neg (h c (by simp)), if_pos rfl]
    exact ih fun x hx => h x (by simp [hx])

/-- C3 amended.  `solveCryptogram` performs no input validation and never
    fails with `InvalidInput`: on a ciphertext with no words after
    tokenization it returns normally with an empty solution map (via the
    brute-force path), for every `maxSolutionCount` — including
    `maxSolutionCount ≤ 0` — every random stream and every budget. -/
theorem c3_amended_no_invalid_input
    (ciphertext : List Char) (dictionary : Dictionary) (maxSolutionCount : Int)
    (fuel : Nat) (r : Nat → Nat)
    (h : ∀ c ∈ ciphertext, c ∉ dictionary.alphabet) :
    solveCryptogram ciphertext dictionary maxSolutionCount fuel r =
      some (Except.ok []) := by
  have hwords : parseWords ciphertext dictionary.alphabet = [] := by
    unfold parseWords splitRuns
    rw [splitRunsGo_nil_of_no_alpha dictionary.alphabet ciphertext h]
    rfl
  have hfilter : ciphertext.filter (· ∈ dictionary.alphabet) = [] := by
    rw [List.filter_eq_nil]
    intro a ha
    simp [h a ha]
  have hdecrypt : decryptCiphertext ciphertext [] = ciphertext := by
    unfold decryptCiphertext
    simp [mapGet]
  have hvalid : validWordRatioAtLeast ciphertext dictionary 1 2 = false := by
    unfold validWordRatioAtLeast
    rw [hwords]
    simp
  unfold solveCryptogram
  rw [hwords]
  simp only [List.length_nil, Nat.zero_lt_succ, if_pos]
  unfold tryBruteForceForShortCryptogram
  rw [hfilter]
  have hded : dedupFirst ([] : List Char) = [] := rfl
  rw [hded]
  simp only [List.length_nil, gt_iff_lt, Nat.not_lt_zero, if_false, pow_zero]
  have hmin : min 1000 1 = 1 := by decide
  rw [hmin]
  unfold bruteLoop
  unfold buildRandomCipher
  simp only [Option.map_some']
  rw [hdecrypt, hvalid]
  simp [bruteLoop]

/-- C3 witness: the amended statement applied to the wordless ciphertext
    `"!!!"` with `maxSolutionCount = 0`. -/
theorem c3_amended_witness :
    (∀ c ∈ "!!!".toList, c ∉ dict26.alphabet) ∧
    solveCryptogram "!!!".toList dict26 0 10 (fun _ => 0) = some (Except.ok []) :=
  ⟨by decide,
    c3_amended_no_invalid_input "!!!".toList dict26 0 10 (fun _ => 0) (by decide)⟩

theorem mem_mapSet {κ ν : Type} [DecidableEq κ] {m : JMap κ ν} {k : κ} {v : ν}
    {p : κ × ν} (h : p ∈ mapSet m k v) : p ∈ m ∨ p = (k, v) := by
  induction m with
  | nil =>
    simp only [mapSet, List.mem_singleton] at h
    exact Or.inr h
  | cons e rest ih =>
    by_cases he : e.1 = k
    · simp only [mapSet, if_pos he, List.mem_cons] at h
      rcases h with h | h
      · exact Or.inr (by rw [h, ← he])
      · exact Or.inl (List.mem_cons_of_mem _ h)
    · simp only [mapSet, if_neg he, List.mem_cons] at h
      rcases h with h | h
      · exact Or.inl (h ▸ List.mem_cons_self e rest)
      · rcases ih h with h' | h'
        · exact Or.inl (List.mem_cons_of_mem _ h')
        · exact Or.inr h'

theorem pickFreshLetter_upper (r : Nat → Nat) :
    ∀ (retries k : Nat) (used : List Char) (c : Char) (k' : Nat),
      pickFreshLetter r retries k used = some (c, k') →
      'A' ≤ c ∧ c ≤ 'Z' := by
  intro retries
  induction retries with
  | zero => intro k used c k' h; simp [pickFreshLetter] at h
  | succ n ih =>
    intro k used c k' h
    unfold pickFreshLetter at h
    simp only at h
    split at h
    · exact ih (k + 1) used c k' h
    · have hc : c = Char.ofNat (65 + r k % 26) := by
        simp only [Option.some.injEq, Prod.mk.injEq] at h
        exact h.1.symm
      subst hc
      have hm : r k % 26 < 26 := Nat.mod_lt _ (by decide)
      set m := r k % 26 with hmdef
      clear_value m
      interval_cases m <;> exact ⟨by decide, by decide⟩

theorem buildRandomCipher_upper (r : Nat → Nat) :
    ∀ (letters : List Char) (k : Nat) (cipher cipher' : JMap Char Char) (k' : Nat),
      buildRandomCipher r letters k cipher = some (cipher', k') →
      (∀ p ∈ cipher, 'A' ≤ p.2 ∧ p.2 ≤ 'Z') →
      ∀ p ∈ cipher', 'A' ≤ p.2 ∧ p.2 ≤ 'Z' := by
  intro letters
  induction letters with
  | nil =>
    intro k cipher cipher' k' h hinv
    simp only [buildRandomCipher, Option.some.injEq, Prod.mk.injEq] at h
    exact h.1 ▸ hinv
  | cons letter rest ih =>
    intro k cipher cipher' k' h hinv
    unfold buildRandomCipher at h
    cases hp : pickFreshLetter r 1000 k (jmValues cipher) with
    | none => rw [hp] at h; simp at h
    | some q =>
      rw [hp] at h
      simp only at h
      refine ih q.2 (mapSet cipher letter q.1) cipher' k' h ?_
      intro p hpmem
      rcases mem_mapSet hpmem with hm | hm
      · exact hinv p hm
      · rw [hm]
        exact pickFreshLetter_upper r 1000 k (jmValues cipher) q.1 q.2
          (by rw [hp])

theorem bruteLoop_upper (ciphertext : List Char) (dictionary : Dictionary)
    (maxSolutionCount : Int) (uniq : List Char) (r : Nat → Nat) :
    ∀ (n k : Nat) (sols sols' : Sols),
      (∀ e ∈ sols, ∀ p ∈ e.2.2, 'A' ≤ p.2 ∧ p.2 ≤ 'Z') →
      bruteLoop ciphertext dictionary maxSolutionCount uniq r n k sols = some sols' →
      ∀ e ∈ sols', ∀ p ∈ e.2.2, 'A' ≤ p.2 ∧ p.2 ≤ 'Z' := by
  intro n
  induction n with
  | zero =>
    intro k sols sols' hinv h
    simp only [bruteLoop, Option.some.injEq] at h
    exact h ▸ hinv
  | succ m ih =>
    intro k sols sols' hinv h
    unfold bruteLoop at h
    cases hb : buildRandomCipher r uniq k [] with
    | none => rw [hb] at h; simp at h
    | some q =>
      rw [hb] at h
      simp only at h
      have hciph : ∀ p ∈ q.1, 'A' ≤ p.2 ∧ p.2 ≤ 'Z' :=
        buildRandomCipher_upper r uniq k [] q.1 q.2 (by rw [hb])
          (by intro p hp; simp at hp)
      split at h
      · split at h
        · have hsols : sols' = mapSet sols
              (decryptCiphertext ciphertext q.1)
              (computeMeanFrequency (decryptCiphertext ciphertext q.1) dictionary,
                q.1) := (Option.some.inj h).symm
          subst hsols
          intro e he p hp
          rcases mem_mapSet he with hm | hm
          · exact hinv e hm p hp
          · rw [hm] at hp
            exact hciph p hp
        · refine ih q.2 _ sols' ?_ h
          intro e he p hp
          rcases mem_mapSet he with hm | hm
          · exact hinv e hm p hp
          · rw [hm] at hp
            exact hciph p hp
      · exact ih q.2 sols sols' hinv h

theorem bruteLoop_patternWords (ciphertext alpha : List Char)
    (pw pw' : JMap (List Nat) (List (List Char))) (wf : JMap (List Char) ℚ)
    (maxSolutionCount : Int) (uniq : List Char) (r : Nat → Nat) :
    ∀ (n k : Nat) (sols : Sols),
      bruteLoop ciphertext ⟨alpha, pw, wf⟩ maxSolutionCount uniq r n k sols =
      bruteLoop ciphertext ⟨alpha, pw', wf⟩ maxSolutionCount uniq r n k sols := by
  intro n
  induction n with
  | zero => intro k sols; rfl
  | succ m ih =>
    intro k sols
    unfold bruteLoop
    cases buildRandomCipher r uniq k [] with
    | none => rfl
    | some q =>
      simp only [validWordRatioAtLeast, computeMeanFrequency, parseWords]
      split
      · split
        · rfl
        · exact ih _ _
      · exact ih _ _

/-- C10 (confirmed).  When the ciphertext tokenizes to fewer than two
    distinct words, `solveCryptogram` goes straight to the random
    brute-force path: the result is exactly the brute-force result, it is
    unchanged under replacing `dictionary.patternWords` by anything (the
    constraint-propagation search is never consulted), and every cipher
    value of every returned solution is an uppercase letter between `A`
    and `Z`, regardless of the dictionary's alphabet. -/
theorem c10_short_input_bypass
    (ciphertext : List Char) (dictionary : Dictionary) (maxSolutionCount : Int)
    (fuel : Nat) (r : Nat → Nat)
    (hshort : (parseWords ciphertext dictionary.alphabet).length < 2) :
    solveCryptogram ciphertext dictionary maxSolutionCount fuel r =
      (tryBruteForceForShortCryptogram ciphertext dictionary maxSolutionCount r).map
        Except.ok ∧
    (∀ pw', solveCryptogram ciphertext
        ⟨dictionary.alphabet, pw', dictionary.wordFrequencies⟩ maxSolutionCount fuel r =
      solveCryptogram ciphertext dictionary maxSolutionCount fuel r) ∧
    (∀ m, solveCryptogram ciphertext dictionary maxSolutionCount fuel r =
        some (Except.ok m) →
      ∀ e ∈ m, ∀ p ∈ e.2, 'A' ≤ p.2 ∧ p.2 ≤ 'Z') := by
  have hbranch : solveCryptogram ciphertext dictionary maxSolutionCount fuel r =
      (tryBruteForceForShortCryptogram ciphertext dictionary maxSolutionCount r).map
        Except.ok := by
    unfold solveCryptogram
    rw [if_pos hshort]
  refine ⟨hbranch, ?_, ?_⟩
  · intro pw'
    obtain ⟨a, pw, wf⟩ := dictionary
    have hbranch' : solveCryptogram ciphertext ⟨a, pw', wf⟩ maxSolutionCount fuel r =
        (tryBruteForceForShortCryptogram ciphertext ⟨a, pw', wf⟩ maxSolutionCount r).map
          Except.ok := by
      unfold solveCryptogram
      rw [if_pos hshort]
    rw [hbranch, hbranch']
    unfold tryBruteForceForShortCryptogram
    simp only []
    rw [bruteLoop_patternWords ciphertext a pw' pw wf]
  · intro m hm
    rw [hbranch] at hm
    unfold tryBruteForceForShortCryptogram at hm
    simp only [] at hm
    split at hm
    · simp only [Option.map_some', Option.some.injEq, Except.ok.injEq] at hm
      subst hm
      intro e he
      simp at he
    · cases hb : bruteLoop ciphertext dictionary maxSolutionCount
        (dedupFirst (ciphertext.filter (· ∈ dictionary.alphabet))) r
        (min 1000 (26 ^ (dedupFirst (ciphertext.filter (· ∈ dictionary.alphabet))).length))
        0 [] with
      | none =>
        rw [hb] at hm
        simp at hm
      | some sols =>
        rw [hb] at hm
        simp only [Option.map_some', Option.some.injEq, Except.ok.injEq] at hm
        subst hm
        intro e he p hp
        simp only [List.mem_map] at he
        obtain ⟨x, hx, hxe⟩ := he
        have hup := bruteLoop_upper ciphertext dictionary maxSolutionCount
          (dedupFirst (ciphertext.filter (· ∈ dictionary.alphabet))) r
          (min 1000 (26 ^ (dedupFirst (ciphertext.filter (· ∈ dictionary.alphabet))).length))
          0 [] sols (by intro e he; simp at he) hb x hx
        rw [← hxe] at hp
        exact hup p hp

/-- C10 witness: the claim applied to the one-word ciphertext `"A"`. -/
theorem c10_witness :
    (parseWords "A".toList dictA.alphabet).length < 2 ∧
    (solveCryptogram "A".toList dictA 1 10 (fun _ => 0) =
      (tryBruteForceForShortCryptogram "A".toList dictA 1 (fun _ => 0)).map
        Except.ok ∧
    (∀ pw', solveCryptogram "A".toList
        ⟨dictA.alphabet, pw', dictA.wordFrequencies⟩ 1 10 (fun _ => 0) =
      solveCryptogram "A".toList dictA 1 10 (fun _ => 0)) ∧
    (∀ m, solveCryptogram "A".toList dictA 1 10 (fun _ => 0) =
        some (Except.ok m) →
      ∀ e ∈ m, ∀ p ∈ e.2, 'A' ≤ p.2 ∧ p.2 ≤ 'Z')) :=
  ⟨by decide, c10_short_input_bypass "A".toList dictA 1 10 (fun _ => 0) (by decide)⟩

theorem buildRandomCipher_covers (r : Nat → Nat) :
    ∀ (letters : List Char) (k : Nat) (c0 c' : JMap Char Char) (k' : Nat),
      buildRandomCipher r letters k c0 = some (c', k') →
      ∀ l, (l ∈ letters ∨ (mapGet c0 l).isSome) → (mapGet c' l).isSome := by
  intro letters
  induction letters with
  | nil =>
    intro k c0 c' k' h l hl
    simp only [buildRandomCipher, Option.some.injEq, Prod.mk.injEq] at h
    rcases hl with hl | hl
    · simp at hl
    · exact h.1 ▸ hl
  | cons letter rest ih =>
    intro k c0 c' k' h l hl
    unfold buildRandomCipher at h
    cases hp : pickFreshLetter r 1000 k (jmValues c0) with
    | none => rw [hp] at h; simp at h
    | some q =>
      rw [hp] at h
      simp only at h
      refine ih q.2 (mapSet c0 letter q.1) c' k' h l ?_
      rcases hl with hl | hl
      · rcases List.mem_cons.mp hl with hl | hl
        · right
          rw [hl, mapGet_mapSet_self]
          rfl
        · exact Or.inl hl
      · by_cases hle : letter = l
        · right
          rw [← hle, mapGet_mapSet_self]
          rfl
        · right
          rw [mapGet_mapSet_ne _ _ _ _ hle]
          exact hl

/-- C4: the code's actual behaviour on the spec's trivial-identity
    scenario.  With dictionary `{cat: 1, dog: 1}` over a-z and ciphertext
    `"cat"`, the single word sends `solveCryptogram` down the random
    brute-force path, which maps the letters to uppercase `A`-`Z`; since
    the lowercase dictionary contains no uppercase word, no attempt ever
    validates, so for every random stream and every budget the call either
    returns the empty solution map or fails to terminate — never the
    claimed identity solution `cat ↦ {c:c, a:a, t:t}`. -/
theorem c4_trivial_identity_code_behavior (r : Nat → Nat) (fuel : Nat) :
    solveCryptogram "cat".toList dictCat 1 fuel r = none ∨
    solveCryptogram "cat".toList dictCat 1 fuel r = some (Except.ok []) := by
  have hbranch : solveCryptogram "cat".toList dictCat 1 fuel r =
      (tryBruteForceForShortCryptogram "cat".toList dictCat 1 r).map Except.ok := by
    unfold solveCryptogram
    rw [if_pos (by decide)]
  have hloop : ∀ (n k : Nat),
      bruteLoop "cat".toList dictCat 1 ['c','a','t'] r n k [] = none ∨
      bruteLoop "cat".toList dictCat 1 ['c','a','t'] r n k [] = some [] := by
    intro n
    induction n with
    | zero => intro k; right; rfl
    | succ m ih =>
      intro k
      unfold bruteLoop
      cases hb : buildRandomCipher r ['c','a','t'] k [] with
      | none => left; rfl
      | some q =>
        have hplain : ∀ c ∈ decryptCiphertext "cat".toList q.1,
            c ∉ dictCat.alphabet := by
          intro c hc
          unfold decryptCiphertext at hc
          simp only [List.mem_map] at hc
          obtain ⟨x, hx, hgx⟩ := hc
          have hxu : x ∈ ['c','a','t'] := by simpa using hx
          have hsome : (mapGet q.1 x).isSome :=
            buildRandomCipher_covers r ['c','a','t'] k [] q.1 q.2 (by rw [hb])
              x (Or.inl hxu)
          obtain ⟨v, hv⟩ := Option.isSome_iff_exists.mp hsome
          rw [hv] at hgx
          simp only [Option.getD_some] at hgx
          have hupper := buildRandomCipher_upper r ['c','a','t'] k [] q.1 q.2
            (by rw [hb]) (by intro p hp; simp at hp) (x, v) (mem_of_mapGet_some hv)
          subst hgx
          intro hmem
          have h1 := hupper.1
          have h2 := hupper.2
          simp only at h1 h2
          fin_cases hmem <;> revert h1 h2 <;> decide
        have hwords : parseWords (decryptCiphertext "cat".toList q.1)
            dictCat.alphabet = [] := by
          unfold parseWords splitRuns
          rw [splitRunsGo_nil_of_no_alpha _ _ hplain]
          rfl
        have hvalid : validWordRatioAtLeast (decryptCiphertext "cat".toList q.1)
            dictCat 1 2 = false := by
          unfold validWordRatioAtLeast
          rw [hwords]
          simp
        simp only [hvalid, Bool.false_eq_true, if_false]
        exact ih q.2
  have huniq : dedupFirst ("cat".toList.filter (· ∈ dictCat.alphabet)) =
      ['c','a','t'] := by decide
  rw [hbranch]
  unfold tryBruteForceForShortCryptogram
  rw [huniq]
  rw [if_neg (by decide)]
  have hmin : min 1000 (26 ^ (['c','a','t'] : List Char).length) = 1000 := by decide
  rw [hmin]
  rcases hloop 1000 0 with h | h
  · left
    show Option.map Except.ok
      (Option.map (fun solutions => List.map (fun e => (e.1, e.2.2)) solutions)
        (bruteLoop "cat".toList dictCat 1 ['c','a','t'] r 1000 0 [])) = none
    rw [h]
    rfl
  · right
    show Option.map Except.ok
      (Option.map (fun solutions => List.map (fun e => (e.1, e.2.2)) solutions)
        (bruteLoop "cat".toList dictCat 1 ['c','a','t'] r 1000 0 [])) =
      some (Except.ok [])
    rw [h]
    rfl

theorem mapSet_of_not_mem {κ ν : Type} [DecidableEq κ] (m : JMap κ ν) (k : κ)
    (v : ν) (h : mapGet m k = none) : mapSet m k v = m ++ [(k, v)] := by
  induction m with
  | nil => rfl
  | cons e rest ih =>
    by_cases he : e.1 = k
    · simp [mapGet, he] at h
    · simp only [mapGet, if_neg he] at h
      simp [mapSet, he, ih h]

theorem insertSorted_pairwise {α : Type} (le : α → α → Bool)
    (htot : ∀ a b, le a b ∨ le b a)
    (htrans : ∀ a b c, le a b → le b c → le a c) (a : α) (l : List α)
    (hl : List.Pairwise (fun x y => le x y = true) l) :
    List.Pairwise (fun x y => le x y = true) (insertSorted le a l) := by
  induction l with
  | nil => simp [insertSorted]
  | cons b rest ih =>
    rcases List.pairwise_cons.mp hl with ⟨hb, hrest⟩
    unfold insertSorted
    by_cases h : le b a
    · rw [if_pos h]
      refine List.pairwise_cons.mpr ⟨?_, ih hrest⟩
      intro x hx
      rcases List.mem_cons.mp ((insertSorted_perm le a rest).mem_iff.mp hx) with hx | hx
      · exact hx ▸ h
      · exact hb x hx
    · rw [if_neg h]
      have hab : le a b := (htot a b).resolve_right (by simpa using h)
      refine List.pairwise_cons.mpr ⟨?_, hl⟩
      intro x hx
      rcases List.mem_cons.mp hx with hx | hx
      · exact hx ▸ hab
      · exact htrans a b x hab (hb x hx)

theorem stableSort_pairwise {α : Type} (le : α → α → Bool)
    (htot : ∀ a b, le a b ∨ le b a)
    (htrans : ∀ a b c, le a b → le b c → le a c) (l : List α) :
    List.Pairwise (fun x y => le x y = true) (stableSort le l) := by
  suffices h : ∀ acc, List.Pairwise (fun x y => le x y = true) acc →
      List.Pairwise (fun x y => le x y = true)
        (l.foldl (fun acc a => insertSorted le a acc) acc) by
    exact h [] (by simp)
  induction l with
  | nil => intro acc hacc; simpa using hacc
  | cons a rest ih =>
    intro acc hacc
    simp only [List.foldl_cons]
    exact ih (insertSorted le a acc) (insertSorted_pairwise le htot htrans a acc hacc)

theorem mainSearchLoop_sols_invariant (ciphertext : List Char)
    (dictionary : Dictionary) (maxSolutionCount : Int) :
    ∀ (fuel : Nat) (stack : List (JMap (List Char) (List (List Char))))
      (sols sols' : Sols) (flag : Bool),
      (jmKeys sols).Nodup →
      (∀ e ∈ sols, e.2.1 = computeMeanFrequency e.1 dictionary) →
      mainSearchLoop ciphertext dictionary maxSolutionCount fuel stack sols =
        Except.ok (sols', flag) →
      (jmKeys sols').Nodup ∧
        ∀ e ∈ sols', e.2.1 = computeMeanFrequency e.1 dictionary := by
  intro fuel
  induction fuel with
  | zero =>
    intro stack sols sols' flag hnd hmf h
    simp only [mainSearchLoop, Except.ok.injEq, Prod.mk.injEq] at h
    exact h.1 ▸ ⟨hnd, hmf⟩
  | succ m ih =>
    intro stack sols sols' flag hnd hmf h
    unfold mainSearchLoop at h
    cases hlast : stack.getLast? with
    | none =>
      rw [hlast] at h
      simp only [Except.ok.injEq, Prod.mk.injEq] at h
      exact h.1 ▸ ⟨hnd, hmf⟩
    | some popped =>
      rw [hlast] at h
      simp only at h
      cases hprune : pruneWordCandidates popped dictionary with
      | none =>
        rw [hprune] at h
        by_cases hc : (sols.length : Int) < maxSolutionCount ∧ stack.dropLast ≠ []
        · rw [if_pos hc] at h
          exact ih _ sols sols' flag hnd hmf h
        · rw [if_neg hc] at h
          simp only [Except.ok.injEq, Prod.mk.injEq] at h
          exact h.1 ▸ ⟨hnd, hmf⟩
      | some wordCandidates =>
        rw [hprune] at h
        simp only at h
        by_cases hmx : ((wordCandidates.map fun e => e.2.length).max?).getD 0 > 1
        · rw [if_pos hmx] at h
          by_cases hc : (sols.length : Int) < maxSolutionCount ∧
              stack.dropLast ++ (partitionWordCandidates wordCandidates).reverse ≠ []
          · rw [if_pos hc] at h
            exact ih _ sols sols' flag hnd hmf h
          · rw [if_neg hc] at h
            simp only [Except.ok.injEq, Prod.mk.injEq] at h
            exact h.1 ▸ ⟨hnd, hmf⟩
        · rw [if_neg hmx] at h
          cases hciph : computeCipher (wordCandidates.map fun e => (e.1, e.2.headD [])) with
          | error err =>
            rw [hciph] at h
            simp at h
          | ok cipher =>
            rw [hciph] at h
            simp only at h
            by_cases hhas : mapHas sols (decryptCiphertext ciphertext cipher)
            · rw [if_pos hhas] at h
              by_cases hc : (sols.length : Int) < maxSolutionCount ∧ stack.dropLast ≠ []
              · rw [if_pos hc] at h
                exact ih _ sols sols' flag hnd hmf h
              · rw [if_neg hc] at h
                simp only [Except.ok.injEq, Prod.mk.injEq] at h
                exact h.1 ▸ ⟨hnd, hmf⟩
            · rw [if_neg hhas] at h
              have hget : mapGet sols (decryptCiphertext ciphertext cipher) = none := by
                unfold mapHas at hhas
                cases hg : mapGet sols (decryptCiphertext ciphertext cipher) with
                | none => rfl
                | some v => rw [hg] at hhas; simp at hhas
              have hnd' : (jmKeys (mapSet sols (decryptCiphertext ciphertext cipher)
                  (computeMeanFrequency (decryptCiphertext ciphertext cipher) dictionary,
                    cipher))).Nodup := by
                rw [mapSet_of_not_mem _ _ _ hget]
                simp only [jmKeys, List.map_append, List.map_cons, List.map_nil]
                rw [List.nodup_append]
                refine ⟨hnd, by simp, ?_⟩
                intro x hx
                simp only [List.mem_singleton]
                intro hxe
                rw [hxe] at hx
                exact (mapGet_eq_none_iff sols _).mp hget hx
              have hmf' : ∀ e ∈ mapSet sols (decryptCiphertext ciphertext cipher)
                  (computeMeanFrequency (decryptCiphertext ciphertext cipher) dictionary,
                    cipher), e.2.1 = computeMeanFrequency e.1 dictionary := by
                intro e he
                rcases mem_mapSet he with hm | hm
                · exact hmf e hm
                · rw [hm]
              by_cases hc : ((mapSet sols (decryptCiphertext ciphertext cipher)
                  (computeMeanFrequency (decryptCiphertext ciphertext cipher) dictionary,
                    cipher)).length : Int) < maxSolutionCount ∧ stack.dropLast ≠ []
              · rw [if_pos hc] at h
                exact ih _ _ sols' flag hnd' hmf' h
              · rw [if_neg hc] at h
                simp only [Except.ok.injEq, Prod.mk.injEq] at h
                exact h.1 ▸ ⟨hnd', hmf'⟩

/-- C5 amended.  The sortedness/deduplication guarantees hold for the
    solver's final ranking path (at least two words and a nonempty result
    from the constraint-propagation search): the returned list is sorted by
    mean frequency descending, contains no two solutions with the same
    plaintext, and each cipher's entries are sorted by ciphertext letter
    ascending.  (The brute-force and fallback return paths bypass this
    ranking — see the counterexample.) -/
theorem c5_amended_main_path_ranking
    (ciphertext : List Char) (dictionary : Dictionary) (maxSolutionCount : Int)
    (fuel : Nat) (r : Nat → Nat) (solutions : Sols) (timedOut : Bool)
    (output : JMap (List Char) (JMap Char Char))
    (hwords : 2 ≤ (parseWords ciphertext dictionary.alphabet).length)
    (hmain : mainSearchLoop ciphertext dictionary maxSolutionCount fuel
      [findWordCandidates (parseWords ciphertext dictionary.alphabet) dictionary] [] =
      Except.ok (solutions, timedOut))
    (hsols : solutions ≠ [])
    (hout : solveCryptogram ciphertext dictionary maxSolutionCount fuel r =
      some (Except.ok output)) :
    output = rankSolutions solutions ∧
    List.Pairwise (fun a b => computeMeanFrequency b.1 dictionary ≤
      computeMeanFrequency a.1 dictionary) output ∧
    (jmKeys output).Nodup ∧
    ∀ e ∈ output, List.Pairwise (fun x y : Char × Char => x.1 ≤ y.1) e.2 := by
  have hEq : output = rankSolutions solutions := by
    unfold solveCryptogram at hout
    rw [if_neg (by omega), hmain] at hout
    simp only at hout
    rw [if_neg (by simp [hsols])] at hout
    simp only [Option.some.injEq, Except.ok.injEq] at hout
    exact hout.symm
  obtain ⟨hnd, hmf⟩ := mainSearchLoop_sols_invariant ciphertext dictionary
    maxSolutionCount fuel
    [findWordCandidates (parseWords ciphertext dictionary.alphabet) dictionary]
    [] solutions timedOut (by simp [jmKeys]) (by simp) hmain
  have htot1 : ∀ a b : (List Char) × (ℚ × JMap Char Char),
      (! Rat.blt a.2.1 b.2.1) ∨ (! Rat.blt b.2.1 a.2.1) := by
    intro a b
    by_cases hab : Rat.blt a.2.1 b.2.1 = true
    · right
      have : ¬ b.2.1 < a.2.1 := lt_asymm hab
      simp only [Bool.not_eq_true']
      cases hba : Rat.blt b.2.1 a.2.1
      · rfl
      · exact absurd hba this
    · left
      simp [Bool.not_eq_true'] at hab ⊢
      exact hab
  have htrans1 : ∀ a b c : (List Char) × (ℚ × JMap Char Char),
      (! Rat.blt a.2.1 b.2.1) → (! Rat.blt b.2.1 c.2.1) → (! Rat.blt a.2.1 c.2.1) := by
    intro a b c hab hbc
    simp only [Bool.not_eq_true, Bool.not_eq_true'] at hab hbc ⊢
    have h1 : ¬ a.2.1 < b.2.1 := by
      intro hlt
      have hbt : Rat.blt a.2.1 b.2.1 = true := hlt
      rw [hab] at hbt
      exact Bool.noConfusion hbt
    have h2 : ¬ b.2.1 < c.2.1 := by
      intro hlt
      have hbt : Rat.blt b.2.1 c.2.1 = true := hlt
      rw [hbc] at hbt
      exact Bool.noConfusion hbt
    have h3 : ¬ a.2.1 < c.2.1 := by
      intro hlt
      exact h1 (lt_of_lt_of_le hlt (not_lt.mp h2))
    cases hac : Rat.blt a.2.1 c.2.1
    · rfl
    · exact absurd hac h3
  have hsorted := stableSort_pairwise (fun a b => ! Rat.blt a.2.1 b.2.1)
    htot1 htrans1 solutions
  refine ⟨hEq, ?_, ?_, ?_⟩
  · rw [hEq]
    unfold rankSolutions
    rw [List.pairwise_map]
    refine List.Pairwise.imp_of_mem ?_ hsorted
    intro a b ha hb hab
    have ha' : a ∈ solutions := (stableSort_perm _ solutions).mem_iff.mp ha
    have hb' : b ∈ solutions := (stableSort_perm _ solutions).mem_iff.mp hb
    rw [← hmf a ha', ← hmf b hb']
    simp only [Bool.not_eq_true'] at hab
    exact not_lt.mp fun hlt => absurd (show Rat.blt a.2.1 b.2.1 = true from hlt)
      (by rw [hab]; simp)
  · rw [hEq]
    unfold rankSolutions
    have hkeys : jmKeys ((stableSort (fun a b => ! Rat.blt a.2.1 b.2.1) solutions).map
        fun e => (e.1, stableSort (fun x y => x.1 ≤ y.1) e.2.2)) =
        jmKeys (stableSort (fun a b => ! Rat.blt a.2.1 b.2.1) solutions) := by
      unfold jmKeys
      rw [List.map_map]
      rfl
    rw [hkeys]
    have hperm : List.Perm
        (jmKeys (stableSort (fun a b => ! Rat.blt a.2.1 b.2.1) solutions))
        (jmKeys solutions) :=
      (stableSort_perm _ solutions).map Prod.fst
    exact hperm.nodup_iff.mpr hnd
  · rw [hEq]
    unfold rankSolutions
    intro e he
    simp only [List.mem_map] at he
    obtain ⟨x, hx, hxe⟩ := he
    have hcs := stableSort_pairwise (fun p q : Char × Char => decide (p.1 ≤ q.1))
      (by intro a b; rcases le_total a.1 b.1 with h | h <;> simp [h])
      (by
        intro a b c hab hbc
        simp only [decide_eq_true_eq] at hab hbc ⊢
        exact le_trans hab hbc)
      x.2.2
    rw [← hxe]
    simp only
    refine List.Pairwise.imp ?_ hcs
    intro a b hab
    simpa using hab

/-- C5 witness: the amended statement applied to the `"AB CD"` cryptogram,
    whose search returns two ranked solutions. -/
theorem c5_amended_witness :
    ([(['A','B',' ','C','D'], [('A','A'),('B','B'),('C','C'),('D','D')]),
        (['C','D',' ','A','B'], [('A','C'),('B','D'),('C','A'),('D','B')])] :
      JMap (List Char) (JMap Char Char)) =
      rankSolutions
        [(['A','B',' ','C','D'], (mkRat 1 1, [('A','A'),('B','B'),('C','C'),('D','D')])),
          (['C','D',' ','A','B'], (mkRat 1 1, [('A','C'),('B','D'),('C','A'),('D','B')]))] ∧
    List.Pairwise (fun a b => computeMeanFrequency b.1 dictABCD ≤
        computeMeanFrequency a.1 dictABCD)
      ([(['A','B',' ','C','D'], [('A','A'),('B','B'),('C','C'),('D','D')]),
        (['C','D',' ','A','B'], [('A','C'),('B','D'),('C','A'),('D','B')])] :
      JMap (List Char) (JMap Char Char)) ∧
    (jmKeys ([(['A','B',' ','C','D'], [('A','A'),('B','B'),('C','C'),('D','D')]),
        (['C','D',' ','A','B'], [('A','C'),('B','D'),('C','A'),('D','B')])] :
      JMap (List Char) (JMap Char Char))).Nodup ∧
    ∀ e ∈ ([(['A','B',' ','C','D'], [('A','A'),('B','B'),('C','C'),('D','D')]),
        (['C','D',' ','A','B'], [('A','C'),('B','D'),('C','A'),('D','B')])] :
      JMap (List Char) (JMap Char Char)),
      List.Pairwise (fun x y : Char × Char => x.1 ≤ y.1) e.2 :=
  c5_amended_main_path_ranking "AB CD".toList dictABCD 2 10 (fun _ => 0)
    [(['A','B',' ','C','D'], (mkRat 1 1, [('A','A'),('B','B'),('C','C'),('D','D')])),
      (['C','D',' ','A','B'], (mkRat 1 1, [('A','C'),('B','D'),('C','A'),('D','B')]))]
    false
    [(['A','B',' ','C','D'], [('A','A'),('B','B'),('C','C'),('D','D')]),
      (['C','D',' ','A','B'], [('A','C'),('B','D'),('C','A'),('D','B')])]
    (by decide) (by decide) (by decide) (by decide)

theorem dedupFirstGo_sublist {α : Type} [DecidableEq α] :
    ∀ (l seen : List α), (dedupFirstGo seen l).Sublist l := by
  intro l
  induction l with
  | nil => intro seen; simp [dedupFirstGo]
  | cons a rest ih =>
    intro seen
    unfold dedupFirstGo
    by_cases h : a ∈ seen
    · rw [if_pos h]
      exact (ih seen).trans (List.sublist_cons_self a rest)
    · rw [if_neg h]
      exact (ih (a :: seen)).cons₂ a

theorem dedupFirst_nodup {α : Type} [DecidableEq α] (l : List α) :
    (dedupFirst l).Nodup := by
  suffices h : ∀ seen, (dedupFirstGo seen l).Nodup from h []
  induction l with
  | nil => intro seen; simp [dedupFirstGo]
  | cons a rest ih =>
    intro seen
    unfold dedupFirstGo
    by_cases h : a ∈ seen
    · rw [if_pos h]
      exact ih seen
    · rw [if_neg h]
      refine List.nodup_cons.mpr ⟨?_, ih (a :: seen)⟩
      intro hmem
      exact ((mem_dedupFirstGo rest (a :: seen) a).mp hmem).2 (by simp)

theorem dedupFirst_eq_of_length {α : Type} [DecidableEq α] (l : List α)
    (h : (dedupFirst l).length = l.length) : (dedupFirst l) = l :=
  (dedupFirstGo_sublist l []).eq_of_length h

theorem parseWords_nodup (text alphabet : List Char) :
    (parseWords text alphabet).Nodup :=
  dedupFirst_nodup _

theorem splitRunsGo_chars (alphabet : List Char) :
    ∀ (text acc : List Char), (∀ ch ∈ acc, ch ∈ alphabet) →
      ∀ w ∈ splitRunsGo alphabet acc text, ∀ ch ∈ w, ch ∈ alphabet := by
  intro text
  induction text with
  | nil =>
    intro acc hacc w hw ch hch
    unfold splitRunsGo at hw
    split at hw
    · simp at hw
    · simp only [List.mem_singleton] at hw
      subst hw
      exact hacc ch (by simpa using hch)
  | cons c rest ih =>
    intro acc hacc w hw ch hch
    unfold splitRunsGo at hw
    by_cases hc : c ∈ alphabet
    · rw [if_pos hc] at hw
      refine ih (c :: acc) ?_ w hw ch hch
      intro x hx
      rcases List.mem_cons.mp hx with hx | hx
      · exact hx ▸ hc
      · exact hacc x hx
    · rw [if_neg hc] at hw
      by_cases hac : acc = []
      · rw [if_pos hac] at hw
        exact ih [] (by simp) w hw ch hch
      · rw [if_neg hac] at hw
        rcases List.mem_cons.mp hw with hw | hw
        · subst hw
          exact hacc ch (by simpa using hch)
        · exact ih [] (by simp) w hw ch hch

theorem parseWords_chars (text alphabet : List Char) :
    ∀ w ∈ parseWords text alphabet, ∀ ch ∈ w, ch ∈ alphabet := by
  intro w hw
  unfold parseWords splitRuns at hw
  exact splitRunsGo_chars alphabet text [] (by simp) w
    ((mem_dedupFirst _ w).mp hw)

theorem splitRunsGo_map (alphabet : List Char) (g : Char → Char)
    (h1 : ∀ ch, ch ∈ alphabet → g ch ∈ alphabet)
    (h2 : ∀ ch, ch ∉ alphabet → g ch = ch) :
    ∀ (text acc : List Char),
      splitRunsGo alphabet (acc.map g) (text.map g) =
        (splitRunsGo alphabet acc text).map (List.map g) := by
  intro text
  induction text with
  | nil =>
    intro acc
    simp only [List.map_nil]
    unfold splitRunsGo
    by_cases hac : acc = []
    · subst hac
      simp
    · rw [if_neg (by simpa using hac), if_neg hac]
      simp
  | cons c rest ih =>
    intro acc
    by_cases hc : c ∈ alphabet
    · have hgc : g c ∈ alphabet := h1 c hc
      show splitRunsGo alphabet (acc.map g) (g c :: rest.map g) = _
      unfold splitRunsGo
      rw [if_pos hgc, if_pos hc]
      exact ih (c :: acc)
    · have hgc : g c = c := h2 c hc
      show splitRunsGo alphabet (acc.map g) (g c :: rest.map g) = _
      unfold splitRunsGo
      rw [hgc, if_neg hc, if_neg hc]
      by_cases hac : acc = []
      · rw [if_pos (by simp [hac]), if_pos hac]
        have := ih []
        simpa using this
      · rw [if_neg (by simpa using hac), if_neg hac]
        rw [← List.map_reverse]
        have := ih []
        simp only [List.map_nil] at this
        rw [this]
        simp

theorem mem_keys_of_mapGet_some {κ ν : Type} [DecidableEq κ] {m : JMap κ ν}
    {k : κ} {v : ν} (h : mapGet m k = some v) : k ∈ jmKeys m := by
  by_contra hmem
  rw [(mapGet_eq_none_iff m k).mpr hmem] at h
  exact Option.noConfusion h

theorem groupPairs_fold {κ ν : Type} [DecidableEq κ] [DecidableEq ν] :
    ∀ (ps : List (κ × ν)) (g : JMap κ (List ν)), (jmKeys g).Nodup →
      (jmKeys (ps.foldl (fun g p =>
        match mapGet g p.1 with
        | none => g ++ [(p.1, [p.2])]
        | some s => mapSet g p.1 (slAdd s p.2)) g)).Nodup ∧
      ∀ k v, (∃ s, mapGet (ps.foldl (fun g p =>
        match mapGet g p.1 with
        | none => g ++ [(p.1, [p.2])]
        | some s => mapSet g p.1 (slAdd s p.2)) g) k = some s ∧ v ∈ s) ↔
        ((∃ s, mapGet g k = some s ∧ v ∈ s) ∨ (k, v) ∈ ps) := by
  intro ps
  induction ps with
  | nil =>
    intro g hnd
    refine ⟨hnd, ?_⟩
    intro k v
    simp
  | cons p rest ih =>
    intro g hnd
    simp only [List.foldl_cons]
    cases hg : mapGet g p.1 with
    | none =>
      have hkeys : jmKeys (g ++ [(p.1, [p.2])]) = jmKeys g ++ [p.1] := by
        simp [jmKeys]
      have hnd' : (jmKeys (g ++ [(p.1, [p.2])])).Nodup := by
        rw [hkeys, List.nodup_append]
        refine ⟨hnd, by simp, ?_⟩
        intro x hx
        simp only [List.mem_singleton]
        intro hxe
        exact (mapGet_eq_none_iff g p.1).mp hg (hxe ▸ hx)
      obtain ⟨hnd'', hiff⟩ := ih (g ++ [(p.1, [p.2])]) hnd'
      refine ⟨hnd'', ?_⟩
      intro k v
      rw [hiff k v]
      have hget : mapGet (g ++ [(p.1, [p.2])]) k =
          if p.1 = k then some [p.2] else mapGet g k := by
        rw [mapGet_append]
        by_cases hk : p.1 = k
        · subst hk
          rw [hg]
          simp [mapGet]
        · cases hgk : mapGet g k
          · simp [mapGet, hk]
          · simp [mapGet, hk]
      rw [hget]
      by_cases hk : p.1 = k
      · subst hk
        rw [if_pos rfl]
        simp only [Option.some.injEq, List.mem_cons]
        constructor
        · rintro (⟨s, hs, hv⟩ | h)
          · rw [← hs] at hv
            simp only [List.mem_singleton] at hv
            exact Or.inr (Or.inl (by rw [hv]))
          · exact Or.inr (Or.inr h)
        · rintro (⟨s, hs, hv⟩ | h | h)
          · rw [hg] at hs
            exact Option.noConfusion hs
          · exact Or.inl ⟨[p.2], rfl, by simp [show v = p.2 from congrArg Prod.snd h]⟩
          · exact Or.inr h
      · rw [if_neg hk]
        constructor
        · rintro (h | h)
          · exact Or.inl h
          · exact Or.inr (List.mem_cons_of_mem _ h)
        · rintro (h | h)
          · exact Or.inl h
          · rcases List.mem_cons.mp h with h | h
            · exact absurd (congrArg Prod.fst h).symm hk
            · exact Or.inr h
    | some s0 =>
      have hmem : p.1 ∈ jmKeys g := mem_keys_of_mapGet_some hg
      have hnd' : (jmKeys (mapSet g p.1 (slAdd s0 p.2))).Nodup := by
        rw [jmKeys_mapSet_of_mem g p.1 _ hmem]
        exact hnd
      obtain ⟨hnd'', hiff⟩ := ih (mapSet g p.1 (slAdd s0 p.2)) hnd'
      refine ⟨hnd'', ?_⟩
      intro k v
      rw [hiff k v]
      by_cases hk : p.1 = k
      · subst hk
        rw [mapGet_mapSet_self]
        simp only [List.mem_cons]
        constructor
        · rintro (⟨s, hs, hv⟩ | h)
          · rw [← Option.some.inj hs] at hv
            rcases (mem_slAdd s0 p.2 v).mp hv with hv | hv
            · exact Or.inl ⟨s0, hg, hv⟩
            · exact Or.inr (Or.inl (by rw [hv]))
          · exact Or.inr (Or.inr h)
        · rintro (⟨s, hs, hv⟩ | h | h)
          · rw [hg] at hs
            rw [← Option.some.inj hs] at hv
            exact Or.inl ⟨slAdd s0 p.2, rfl, (mem_slAdd s0 p.2 v).mpr (Or.inl hv)⟩
          · refine Or.inl ⟨slAdd s0 p.2, rfl, (mem_slAdd s0 p.2 v).mpr ?_⟩
            right
            exact congrArg Prod.snd h
          · exact Or.inr h
      · rw [mapGet_mapSet_ne _ _ _ _ hk]
        constructor
        · rintro (h | h)
          · exact Or.inl h
          · exact Or.inr (List.mem_cons_of_mem _ h)
        · rintro (h | h)
          · exact Or.inl h
          · rcases List.mem_cons.mp h with h | h
            · exact absurd (congrArg Prod.fst h).symm hk
            · exact Or.inr h

theorem groupPairs_spec {κ ν : Type} [DecidableEq κ] [DecidableEq ν]
    (ps : List (κ × ν)) :
    (jmKeys (groupPairs ps)).Nodup ∧
    ∀ k v, (∃ s, mapGet (groupPairs ps) k = some s ∧ v ∈ s) ↔ (k, v) ∈ ps := by
  obtain ⟨hnd, hiff⟩ := groupPairs_fold ps [] (by simp [jmKeys])
  refine ⟨hnd, ?_⟩
  intro k v
  rw [groupPairs, hiff k v]
  simp [mapGet]

theorem computeCipher_ok_spec (wc : JMap (List Char) (List Char))
    (cipher : JMap Char Char) (h : computeCipher wc = Except.ok cipher) :
    (jmKeys cipher).Nodup ∧ (jmValues cipher).Nodup ∧
    ∀ a b, mapGet cipher a = some b ↔
      (a, b) ∈ wc.flatMap fun e => zipWords e.1 e.2 := by
  simp only [computeCipher] at h
  split at h
  case isFalse => exact Except.noConfusion h
  case isTrue h1 =>
    split at h
    case isFalse => exact Except.noConfusion h
    case isTrue h2 =>
      rw [Except.ok.injEq] at h
      subst h
      have hvals : jmValues (groupPairs (wc.flatMap fun e => zipWords e.1 e.2)) =
          jmValues (groupPairs (wc.flatMap fun e => zipWords e.1 e.2)) := rfl
      have hmv : (groupPairs (wc.flatMap fun e => zipWords e.1 e.2)).map
          (fun e => (e.1, e.2.headD 'A')) =
          jmMapValues (fun _ v => v.headD 'A')
            (groupPairs (wc.flatMap fun e => zipWords e.1 e.2)) := rfl
      obtain ⟨hnd, hiff⟩ := groupPairs_spec (wc.flatMap fun e => zipWords e.1 e.2)
      have hall : ∀ e ∈ groupPairs (wc.flatMap fun e => zipWords e.1 e.2),
          e.2.length = 1 := by
        simpa using h1
      refine ⟨?_, ?_, ?_⟩
      · rw [hmv, jmKeys_jmMapValues]
        exact hnd
      · have := dedupFirst_eq_of_length _ h2
        rw [← this]
        exact dedupFirst_nodup _
      · intro a b
        rw [hmv, mapGet_jmMapValues]
        constructor
        · intro hget
          cases hg : mapGet (groupPairs (wc.flatMap fun e => zipWords e.1 e.2)) a with
          | none => rw [hg] at hget; exact Option.noConfusion hget
          | some s =>
            rw [hg] at hget
            rw [Option.map_some', Option.some.injEq] at hget
            have hs1 : s.length = 1 := hall (a, s) (mem_of_mapGet_some hg)
            obtain ⟨x, hx⟩ := List.length_eq_one.mp hs1
            subst hx
            simp only [List.headD_cons] at hget
            subst hget
            exact (hiff a x).mp ⟨[x], hg, by simp⟩
        · intro hmem
          obtain ⟨s, hs, hb⟩ := (hiff a b).mpr hmem
          have hs1 : s.length = 1 := hall (a, s) (mem_of_mapGet_some hs)
          obtain ⟨x, hx⟩ := List.length_eq_one.mp hs1
          subst hx
          simp only [List.mem_singleton] at hb
          subst hb
          rw [hs]
          rfl

theorem findWordCandidates_sound (words : List (List Char))
    (dictionary : Dictionary) :
    WCSound dictionary words (findWordCandidates words dictionary) := by
  constructor
  · simp only [findWordCandidates, jmKeys, List.map_map]
    induction words with
    | nil => rfl
    | cons w rest ih => simp only [List.map_cons, ih, Function.comp_apply]
  · intro e he c hc
    obtain ⟨w, hw, rfl⟩ := List.mem_map.mp he
    exact hc

theorem pruneWordCandidates_pos {wordCandidates : JMap (List Char) (List (List Char))}
    {dictionary : Dictionary} {pruned : JMap (List Char) (List (List Char))}
    (h : pruneWordCandidates wordCandidates dictionary = some pruned) :
    ∀ e ∈ pruned, 0 < e.2.length := by
  unfold pruneWordCandidates at h
  simp only at h
  split at h
  case isTrue hc =>
    rw [Option.some.injEq] at h
    subst h
    simpa using hc.2
  case isFalse => exact absurd h (by simp)

theorem pruneWordCandidates_sound {wordCandidates : JMap (List Char) (List (List Char))}
    {dictionary : Dictionary} {pruned : JMap (List Char) (List (List Char))}
    {words : List (List Char)}
    (h : pruneWordCandidates wordCandidates dictionary = some pruned)
    (hwc : WCSound dictionary words wordCandidates) :
    WCSound dictionary words pruned := by
  rw [pruneWordCandidates_some h]
  constructor
  · rw [jmKeys_jmMapValues]
    exact hwc.1
  · intro e he c hc
    obtain ⟨e0, he0, rfl⟩ := List.mem_map.mp he
    exact hwc.2 e0 he0 c (List.mem_filter.mp hc).1

theorem partitionLoop_sound {P : List Char → List Char → Prop}
    {K : List (List Char)} :
    ∀ (ws : List (List Char)) (remaining : JMap (List Char) (List (List Char)))
      (acc : List (JMap (List Char) (List (List Char)))),
      (∀ e ∈ remaining, ∀ c ∈ e.2, P e.1 c) → jmKeys remaining = K →
      (∀ m ∈ acc, (∀ e ∈ m, ∀ c ∈ e.2, P e.1 c) ∧ jmKeys m = K) →
      (∀ m ∈ (partitionLoop ws remaining acc).1,
        (∀ e ∈ m, ∀ c ∈ e.2, P e.1 c) ∧ jmKeys m = K) ∧
      (∀ e ∈ (partitionLoop ws remaining acc).2, ∀ c ∈ e.2, P e.1 c) ∧
      jmKeys (partitionLoop ws remaining acc).2 = K := by
  intro ws
  induction ws with
  | nil =>
    intro remaining acc hrem hkeys hacc
    exact ⟨hacc, hrem, hkeys⟩
  | cons word rest ih =>
    intro remaining acc hrem hkeys hacc
    unfold partitionLoop
    cases hg : (mapGet remaining word).getD [] with
    | nil => exact ih remaining acc hrem hkeys hacc
    | cons candidateWord more =>
      cases more with
      | nil => exact ih remaining acc hrem hkeys hacc
      | cons c2 more' =>
        have hsome : mapGet remaining word = some (candidateWord :: c2 :: more') := by
          cases hm : mapGet remaining word with
          | none => rw [hm] at hg; exact absurd hg (by simp)
          | some s => rw [hm] at hg; simp only [Option.getD_some] at hg; rw [hg]
        have hment : (word, candidateWord :: c2 :: more') ∈ remaining :=
          mem_of_mapGet_some hsome
        have hkey : word ∈ jmKeys remaining := mem_keys_of_mapGet_some hsome
        have hcands : ∀ c ∈ candidateWord :: c2 :: more', P word c :=
          fun c hc => hrem _ hment c hc
        have hrem' : ∀ e ∈ mapSet remaining word (c2 :: more'), ∀ c ∈ e.2, P e.1 c := by
          intro e he c hc
          rcases mem_mapSet he with he | he
          · exact hrem e he c hc
          · subst he
            exact hcands c (List.mem_cons_of_mem _ hc)
        have hkeys' : jmKeys (mapSet remaining word (c2 :: more')) = K := by
          rw [jmKeys_mapSet_of_mem _ _ _ hkey, hkeys]
        have hkey' : word ∈ jmKeys (mapSet remaining word (c2 :: more')) := by
          rw [hkeys']
          rw [hkeys] at hkey
          exact hkey
        have hnew : ∀ e ∈ mapSet (mapSet remaining word (c2 :: more')) word
            [candidateWord], ∀ c ∈ e.2, P e.1 c := by
          intro e he c hc
          rcases mem_mapSet he with he | he
          · exact hrem' e he c hc
          · subst he
            simp only [List.mem_singleton] at hc
            exact hc ▸ hcands candidateWord (by simp)
        have hnewk : jmKeys (mapSet (mapSet remaining word (c2 :: more')) word
            [candidateWord]) = K := by
          rw [jmKeys_mapSet_of_mem _ _ _ hkey', hkeys']
        refine ih (mapSet remaining word (c2 :: more')) _ hrem' hkeys' ?_
        intro m hm
        rcases List.mem_append.mp hm with hm | hm
        · exact hacc m hm
        · simp only [List.mem_singleton] at hm
          subst hm
          exact ⟨hnew, hnewk⟩

theorem partitionWordCandidates_sound {P : List Char → List Char → Prop}
    {wordCandidates : JMap (List Char) (List (List Char))}
    (hwc : ∀ e ∈ wordCandidates, ∀ c ∈ e.2, P e.1 c) :
    ∀ m ∈ partitionWordCandidates wordCandidates,
      (∀ e ∈ m, ∀ c ∈ e.2, P e.1 c) ∧ jmKeys m = jmKeys wordCandidates := by
  intro m hm
  obtain ⟨h1, h2, h3⟩ := partitionLoop_sound (P := P) (K := jmKeys wordCandidates)
    (jmKeys wordCandidates) wordCandidates [] hwc rfl (by simp)
  unfold partitionWordCandidates at hm
  rcases List.mem_append.mp hm with hm | hm
  · exact h1 m hm
  · simp only [List.mem_singleton] at hm
    subst hm
    exact ⟨h2, h3⟩

theorem headD_mem_of_pos {α : Type} (l : List α) (d : α) (h : 0 < l.length) :
    l.headD d ∈ l := by
  cases l with
  | nil => simp at h
  | cons a rest => simp [List.headD]

theorem parseWords_map (alphabet : List Char) (g : Char → Char)
    (h1 : ∀ ch, ch ∈ alphabet → g ch ∈ alphabet)
    (h2 : ∀ ch, ch ∉ alphabet → g ch = ch) (text : List Char) :
    ∀ w ∈ parseWords (text.map g) alphabet,
      ∃ w0 ∈ parseWords text alphabet, w = w0.map g := by
  intro w hw
  rw [parseWords, mem_dedupFirst] at hw
  unfold splitRuns at hw
  have hm := splitRunsGo_map alphabet g h1 h2 text []
  simp only [List.map_nil] at hm
  rw [hm] at hw
  obtain ⟨w0, hw0, rfl⟩ := List.mem_map.mp hw
  refine ⟨w0, ?_, rfl⟩
  rw [parseWords, mem_dedupFirst]
  exact hw0

theorem leaf_solution_sound (ciphertext : List Char) (dictionary : Dictionary)
    (wordCandidates : JMap (List Char) (List (List Char))) (cipher : JMap Char Char)
    (hwf : DictWF dictionary)
    (hwc : WCSound dictionary (parseWords ciphertext dictionary.alphabet)
      wordCandidates)
    (hpos : ∀ e ∈ wordCandidates, 0 < e.2.length)
    (hcc : computeCipher (wordCandidates.map fun e => (e.1, e.2.headD [])) =
      Except.ok cipher) :
    SolutionSound dictionary ciphertext (decryptCiphertext ciphertext cipher) cipher := by
  obtain ⟨hknd, hvnd, hiff⟩ := computeCipher_ok_spec _ _ hcc
  have hcand : ∀ e ∈ wordCandidates,
      (e.2.headD []) ∈ (mapGet dictionary.patternWords (computePattern e.1)).getD [] :=
    fun e he => hwc.2 e he _ (headD_mem_of_pos e.2 [] (hpos e he))
  have hpat : ∀ e ∈ wordCandidates, computePattern (e.2.headD []) = computePattern e.1
      ∧ ∀ c ∈ e.2.headD [], c ∈ dictionary.alphabet := by
    intro e he
    have hmem := hcand e he
    cases hpw : mapGet dictionary.patternWords (computePattern e.1) with
    | none => rw [hpw] at hmem; simp at hmem
    | some s =>
      rw [hpw] at hmem
      simp only [Option.getD_some] at hmem
      exact hwf (computePattern e.1, s) (mem_of_mapGet_some hpw) _ hmem
  have hlen : ∀ e ∈ wordCandidates, (e.2.headD []).length = e.1.length := by
    intro e he
    have hl := congrArg List.length (hpat e he).1
    simpa [computePattern] using hl
  have hpsmem : ∀ e ∈ wordCandidates, ∀ p ∈ zipWords e.1 (e.2.headD []),
      p ∈ (wordCandidates.map fun e => (e.1, e.2.headD [])).flatMap
        fun e => zipWords e.1 e.2 := by
    intro e he p hp
    rw [List.mem_flatMap]
    exact ⟨(e.1, e.2.headD []), List.mem_map_of_mem _ he, hp⟩
  have hdecw : ∀ e ∈ wordCandidates,
      e.1.map (fun ch => (mapGet cipher ch).getD ch) = e.2.headD [] := by
    intro e he
    apply List.ext_getElem (by rw [List.length_map, hlen e he])
    intro i h1 h2
    have hw : i < e.1.length := by simpa using h1
    simp only [List.getElem_map]
    have hzl : i < (zipWords e.1 (e.2.headD [])).length := by
      unfold zipWords
      rw [List.length_zip, hlen e he]
      omega
    have hz : (zipWords e.1 (e.2.headD []))[i] = (e.1[i], (e.2.headD [])[i]) := by
      unfold zipWords
      exact List.getElem_zip
    have hp : (e.1[i], (e.2.headD [])[i]) ∈ zipWords e.1 (e.2.headD []) := by
      rw [← hz]
      exact List.getElem_mem hzl
    rw [(hiff _ _).mpr (hpsmem e he _ hp)]
    rfl
  have hg1 : ∀ ch, ch ∈ dictionary.alphabet →
      (mapGet cipher ch).getD ch ∈ dictionary.alphabet := by
    intro ch hch
    cases hc : mapGet cipher ch with
    | none => simpa using hch
    | some b =>
      simp only [Option.getD_some]
      have hm := (hiff ch b).mp hc
      rw [List.mem_flatMap] at hm
      obtain ⟨e', he', hp⟩ := hm
      obtain ⟨e, he, rfl⟩ := List.mem_map.mp he'
      unfold zipWords at hp
      exact (hpat e he).2 b (List.of_mem_zip hp).2
  have hg2 : ∀ ch, ch ∉ dictionary.alphabet →
      (mapGet cipher ch).getD ch = ch := by
    intro ch hch
    cases hc : mapGet cipher ch with
    | none => rfl
    | some b =>
      exfalso
      have hm := (hiff ch b).mp hc
      rw [List.mem_flatMap] at hm
      obtain ⟨e', he', hp⟩ := hm
      obtain ⟨e, he, rfl⟩ := List.mem_map.mp he'
      unfold zipWords at hp
      have he1 : e.1 ∈ parseWords ciphertext dictionary.alphabet := by
        rw [← hwc.1]
        exact List.mem_map_of_mem Prod.fst he
      exact hch (parseWords_chars ciphertext dictionary.alphabet e.1 he1 ch
        (List.of_mem_zip hp).1)
  refine ⟨rfl, hknd, hvnd, ?_⟩
  intro word hword
  have hdec : decryptCiphertext ciphertext cipher =
      ciphertext.map (fun ch => (mapGet cipher ch).getD ch) := rfl
  rw [hdec] at hword
  obtain ⟨w0, hw0, rfl⟩ :=
    parseWords_map dictionary.alphabet _ hg1 hg2 ciphertext word hword
  have hk : w0 ∈ jmKeys wordCandidates := hwc.1 ▸ hw0
  obtain ⟨e, he, rfl⟩ := List.mem_map.mp hk
  rw [hdecw e he, (hpat e he).1]
  exact hcand e he

theorem mainSearchLoop_sound (ciphertext : List Char) (dictionary : Dictionary)
    (maxSolutionCount : Int) (hwf : DictWF dictionary) :
    ∀ (fuel : Nat) (stack : List (JMap (List Char) (List (List Char))))
      (sols sols' : Sols) (flag : Bool),
      (∀ wc ∈ stack,
        WCSound dictionary (parseWords ciphertext dictionary.alphabet) wc) →
      SolsSound dictionary ciphertext sols →
      mainSearchLoop ciphertext dictionary maxSolutionCount fuel stack sols =
        Except.ok (sols', flag) →
      SolsSound dictionary ciphertext sols' := by
  intro fuel
  induction fuel with
  | zero =>
    intro stack sols sols' flag hstack hsols h
    simp only [mainSearchLoop, Except.ok.injEq, Prod.mk.injEq] at h
    exact h.1 ▸ hsols
  | succ m ih =>
    intro stack sols sols' flag hstack hsols h
    unfold mainSearchLoop at h
    cases hlast : stack.getLast? with
    | none =>
      rw [hlast] at h
      simp only [Except.ok.injEq, Prod.mk.injEq] at h
      exact h.1 ▸ hsols
    | some popped =>
      rw [hlast] at h
      simp only at h
      have hrest : ∀ wc ∈ stack.dropLast,
          WCSound dictionary (parseWords ciphertext dictionary.alphabet) wc :=
        fun wc hwc => hstack wc (List.mem_of_mem_dropLast hwc)
      have hpopped : WCSound dictionary (parseWords ciphertext dictionary.alphabet)
          popped := hstack popped (List.mem_of_mem_getLast? hlast)
      cases hprune : pruneWordCandidates popped dictionary with
      | none =>
        rw [hprune] at h
        by_cases hc : (sols.length : Int) < maxSolutionCount ∧ stack.dropLast ≠ []
        · rw [if_pos hc] at h
          exact ih _ sols sols' flag hrest hsols h
        · rw [if_neg hc] at h
          simp only [Except.ok.injEq, Prod.mk.injEq] at h
          exact h.1 ▸ hsols
      | some wordCandidates =>
        rw [hprune] at h
        simp only at h
        have hpruned : WCSound dictionary
            (parseWords ciphertext dictionary.alphabet) wordCandidates :=
          pruneWordCandidates_sound hprune hpopped
        by_cases hmx : ((wordCandidates.map fun e => e.2.length).max?).getD 0 > 1
        · rw [if_pos hmx] at h
          have hstack' : ∀ wc ∈ stack.dropLast ++
              (partitionWordCandidates wordCandidates).reverse,
              WCSound dictionary (parseWords ciphertext dictionary.alphabet) wc := by
            intro wc hwc
            rcases List.mem_append.mp hwc with hwc | hwc
            · exact hrest wc hwc
            · rw [List.mem_reverse] at hwc
              obtain ⟨hp, hk⟩ := partitionWordCandidates_sound
                (P := fun w c =>
                  c ∈ (mapGet dictionary.patternWords (computePattern w)).getD [])
                hpruned.2 wc hwc
              exact ⟨hk.trans hpruned.1, hp⟩
          by_cases hc : (sols.length : Int) < maxSolutionCount ∧
              stack.dropLast ++ (partitionWordCandidates wordCandidates).reverse ≠ []
          · rw [if_pos hc] at h
            exact ih _ sols sols' flag hstack' hsols h
          · rw [if_neg hc] at h
            simp only [Except.ok.injEq, Prod.mk.injEq] at h
            exact h.1 ▸ hsols
        · rw [if_neg hmx] at h
          cases hciph : computeCipher
              (wordCandidates.map fun e => (e.1, e.2.headD [])) with
          | error err =>
            rw [hciph] at h
            simp at h
          | ok cipher =>
            rw [hciph] at h
            simp only at h
            have hsol : SolutionSound dictionary ciphertext
                (decryptCiphertext ciphertext cipher) cipher :=
              leaf_solution_sound ciphertext dictionary wordCandidates cipher hwf
                hpruned (pruneWordCandidates_pos hprune) hciph
            by_cases hhas : mapHas sols (decryptCiphertext ciphertext cipher)
            · rw [if_pos hhas] at h
              by_cases hc : (sols.length : Int) < maxSolutionCount ∧
                  stack.dropLast ≠ []
              · rw [if_pos hc] at h
                exact ih _ sols sols' flag hrest hsols h
              · rw [if_neg hc] at h
                simp only [Except.ok.injEq, Prod.mk.injEq] at h
                exact h.1 ▸ hsols
            · rw [if_neg hhas] at h
              have hsols' : SolsSound dictionary ciphertext
                  (mapSet sols (decryptCiphertext ciphertext cipher)
                    (computeMeanFrequency (decryptCiphertext ciphertext cipher)
                      dictionary, cipher)) := by
                intro e he
                rcases mem_mapSet he with hm | hm
                · exact hsols e hm
                · rw [hm]
                  exact hsol
              by_cases hc : ((mapSet sols (decryptCiphertext ciphertext cipher)
                  (computeMeanFrequency (decryptCiphertext ciphertext cipher)
                    dictionary, cipher)).length : Int) < maxSolutionCount ∧
                  stack.dropLast ≠ []
              · rw [if_pos hc] at h
                exact ih _ _ sols' flag hrest hsols' h
              · rw [if_neg hc] at h
                simp only [Except.ok.injEq, Prod.mk.injEq] at h
                exact h.1 ▸ hsols'

theorem mapGet_perm {κ ν : Type} [DecidableEq κ] {m m' : JMap κ ν}
    (hperm : List.Perm m' m) (hnd : (jmKeys m).Nodup) (k : κ) :
    mapGet m' k = mapGet m k := by
  have hnd' : (jmKeys m').Nodup := ((hperm.map Prod.fst).nodup_iff).mpr hnd
  cases hg : mapGet m k with
  | none =>
    rw [mapGet_eq_none_iff] at hg ⊢
    intro hk
    exact hg ((hperm.map Prod.fst).mem_iff.mp hk)
  | some v =>
    have hm : (k, v) ∈ m' := hperm.mem_iff.mpr (mem_of_mapGet_some hg)
    exact mapGet_of_mem_nodup hnd' hm

theorem solutionSound_perm (dictionary : Dictionary)
    (ciphertext plaintext : List Char) {cipher cipher' : JMap Char Char}
    (hperm : List.Perm cipher' cipher)
    (hs : SolutionSound dictionary ciphertext plaintext cipher) :
    SolutionSound dictionary ciphertext plaintext cipher' := by
  obtain ⟨hdec, hknd, hvnd, hdict⟩ := hs
  refine ⟨?_, ?_, ?_, hdict⟩
  · rw [hdec]
    unfold decryptCiphertext
    apply List.map_congr_left
    intro letter _
    rw [mapGet_perm hperm hknd letter]
  · exact ((hperm.map Prod.fst).nodup_iff).mpr hknd
  · exact ((hperm.map Prod.snd).nodup_iff).mpr hvnd

/-- C1 amended.  When the ciphertext has at least two distinct words and
    the constraint-propagation search itself produces at least one
    solution, `solveCryptogram` returns exactly the ranked search results,
    and every returned (plaintext, cipher) pair is sound: the plaintext is
    the cipher applied letterwise to the ciphertext (non-alphabet
    characters unchanged), the cipher is injective, and every
    alphabet-only word of the plaintext is filed in the dictionary under
    its own pattern.  (The randomized fallback paths, which run only when
    the search finds nothing, do not guarantee this — see the
    counterexample.) -/
theorem c1_amended_main_search_sound (ciphertext : List Char)
    (dictionary : Dictionary) (maxSolutionCount : Int) (fuel : Nat)
    (r : Nat → Nat) (sols : Sols) (timedOut : Bool) (hwf : DictWF dictionary)
    (hlen : 2 ≤ (parseWords ciphertext dictionary.alphabet).length)
    (hrun : mainSearchLoop ciphertext dictionary maxSolutionCount fuel
      [findWordCandidates (parseWords ciphertext dictionary.alphabet) dictionary]
      [] = Except.ok (sols, timedOut))
    (hne : sols ≠ []) :
    solveCryptogram ciphertext dictionary maxSolutionCount fuel r =
      some (Except.ok (rankSolutions sols)) ∧
    ∀ e ∈ rankSolutions sols, SolutionSound dictionary ciphertext e.1 e.2 := by
  constructor
  · unfold solveCryptogram
    rw [if_neg (by omega), hrun]
    simp only
    rw [if_neg (by simp [hne])]
  · have hsound : SolsSound dictionary ciphertext sols :=
      mainSearchLoop_sound ciphertext dictionary maxSolutionCount hwf fuel
        [findWordCandidates (parseWords ciphertext dictionary.alphabet) dictionary]
        [] sols timedOut
        (by
          intro wc hwc
          simp only [List.mem_singleton] at hwc
          subst hwc
          exact findWordCandidates_sound _ dictionary)
        (by intro e he; simp at he) hrun
    intro e he
    unfold rankSolutions at he
    obtain ⟨e0, he0, rfl⟩ := List.mem_map.mp he
    have he0' : e0 ∈ sols := (stableSort_perm _ sols).mem_iff.mp he0
    exact solutionSound_perm dictionary ciphertext e0.1
      (stableSort_perm (fun x y => x.1 ≤ y.1) e0.2.2) (hsound e0 he0')

/-- C1 witness: the amended soundness statement applied to the `"AB CD"`
    cryptogram over the `{AB, CD}` dictionary, whose search returns two
    solutions, both sound. -/
theorem c1_amended_witness :
    solveCryptogram "AB CD".toList dictABCD 2 10 (fun _ => 0) =
      some (Except.ok (rankSolutions
        [(['A','B',' ','C','D'],
            (mkRat 1 1, [('A','A'),('B','B'),('C','C'),('D','D')])),
          (['C','D',' ','A','B'],
            (mkRat 1 1, [('A','C'),('B','D'),('C','A'),('D','B')]))])) ∧
    ∀ e ∈ rankSolutions
        [(['A','B',' ','C','D'],
            (mkRat 1 1, [('A','A'),('B','B'),('C','C'),('D','D')])),
          (['C','D',' ','A','B'],
            (mkRat 1 1, [('A','C'),('B','D'),('C','A'),('D','B')]))],
      SolutionSound dictABCD "AB CD".toList e.1 e.2 :=
  c1_amended_main_search_sound "AB CD".toList dictABCD 2 10 (fun _ => 0)
    [(['A','B',' ','C','D'],
        (mkRat 1 1, [('A','A'),('B','B'),('C','C'),('D','D')])),
      (['C','D',' ','A','B'],
        (mkRat 1 1, [('A','C'),('B','D'),('C','A'),('D','B')]))]
    false (by decide) (by decide) (by decide) (by decide)

theorem mem_remSet {L : Finset Char} {S : Char → Finset Char} {v : Finset Char}
    {x : Char} : x ∈ remSet L S v ↔
      ∃ k ∈ L, trigV L S (S k) ∧ ¬(exactV L S (S k) ∧ S k = v) ∧ x ∈ S k := by
  unfold remSet
  simp only [Finset.mem_biUnion, Finset.mem_filter]
  constructor
  · rintro ⟨k, ⟨hk, h1, h2⟩, hx⟩
    exact ⟨k, hk, h1, h2, hx⟩
  · rintro ⟨k, hk, h1, h2, hx⟩
    exact ⟨k, ⟨hk, h1, h2⟩, hx⟩

theorem passS_subset (L : Finset Char) (S : Char → Finset Char) (ℓ : Char) :
    passS L S ℓ ⊆ S ℓ := by
  unfold passS
  split
  · exact Finset.sdiff_subset
  · exact Finset.Subset.refl _

theorem passS_of_not_mem (L : Finset Char) (S : Char → Finset Char) (ℓ : Char)
    (h : ℓ ∉ L) : passS L S ℓ = S ℓ := by
  unfold passS
  rw [if_neg h]

theorem passS_uniform' (L : Finset Char) (S : Char → Finset Char) {ℓ ℓ' : Char}
    (h1 : ℓ ∈ L) (h2 : ℓ' ∈ L) (h : S ℓ = S ℓ') : passS L S ℓ = passS L S ℓ' := by
  unfold passS
  rw [if_pos h1, if_pos h2, h]

theorem absorb {L : Finset Char} {S : Char → Finset Char} {k ℓ : Char}
    (hk : k ∈ L) (hℓ : ℓ ∈ L) (htr : trigV L S (S k))
    (hne : ¬(exactV L S (S k) ∧ S ℓ = S k)) :
    passS L S ℓ ∩ S k = ∅ := by
  have hsub : S k ⊆ remSet L S (S ℓ) := by
    intro x hx
    rw [mem_remSet]
    refine ⟨k, hk, htr, ?_, hx⟩
    intro ⟨he, hv⟩
    exact hne ⟨he, hv.symm⟩
  unfold passS
  rw [if_pos hℓ]
  ext x
  simp only [Finset.mem_inter, Finset.mem_sdiff, Finset.not_mem_empty, iff_false]
  rintro ⟨⟨hx1, hx2⟩, hx3⟩
  exact hx2 (hsub hx3)

theorem change_mem_L {L : Finset Char} {S : Char → Finset Char} {ℓ : Char}
    (hch : passS L S ℓ ≠ S ℓ) : ℓ ∈ L := by
  by_contra h
  exact hch (passS_of_not_mem L S ℓ h)

theorem change_cause {L : Finset Char} {S : Char → Finset Char} {ℓ : Char}
    (hch : passS L S ℓ ≠ S ℓ) :
    ∃ k ∈ L, trigV L S (S k) ∧ ¬(exactV L S (S k) ∧ S k = S ℓ) ∧
      (S ℓ ∩ S k).Nonempty := by
  have hℓ : ℓ ∈ L := change_mem_L hch
  unfold passS at hch
  rw [if_pos hℓ] at hch
  have : ¬ Disjoint (S ℓ) (remSet L S (S ℓ)) := by
    intro hd
    exact hch (Finset.sdiff_eq_self_of_disjoint hd)
  rw [Finset.not_disjoint_iff] at this
  obtain ⟨x, hx1, hx2⟩ := this
  rw [mem_remSet] at hx2
  obtain ⟨k, hk, h1, h2, hx3⟩ := hx2
  exact ⟨k, hk, h1, h2, ⟨x, Finset.mem_inter.mpr ⟨hx1, hx3⟩⟩⟩

theorem classOf_subset_pass {L : Finset Char} {S : Char → Finset Char} {ℓ : Char}
    (hℓ : ℓ ∈ L) :
    classOf L S (S ℓ) ⊆ classOf L (passS L S) (passS L S ℓ) := by
  intro k hk
  rw [classOf, Finset.mem_filter] at hk ⊢
  exact ⟨hk.1, passS_uniform' L S hk.1 hℓ hk.2⟩

theorem trig_persist {L : Finset Char} {S : Char → Finset Char} {ℓ : Char}
    (hℓ : ℓ ∈ L) (h : trigV L S (S ℓ)) :
    trigV L (passS L S) (passS L S ℓ) := by
  unfold trigV at h ⊢
  calc (passS L S ℓ).card ≤ (S ℓ).card := Finset.card_le_card (passS_subset L S ℓ)
    _ ≤ (classOf L S (S ℓ)).card := h
    _ ≤ (classOf L (passS L S) (passS L S ℓ)).card :=
        Finset.card_le_card (classOf_subset_pass hℓ)

theorem strict_self_empty {L : Finset Char} {S : Char → Finset Char} {k : Char}
    (hk : k ∈ L) (htr : trigV L S (S k)) (hex : ¬ exactV L S (S k)) :
    passS L S k = ∅ := by
  have h := absorb hk hk htr (fun hc => hex hc.1)
  have hsub := passS_subset L S k
  ext x
  simp only [Finset.not_mem_empty, iff_false]
  intro hx
  have : x ∈ passS L S k ∩ S k := Finset.mem_inter.mpr ⟨hx, hsub hx⟩
  rw [h] at this
  exact Finset.not_mem_empty x this

theorem old_disjoint {L : Finset Char} {S : Char → Finset Char} {k ℓ : Char}
    (hk : k ∈ L) (hℓ : ℓ ∈ L) (htr : trigV L S (S k))
    (hne : passS L S ℓ ≠ passS L S k) :
    passS L S ℓ ∩ passS L S k = ∅ := by
  by_cases hex : exactV L S (S k)
  · by_cases hv : S ℓ = S k
    · exact absurd (passS_uniform' L S hℓ hk hv) hne
    · have h := absorb hk hℓ htr (fun hc => hv hc.2)
      have hsub := passS_subset L S k
      ext x
      simp only [Finset.mem_inter, Finset.not_mem_empty, iff_false]
      rintro ⟨hx1, hx2⟩
      have : x ∈ passS L S ℓ ∩ S k := Finset.mem_inter.mpr ⟨hx1, hsub hx2⟩
      rw [h] at this
      exact Finset.not_mem_empty x this
  · rw [strict_self_empty hk htr hex]
    exact Finset.inter_empty _

theorem old_exact_structure {L : Finset Char} {S : Char → Finset Char} {m : Char}
    (hm : m ∈ L) (htr : trigV L S (S m)) (hv : passS L S m ≠ ∅) :
    exactV L S (S m) ∧
      classOf L (passS L S) (passS L S m) = classOf L S (S m) := by
  have hex : exactV L S (S m) := by
    by_contra hex
    exact hv (strict_self_empty hm htr hex)
  refine ⟨hex, ?_⟩
  apply Finset.Subset.antisymm
  · intro k hk
    rw [classOf, Finset.mem_filter] at hk ⊢
    refine ⟨hk.1, ?_⟩
    by_contra hkm
    have hd := absorb hm hk.1 htr (fun hc => hkm hc.2)
    have hss : passS L S m ⊆ S m := passS_subset L S m
    obtain ⟨x, hx⟩ := Finset.nonempty_iff_ne_empty.mpr hv
    have hx2 : x ∈ passS L S k := by
      rw [hk.2]
      exact hx
    have : x ∈ passS L S k ∩ S m := Finset.mem_inter.mpr ⟨hx2, hss hx⟩
    rw [hd] at this
    exact Finset.not_mem_empty x this
  · exact classOf_subset_pass hm

theorem old_exact_frozen {L : Finset Char} {S : Char → Finset Char} {m : Char}
    (hm : m ∈ L) (htr : trigV L S (S m)) (hv : passS L S m ≠ ∅)
    (hex' : exactV L (passS L S) (passS L S m)) :
    passS L S m = S m := by
  obtain ⟨hex, hcls⟩ := old_exact_structure hm htr hv
  have h1 : (classOf L (passS L S) (passS L S m)).card = (passS L S m).card := hex'
  have h2 : (classOf L S (S m)).card = (S m).card := hex
  rw [hcls, h2] at h1
  exact Finset.eq_of_subset_of_card_le (passS_subset L S m) (le_of_eq h1)

theorem old_exact_inert {L : Finset Char} {S : Char → Finset Char} {m : Char}
    (hm : m ∈ L) (htr : trigV L S (S m)) (hv : passS L S m ≠ ∅)
    (hex' : exactV L (passS L S) (passS L S m)) :
    passS L (passS L S) m = passS L S m := by
  obtain ⟨hex, hcls⟩ := old_exact_structure hm htr hv
  have hval : passS L S m = S m := old_exact_frozen hm htr hv hex'
  have hdis : Disjoint (passS L S m) (remSet L (passS L S) (passS L S m)) := by
    rw [Finset.disjoint_right]
    intro x hx hx2
    rw [mem_remSet] at hx
    obtain ⟨k, hk, h1, h2, hx3⟩ := hx
    by_cases hkv : passS L S k = passS L S m
    · exact h2 ⟨hkv ▸ hex', hkv⟩
    · by_cases hkm : S k = S m
      · exact hkv (passS_uniform' L S hk hm hkm)
      · have hd := absorb hm hk htr (fun hc => hkm hc.2)
        have : x ∈ passS L S k ∩ S m := by
          rw [hval] at hx2
          exact Finset.mem_inter.mpr ⟨hx3, hx2⟩
        rw [hd] at this
        exact Finset.not_mem_empty x this
  unfold passS
  rw [if_pos hm]
  exact Finset.sdiff_eq_self_of_disjoint hdis

theorem mem_TrigL {L : Finset Char} {S : Char → Finset Char} {ℓ : Char} :
    ℓ ∈ TrigL L S ↔ ℓ ∈ L ∧ trigV L S (S ℓ) := by
  unfold TrigL
  exact Finset.mem_filter

theorem TrigL_subset (L : Finset Char) (S : Char → Finset Char) :
    TrigL L S ⊆ L := Finset.filter_subset _ _

theorem TrigL_mono (L : Finset Char) (S : Char → Finset Char) :
    TrigL L S ⊆ TrigL L (passS L S) := by
  intro ℓ hl
  rw [mem_TrigL] at hl ⊢
  exact ⟨hl.1, trig_persist hl.1 hl.2⟩

theorem OldT_subset (L : Finset Char) (S0 : Char → Finset Char) (t : Nat) :
    OldT L S0 t ⊆ TrigL L ((passS L)^[t] S0) := by
  cases t with
  | zero => exact Finset.empty_subset _
  | succ s =>
    show TrigL L ((passS L)^[s] S0) ⊆ _
    rw [Function.iterate_succ_apply']
    exact TrigL_mono L _

theorem card_TrigL_split (L : Finset Char) (S0 : Char → Finset Char) (t : Nat) :
    (TrigL L ((passS L)^[t] S0)).card =
      (OldT L S0 t).card + (freshAt L S0 t).card := by
  unfold freshAt
  rw [Finset.card_sdiff (OldT_subset L S0 t)]
  have := Finset.card_le_card (OldT_subset L S0 t)
  omega

theorem card_TrigL_sum (L : Finset Char) (S0 : Char → Finset Char) :
    ∀ m, (TrigL L ((passS L)^[m] S0)).card =
      ∑ t ∈ Finset.range (m + 1), (freshAt L S0 t).card := by
  intro m
  induction m with
  | zero =>
    rw [card_TrigL_split L S0 0]
    simp [OldT]
  | succ s ih =>
    rw [card_TrigL_split L S0 (s + 1), Finset.sum_range_succ, ← ih]
    rfl

theorem sum_fresh_lower (L : Finset Char) (S0 : Char → Finset Char) (s c : Nat)
    (h1 : ∀ t, t ≤ s → 1 ≤ (freshAt L S0 t).card)
    (hc : c ≤ (freshAt L S0 s).card) :
    s + c ≤ (TrigL L ((passS L)^[s] S0)).card := by
  rw [card_TrigL_sum L S0 s, Finset.sum_range_succ]
  have hlow : s ≤ ∑ t ∈ Finset.range s, (freshAt L S0 t).card := by
    calc s = ∑ _t ∈ Finset.range s, 1 := by simp
    _ ≤ ∑ t ∈ Finset.range s, (freshAt L S0 t).card := by
        refine Finset.sum_le_sum ?_
        intro i hi
        exact h1 i (le_of_lt (Finset.mem_range.mp hi))
  omega

theorem sum_fresh_lower_mid (L : Finset Char) (S0 : Char → Finset Char)
    (m t0 : Nat) (ht0 : t0 ≤ m)
    (h1 : ∀ t, t ≤ m → 1 ≤ (freshAt L S0 t).card)
    (hc : 2 ≤ (freshAt L S0 t0).card) :
    m + 2 ≤ (TrigL L ((passS L)^[m] S0)).card := by
  rw [card_TrigL_sum L S0 m]
  have hmem : t0 ∈ Finset.range (m + 1) := Finset.mem_range.mpr (by omega)
  rw [← Finset.add_sum_erase _ _ hmem]
  have hlow : m ≤ ∑ t ∈ (Finset.range (m + 1)).erase t0, (freshAt L S0 t).card := by
    have hcard : ((Finset.range (m + 1)).erase t0).card = m := by
      rw [Finset.card_erase_of_mem hmem, Finset.card_range]
      omega
    calc m = ∑ _t ∈ (Finset.range (m + 1)).erase t0, 1 := by rw [Finset.sum_const,
        hcard, smul_eq_mul, mul_one]
    _ ≤ _ := by
        refine Finset.sum_le_sum ?_
        intro i hi
        have := Finset.mem_range.mp (Finset.mem_of_mem_erase hi)
        exact h1 i (by omega)
  omega

theorem strict_old_fresh3 (L : Finset Char) (S0 : Char → Finset Char) (t : Nat)
    {m : Char} (hold : m ∈ TrigL L ((passS L)^[t] S0))
    (hnex : ¬ exactV L ((passS L)^[t+1] S0) ((passS L)^[t+1] S0 m))
    (hvne : (passS L)^[t+1] S0 m ≠ ∅) :
    3 ≤ (freshAt L S0 t).card := by
  rw [Function.iterate_succ_apply'] at hnex hvne
  obtain ⟨hmL, htrm⟩ := mem_TrigL.mp hold
  obtain ⟨hexu, hcls⟩ := old_exact_structure hmL htrm hvne
  have hvu := passS_subset L ((passS L)^[t] S0) m
  have hcard1 : (classOf L (passS L ((passS L)^[t] S0))
      (passS L ((passS L)^[t] S0) m)).card = ((passS L)^[t] S0 m).card := by
    rw [hcls]
    exact hexu
  have hne_val : passS L ((passS L)^[t] S0) m ≠ (passS L)^[t] S0 m := by
    intro h
    apply hnex
    show (classOf L _ _).card = _
    rw [hcard1, h]
  have hss : passS L ((passS L)^[t] S0) m ⊂ (passS L)^[t] S0 m :=
    Finset.ssubset_iff_subset_ne.mpr ⟨hvu, hne_val⟩
  obtain ⟨x, hxu, hxv⟩ := Finset.exists_of_ssubset hss
  have hxrem : x ∈ remSet L ((passS L)^[t] S0) ((passS L)^[t] S0 m) := by
    by_contra hxr
    apply hxv
    unfold passS
    rw [if_pos hmL]
    exact Finset.mem_sdiff.mpr ⟨hxu, hxr⟩
  rw [mem_remSet] at hxrem
  obtain ⟨k, hkL, htrk, hknex, hxk⟩ := hxrem
  have hku : (passS L)^[t] S0 k ≠ (passS L)^[t] S0 m := by
    intro h
    exact hknex ⟨h ▸ hexu, h⟩
  have hkfresh : k ∈ freshAt L S0 t := by
    unfold freshAt
    rw [Finset.mem_sdiff]
    refine ⟨mem_TrigL.mpr ⟨hkL, htrk⟩, ?_⟩
    cases t with
    | zero => simp [OldT]
    | succ s =>
      intro hkold
      obtain ⟨hkL2, htrk2⟩ := mem_TrigL.mp hkold
      have he : (passS L)^[s+1] S0 = passS L ((passS L)^[s] S0) :=
        Function.iterate_succ_apply' (passS L) s S0
      have hne2 : passS L ((passS L)^[s] S0) m ≠ passS L ((passS L)^[s] S0) k := by
        rw [← he]
        exact fun h => hku h.symm
      have hd := old_disjoint hkL2 hmL htrk2 hne2
      rw [← he] at hd
      have : x ∈ (passS L)^[s+1] S0 m ∩ (passS L)^[s+1] S0 k :=
        Finset.mem_inter.mpr ⟨hxu, hxk⟩
      rw [hd] at this
      exact Finset.not_mem_empty x this
  have hclsfresh : classOf L ((passS L)^[t] S0) ((passS L)^[t] S0 m) ⊆
      freshAt L S0 t := by
    intro j hj
    obtain ⟨hjL, hjval⟩ := Finset.mem_filter.mp hj
    have htrj : trigV L ((passS L)^[t] S0) ((passS L)^[t] S0 j) := by
      rw [hjval]
      exact htrm
    unfold freshAt
    rw [Finset.mem_sdiff]
    refine ⟨mem_TrigL.mpr ⟨hjL, htrj⟩, ?_⟩
    cases t with
    | zero => simp [OldT]
    | succ s =>
      intro hjold
      obtain ⟨hjL2, htrj2⟩ := mem_TrigL.mp hjold
      have he : (passS L)^[s+1] S0 = passS L ((passS L)^[s] S0) :=
        Function.iterate_succ_apply' (passS L) s S0
      have hune : (passS L)^[s+1] S0 m ≠ ∅ := by
        intro h
        apply hvne
        have := passS_subset L ((passS L)^[s+1] S0) m
        rw [h] at this
        exact Finset.subset_empty.mp this
      have hjne : passS L ((passS L)^[s] S0) j ≠ ∅ := by
        rw [← he, hjval]
        exact hune
      have hjex : exactV L (passS L ((passS L)^[s] S0))
          (passS L ((passS L)^[s] S0) j) := by
        rw [← he, hjval]
        exact hexu
      have hinert := old_exact_inert hjL2 htrj2 hjne hjex
      rw [← he] at hinert
      have huni : passS L ((passS L)^[s+1] S0) j =
          passS L ((passS L)^[s+1] S0) m := passS_uniform' L _ hjL hmL hjval
      rw [huni, hjval] at hinert
      exact hne_val hinert
  have hknot : k ∉ classOf L ((passS L)^[t] S0) ((passS L)^[t] S0 m) := by
    intro hk
    exact hku (Finset.mem_filter.mp hk).2
  have hinsert : insert k (classOf L ((passS L)^[t] S0) ((passS L)^[t] S0 m)) ⊆
      freshAt L S0 t := by
    intro y hy
    rcases Finset.mem_insert.mp hy with h | h
    · exact h ▸ hkfresh
    · exact hclsfresh h
  have hcards : (classOf L ((passS L)^[t] S0) ((passS L)^[t] S0 m)).card + 1 ≤
      (freshAt L S0 t).card := by
    rw [← Finset.card_insert_of_not_mem hknot]
    exact Finset.card_le_card hinsert
  have h1 : (classOf L ((passS L)^[t] S0) ((passS L)^[t] S0 m)).card =
      ((passS L)^[t] S0 m).card := hexu
  have h2 : (passS L ((passS L)^[t] S0) m).card < ((passS L)^[t] S0 m).card :=
    Finset.card_lt_card hss
  have h3 : 1 ≤ (passS L ((passS L)^[t] S0) m).card :=
    Finset.card_pos.mpr (Finset.nonempty_iff_ne_empty.mpr hvne)
  omega

theorem nofresh_victims_empty (L : Finset Char) (S0 : Char → Finset Char) (t : Nat)
    (hF : freshAt L S0 (t+1) = ∅) {ℓ : Char}
    (hch : passS L ((passS L)^[t+1] S0) ℓ ≠ (passS L)^[t+1] S0 ℓ) :
    passS L ((passS L)^[t+1] S0) ℓ = ∅ := by
  have hℓ := change_mem_L hch
  obtain ⟨k, hkL, htrk, hknex, hnon⟩ := change_cause hch
  have hkT : k ∈ TrigL L ((passS L)^[t+1] S0) := mem_TrigL.mpr ⟨hkL, htrk⟩
  have hkold : k ∈ TrigL L ((passS L)^[t] S0) := by
    by_contra hko
    have : k ∈ freshAt L S0 (t+1) := Finset.mem_sdiff.mpr ⟨hkT, hko⟩
    rw [hF] at this
    exact Finset.not_mem_empty k this
  obtain ⟨hkL2, htrk2⟩ := mem_TrigL.mp hkold
  have he : (passS L)^[t+1] S0 = passS L ((passS L)^[t] S0) :=
    Function.iterate_succ_apply' (passS L) t S0
  have heq : (passS L)^[t+1] S0 ℓ = (passS L)^[t+1] S0 k := by
    by_contra hne
    have hd := old_disjoint hkL2 hℓ htrk2 (by rw [← he]; exact hne)
    rw [← he] at hd
    obtain ⟨x, hx⟩ := hnon
    rw [hd] at hx
    exact Finset.not_mem_empty x hx
  have hnex2 : ¬ exactV L ((passS L)^[t+1] S0) ((passS L)^[t+1] S0 ℓ) := by
    intro hex
    refine hknex ⟨?_, heq.symm⟩
    rw [← heq]
    exact hex
  have htrl : trigV L ((passS L)^[t+1] S0) ((passS L)^[t+1] S0 ℓ) := by
    rw [heq]
    exact htrk
  exact strict_self_empty hℓ htrl hnex2

theorem no_trig_no_change (L : Finset Char) (S : Char → Finset Char)
    (h : TrigL L S = ∅) : passS L S = S := by
  funext ℓ
  by_contra hch
  obtain ⟨k, hkL, htrk, h1, h2⟩ := change_cause hch
  have : k ∈ TrigL L S := mem_TrigL.mpr ⟨hkL, htrk⟩
  rw [h] at this
  exact Finset.not_mem_empty k this

theorem nofresh_terminal (L : Finset Char) (S0 : Char → Finset Char) (t : Nat)
    (hF : freshAt L S0 (t+1) = ∅) :
    passS L ((passS L)^[t+2] S0) = (passS L)^[t+2] S0 := by
  funext ℓ'
  by_contra hch
  have hℓ' := change_mem_L hch
  obtain ⟨k', hkL, htrk, hknex, hnon⟩ := change_cause hch
  have he2 : (passS L)^[t+2] S0 = passS L ((passS L)^[t+1] S0) :=
    Function.iterate_succ_apply' (passS L) (t+1) S0
  have hvne : (passS L)^[t+2] S0 k' ≠ ∅ := by
    intro h
    obtain ⟨x, hx⟩ := hnon
    rw [Finset.mem_inter] at hx
    rw [h] at hx
    exact Finset.not_mem_empty x hx.2
  by_cases hkold : k' ∈ TrigL L ((passS L)^[t+1] S0)
  · obtain ⟨hkL2, htrk2⟩ := mem_TrigL.mp hkold
    have heq : (passS L)^[t+2] S0 ℓ' = (passS L)^[t+2] S0 k' := by
      by_contra hne
      have hd := old_disjoint hkL2 hℓ' htrk2 (by rw [← he2]; exact hne)
      rw [← he2] at hd
      obtain ⟨x, hx⟩ := hnon
      rw [hd] at hx
      exact Finset.not_mem_empty x hx
    have hnex2 : ¬ exactV L ((passS L)^[t+2] S0) ((passS L)^[t+2] S0 k') := by
      intro hex
      exact hknex ⟨hex, heq.symm⟩
    have h3 := strict_old_fresh3 L S0 (t+1) hkold hnex2 hvne
    rw [hF] at h3
    simp at h3
  · have hkunch : (passS L)^[t+2] S0 k' = (passS L)^[t+1] S0 k' := by
      by_cases hv : passS L ((passS L)^[t+1] S0) k' = (passS L)^[t+1] S0 k'
      · rw [he2]
        exact hv
      · have hemp := nofresh_victims_empty L S0 t hF hv
        rw [← he2] at hemp
        exact absurd hemp hvne
    have hclsle : classOf L ((passS L)^[t+2] S0) ((passS L)^[t+2] S0 k') ⊆
        classOf L ((passS L)^[t+1] S0) ((passS L)^[t+1] S0 k') := by
      intro j hj
      obtain ⟨hjL, hjv⟩ := Finset.mem_filter.mp hj
      refine Finset.mem_filter.mpr ⟨hjL, ?_⟩
      have hjne : (passS L)^[t+2] S0 j ≠ ∅ := by
        rw [hjv]
        exact hvne
      have hjunch : (passS L)^[t+2] S0 j = (passS L)^[t+1] S0 j := by
        by_cases hv : passS L ((passS L)^[t+1] S0) j = (passS L)^[t+1] S0 j
        · rw [he2]
          exact hv
        · have hemp := nofresh_victims_empty L S0 t hF hv
          rw [← he2] at hemp
          exact absurd hemp hjne
      rw [← hjunch, ← hkunch]
      exact hjv
    have htr1 : trigV L ((passS L)^[t+1] S0) ((passS L)^[t+1] S0 k') := by
      unfold trigV
      calc ((passS L)^[t+1] S0 k').card = ((passS L)^[t+2] S0 k').card := by
            rw [hkunch]
        _ ≤ (classOf L ((passS L)^[t+2] S0) ((passS L)^[t+2] S0 k')).card := htrk
        _ ≤ _ := Finset.card_le_card hclsle
    exact hkold (mem_TrigL.mpr ⟨hkL, htr1⟩)

theorem iterate_stable (L : Finset Char) (S0 : Char → Finset Char) (t : Nat)
    (h : (passS L)^[t+1] S0 = (passS L)^[t] S0) :
    ∀ s, t ≤ s → (passS L)^[s] S0 = (passS L)^[t] S0 := by
  intro s
  induction s with
  | zero =>
    intro hs
    have : t = 0 := Nat.le_zero.mp hs
    rw [this]
  | succ r ih =>
    intro hs
    by_cases hr : t ≤ r
    · calc (passS L)^[r+1] S0 = passS L ((passS L)^[r] S0) :=
          Function.iterate_succ_apply' (passS L) r S0
        _ = passS L ((passS L)^[t] S0) := by rw [ih hr]
        _ = (passS L)^[t+1] S0 := (Function.iterate_succ_apply' (passS L) t S0).symm
        _ = (passS L)^[t] S0 := h
    · have : r + 1 = t := by omega
      rw [this]

theorem passS_iterate_fixpoint (L : Finset Char) (S0 : Char → Finset Char) :
    passS L ((passS L)^[L.card - 1] S0) = (passS L)^[L.card - 1] S0 := by
  by_cases hn : L.card = 0
  · have hL : L = ∅ := Finset.card_eq_zero.mp hn
    funext ℓ
    rw [hL]
    exact passS_of_not_mem ∅ _ ℓ (Finset.not_mem_empty ℓ)
  · obtain ⟨m, hm⟩ : ∃ m, L.card = m + 1 := ⟨L.card - 1, by omega⟩
    rw [hm]
    simp only [Nat.add_sub_cancel]
    by_contra hch
    have hchain : ∀ t, t ≤ m → passS L ((passS L)^[t] S0) ≠ (passS L)^[t] S0 := by
      intro t ht hstab
      apply hch
      have hstab' : (passS L)^[t+1] S0 = (passS L)^[t] S0 := by
        rw [Function.iterate_succ_apply' (passS L) t S0]
        exact hstab
      have h1 := iterate_stable L S0 t hstab' m ht
      rw [h1]
      exact hstab
    have hStep1 : ∀ t, t < m → freshAt L S0 t ≠ ∅ := by
      intro t ht hF
      cases t with
      | zero =>
        have hT0 : TrigL L ((passS L)^[0] S0) = ∅ := by
          have h0 : freshAt L S0 0 = TrigL L ((passS L)^[0] S0) := by
            simp [freshAt, OldT]
          rw [← h0]
          exact hF
        exact hchain 0 (by omega) (no_trig_no_change L ((passS L)^[0] S0) hT0)
      | succ s =>
        have hterm := nofresh_terminal L S0 s hF
        exact hchain (s+2) (by omega) hterm
    have hexv : ∃ ℓ₀, passS L ((passS L)^[m] S0) ℓ₀ ≠ (passS L)^[m] S0 ℓ₀ := by
      by_contra hv
      push_neg at hv
      exact hchain m (le_refl m) (funext hv)
    obtain ⟨ℓ₀, hv₀⟩ := hexv
    have hℓ₀L : ℓ₀ ∈ L := change_mem_L hv₀
    obtain ⟨k₀, hk₀L, htrk₀, hknex₀, hnon₀⟩ := change_cause hv₀
    have hvneℓ : (passS L)^[m] S0 ℓ₀ ≠ ∅ := by
      intro h
      obtain ⟨x, hx⟩ := hnon₀
      rw [Finset.mem_inter] at hx
      rw [h] at hx
      exact Finset.not_mem_empty x hx.1
    have hvnek : (passS L)^[m] S0 k₀ ≠ ∅ := by
      intro h
      obtain ⟨x, hx⟩ := hnon₀
      rw [Finset.mem_inter] at hx
      rw [h] at hx
      exact Finset.not_mem_empty x hx.2
    have hk₀T : k₀ ∈ TrigL L ((passS L)^[m] S0) := mem_TrigL.mpr ⟨hk₀L, htrk₀⟩
    by_cases hFm : freshAt L S0 m = ∅
    · cases m with
      | zero =>
        have h0 : freshAt L S0 0 = TrigL L ((passS L)^[0] S0) := by
          simp [freshAt, OldT]
        rw [hFm] at h0
        rw [← h0] at hk₀T
        exact Finset.not_mem_empty k₀ hk₀T
      | succ s =>
        have hkold : k₀ ∈ TrigL L ((passS L)^[s] S0) := by
          by_contra hko
          have hmem : k₀ ∈ freshAt L S0 (s+1) := Finset.mem_sdiff.mpr ⟨hk₀T, hko⟩
          rw [hFm] at hmem
          exact Finset.not_mem_empty k₀ hmem
        obtain ⟨hkL2, htrk2⟩ := mem_TrigL.mp hkold
        have he : (passS L)^[s+1] S0 = passS L ((passS L)^[s] S0) :=
          Function.iterate_succ_apply' (passS L) s S0
        have heq : (passS L)^[s+1] S0 ℓ₀ = (passS L)^[s+1] S0 k₀ := by
          by_contra hne
          have hd := old_disjoint hkL2 hℓ₀L htrk2 (by rw [← he]; exact hne)
          rw [← he] at hd
          obtain ⟨x, hx⟩ := hnon₀
          rw [hd] at hx
          exact Finset.not_mem_empty x hx
        have hnex2 : ¬ exactV L ((passS L)^[s+1] S0) ((passS L)^[s+1] S0 k₀) := by
          intro hex
          exact hknex₀ ⟨hex, heq.symm⟩
        have h3 := strict_old_fresh3 L S0 s hkold hnex2 hvnek
        have hlow := sum_fresh_lower L S0 s 3 (fun t ht =>
          Finset.card_pos.mpr (Finset.nonempty_iff_ne_empty.mpr
            (hStep1 t (by omega)))) h3
        have hup : (TrigL L ((passS L)^[s] S0)).card ≤ L.card :=
          Finset.card_le_card (TrigL_subset L _)
        rw [hm] at hup
        omega
    · have hall : ∀ t, t ≤ m → 1 ≤ (freshAt L S0 t).card := by
        intro t ht
        rcases Nat.lt_or_ge t m with h | h
        · exact Finset.card_pos.mpr (Finset.nonempty_iff_ne_empty.mpr (hStep1 t h))
        · have ht' : t = m := by omega
          rw [ht']
          exact Finset.card_pos.mpr (Finset.nonempty_iff_ne_empty.mpr hFm)
      have hTm_up : (TrigL L ((passS L)^[m] S0)).card ≤ m + 1 := by
        rw [← hm]
        exact Finset.card_le_card (TrigL_subset L _)
      have hTm_low : m + 1 ≤ (TrigL L ((passS L)^[m] S0)).card := by
        have := sum_fresh_lower L S0 m 1 hall (hall m (le_refl m))
        omega
      have hTmL : TrigL L ((passS L)^[m] S0) = L :=
        Finset.eq_of_subset_of_card_le (TrigL_subset L _) (by rw [hm]; omega)
      have heach : ∀ t, t ≤ m → (freshAt L S0 t).card = 1 := by
        intro t ht
        by_contra hne
        have h2 : 2 ≤ (freshAt L S0 t).card := by
          have := hall t ht
          omega
        have := sum_fresh_lower_mid L S0 m t ht hall h2
        omega
      by_cases hold : ℓ₀ ∈ OldT L S0 m
      · cases m with
        | zero => simp [OldT] at hold
        | succ s =>
          obtain ⟨hL2, htr2⟩ := mem_TrigL.mp hold
          have he : (passS L)^[s+1] S0 = passS L ((passS L)^[s] S0) :=
            Function.iterate_succ_apply' (passS L) s S0
          by_cases hex' : exactV L ((passS L)^[s+1] S0) ((passS L)^[s+1] S0 ℓ₀)
          · have hvp : passS L ((passS L)^[s] S0) ℓ₀ ≠ ∅ := by
              rw [← he]
              exact hvneℓ
            have hexp : exactV L (passS L ((passS L)^[s] S0))
                (passS L ((passS L)^[s] S0) ℓ₀) := by
              rw [← he]
              exact hex'
            have hinrt := old_exact_inert hL2 htr2 hvp hexp
            rw [← he] at hinrt
            exact hv₀ hinrt
          · have h3 := strict_old_fresh3 L S0 s hold hex' hvneℓ
            have := heach s (by omega)
            omega
      · have hℓT : ℓ₀ ∈ TrigL L ((passS L)^[m] S0) := by
          rw [hTmL]
          exact hℓ₀L
        have hℓF : ℓ₀ ∈ freshAt L S0 m := Finset.mem_sdiff.mpr ⟨hℓT, hold⟩
        have hFsing : freshAt L S0 m = {ℓ₀} := by
          obtain ⟨a, ha⟩ := Finset.card_eq_one.mp (heach m (le_refl m))
          rw [ha] at hℓF ⊢
          rw [Finset.mem_singleton] at hℓF
          rw [hℓF]
        have hcls : classOf L ((passS L)^[m] S0) ((passS L)^[m] S0 ℓ₀) = {ℓ₀} := by
          apply Finset.Subset.antisymm
          · intro j hj
            obtain ⟨hjL, hjv⟩ := Finset.mem_filter.mp hj
            rw [Finset.mem_singleton]
            by_cases hjold : j ∈ OldT L S0 m
            · exfalso
              cases m with
              | zero => simp [OldT] at hjold
              | succ s =>
                obtain ⟨hjL2, htrj2⟩ := mem_TrigL.mp hjold
                by_cases hex' : exactV L ((passS L)^[s+1] S0) ((passS L)^[s+1] S0 j)
                · have he : (passS L)^[s+1] S0 = passS L ((passS L)^[s] S0) :=
                    Function.iterate_succ_apply' (passS L) s S0
                  have hjne : passS L ((passS L)^[s] S0) j ≠ ∅ := by
                    rw [← he, hjv]
                    exact hvneℓ
                  obtain ⟨hexu, hclseq⟩ := old_exact_structure hjL2 htrj2 hjne
                  have hℓcls : ℓ₀ ∈ classOf L (passS L ((passS L)^[s] S0))
                      (passS L ((passS L)^[s] S0) j) := by
                    rw [← he]
                    exact Finset.mem_filter.mpr ⟨hℓ₀L, hjv.symm⟩
                  rw [hclseq] at hℓcls
                  obtain ⟨h1, hℓval⟩ := Finset.mem_filter.mp hℓcls
                  apply hold
                  refine mem_TrigL.mpr ⟨hℓ₀L, ?_⟩
                  rw [hℓval]
                  exact htrj2
                · have h3 := strict_old_fresh3 L S0 s hjold hex'
                    (by rw [hjv]; exact hvneℓ)
                  have := heach s (by omega)
                  omega
            · have hjF : j ∈ freshAt L S0 m := Finset.mem_sdiff.mpr
                ⟨by rw [hTmL]; exact hjL, hjold⟩
              rw [hFsing, Finset.mem_singleton] at hjF
              exact hjF
          · intro j hj
            rw [Finset.mem_singleton] at hj
            rw [hj]
            exact Finset.mem_filter.mpr ⟨hℓ₀L, rfl⟩
        have htrℓ : trigV L ((passS L)^[m] S0) ((passS L)^[m] S0 ℓ₀) :=
          (mem_TrigL.mp hℓT).2
        have hex₀ : exactV L ((passS L)^[m] S0) ((passS L)^[m] S0 ℓ₀) := by
          unfold exactV
          rw [hcls, Finset.card_singleton]
          unfold trigV at htrℓ
          rw [hcls, Finset.card_singleton] at htrℓ
          have h1 : 1 ≤ ((passS L)^[m] S0 ℓ₀).card :=
            Finset.card_pos.mpr (Finset.nonempty_iff_ne_empty.mpr hvneℓ)
          omega
        have hkne : (passS L)^[m] S0 k₀ ≠ (passS L)^[m] S0 ℓ₀ := by
          intro h
          refine hknex₀ ⟨?_, h⟩
          rw [h]
          exact hex₀
        have hk₀ne : k₀ ≠ ℓ₀ := fun h => hkne (by rw [h])
        have hk₀old : k₀ ∈ OldT L S0 m := by
          by_contra hko
          have hmem : k₀ ∈ freshAt L S0 m := Finset.mem_sdiff.mpr ⟨hk₀T, hko⟩
          rw [hFsing, Finset.mem_singleton] at hmem
          exact hk₀ne hmem
        cases m with
        | zero => simp [OldT] at hk₀old
        | succ s =>
          obtain ⟨hkL2, htrk2⟩ := mem_TrigL.mp hk₀old
          have he : (passS L)^[s+1] S0 = passS L ((passS L)^[s] S0) :=
            Function.iterate_succ_apply' (passS L) s S0
          by_cases hex' : exactV L ((passS L)^[s+1] S0) ((passS L)^[s+1] S0 k₀)
          · have hvp : passS L ((passS L)^[s] S0) k₀ ≠ ∅ := by
              rw [← he]
              exact hvnek
            have hexp : exactV L (passS L ((passS L)^[s] S0))
                (passS L ((passS L)^[s] S0) k₀) := by
              rw [← he]
              exact hex'
            have hfroz := old_exact_frozen hkL2 htrk2 hvp hexp
            have hℓne : (passS L)^[s] S0 ℓ₀ ≠ (passS L)^[s] S0 k₀ := by
              intro hsame
              apply hold
              refine mem_TrigL.mpr ⟨hℓ₀L, ?_⟩
              rw [hsame]
              exact htrk2
            have habs := absorb hkL2 hℓ₀L htrk2 (fun hc => hℓne hc.2)
            rw [← he] at habs
            have hk_eq : (passS L)^[s+1] S0 k₀ = (passS L)^[s] S0 k₀ := by
              rw [he]
              exact hfroz
            obtain ⟨x, hx⟩ := hnon₀
            rw [Finset.mem_inter] at hx
            have hx2 : x ∈ (passS L)^[s+1] S0 ℓ₀ ∩ (passS L)^[s] S0 k₀ := by
              refine Finset.mem_inter.mpr ⟨hx.1, ?_⟩
              rw [← hk_eq]
              exact hx.2
            rw [habs] at hx2
            exact Finset.not_mem_empty x hx2
          · have h3 := strict_old_fresh3 L S0 s hk₀old hex' hvnek
            have := heach s (by omega)
            omega

theorem dedupFirstGo_of_nodup {α : Type} [DecidableEq α] :
    ∀ (l seen : List α), l.Nodup → (∀ a ∈ l, a ∉ seen) → dedupFirstGo seen l = l := by
  intro l
  induction l with
  | nil => intro seen h1 h2; rfl
  | cons a rest ih =>
    intro seen h1 h2
    unfold dedupFirstGo
    rw [if_neg (h2 a (by simp))]
    rw [ih (a :: seen) (List.nodup_cons.mp h1).2]
    intro x hx
    rw [List.mem_cons, not_or]
    exact ⟨fun hxa => (List.nodup_cons.mp h1).1 (hxa ▸ hx), h2 x (by simp [hx])⟩

theorem dedupFirst_of_nodup {α : Type} [DecidableEq α] {l : List α}
    (h : l.Nodup) : dedupFirst l = l :=
  dedupFirstGo_of_nodup l [] h (by simp)

theorem slAdd_nodup {α : Type} [DecidableEq α] {s : List α} (a : α)
    (h : s.Nodup) : (slAdd s a).Nodup := by
  unfold slAdd
  split
  · exact h
  · simp only [List.nodup_append, List.nodup_singleton]
    refine ⟨h, trivial, ?_⟩
    intro x hx
    simp only [List.mem_singleton]
    intro hxa
    subst hxa
    exact absurd hx (by assumption)

theorem slAdd_ne_nil {α : Type} [DecidableEq α] (s : List α) (a : α) :
    slAdd s a ≠ [] := by
  unfold slAdd
  split
  · intro h
    subst h
    simp_all
  · simp

theorem groupPairs_values_wf {κ ν : Type} [DecidableEq κ] [DecidableEq ν] :
    ∀ (ps : List (κ × ν)) (g : JMap κ (List ν)),
      (∀ e ∈ g, e.2.Nodup ∧ e.2 ≠ []) →
      ∀ e ∈ ps.foldl (fun g p => match mapGet g p.1 with
        | none => g ++ [(p.1, [p.2])]
        | some s => mapSet g p.1 (slAdd s p.2)) g, e.2.Nodup ∧ e.2 ≠ [] := by
  intro ps
  induction ps with
  | nil =>
    intro g hg
    simpa using hg
  | cons p rest ih =>
    intro g hg
    simp only [List.foldl_cons]
    cases hget : mapGet g p.1 with
    | none =>
      apply ih
      intro e he
      rcases List.mem_append.mp he with he | he
      · exact hg e he
      · simp only [List.mem_singleton] at he
        subst he
        exact ⟨by simp, by simp⟩
    | some s =>
      apply ih
      intro e he
      rcases mem_mapSet he with he | he
      · exact hg e he
      · obtain ⟨hs1, hs2⟩ := hg _ (mem_of_mapGet_some hget)
        subst he
        exact ⟨slAdd_nodup p.2 hs1, slAdd_ne_nil s p.2⟩

theorem groupPairs_values_wf' {κ ν : Type} [DecidableEq κ] [DecidableEq ν]
    (ps : List (κ × ν)) : ∀ e ∈ groupPairs ps, e.2.Nodup ∧ e.2 ≠ [] :=
  groupPairs_values_wf ps [] (by simp)

theorem sortChar_sorted (v : List Char) :
    List.Pairwise (fun x y : Char => x ≤ y) (stableSort (fun a b => a ≤ b) v) := by
  have h := stableSort_pairwise (fun a b : Char => a ≤ b)
    (by intro a b; rcases le_total a b with h | h <;> simp [h])
    (by
      intro a b c hab hbc
      simp only [decide_eq_true_eq] at hab hbc ⊢
      exact le_trans hab hbc) v
  refine List.Pairwise.imp ?_ h
  intro a b hab
  simpa using hab

theorem sortChar_nodup {v : List Char} (h : v.Nodup) :
    (stableSort (fun a b : Char => a ≤ b) v).Nodup :=
  (stableSort_perm _ v).nodup_iff.mpr h

theorem sortChar_eq_of_toFinset {v w : List Char} (hv : v.Nodup) (hw : w.Nodup)
    (h : v.toFinset = w.toFinset) :
    stableSort (fun a b => a ≤ b) v = stableSort (fun a b => a ≤ b) w := by
  have hperm : v.Perm w := List.perm_of_nodup_nodup_toFinset_eq hv hw h
  have hp2 : (stableSort (fun a b : Char => a ≤ b) v).Perm
      (stableSort (fun a b : Char => a ≤ b) w) :=
    ((stableSort_perm _ v).trans hperm).trans (stableSort_perm _ w).symm
  exact List.eq_of_perm_of_sorted hp2 (sortChar_sorted v) (sortChar_sorted w)

theorem sortChar_toFinset (v : List Char) :
    (stableSort (fun a b : Char => a ≤ b) v).toFinset = v.toFinset :=
  List.toFinset_eq_of_perm _ _ (stableSort_perm _ v)

theorem sortChar_toFinset_of_eq {v w : List Char}
    (h : stableSort (fun a b : Char => a ≤ b) v = stableSort (fun a b : Char => a ≤ b) w) :
    v.toFinset = w.toFinset := by
  rw [← sortChar_toFinset v, ← sortChar_toFinset w, h]

theorem SFun_get {lc : JMap Char (List Char)} {ℓ : Char} {v : List Char}
    (h : mapGet lc ℓ = some v) : SFun lc ℓ = v.toFinset := by
  unfold SFun
  rw [h]
  rfl

theorem SFun_none {lc : JMap Char (List Char)} {ℓ : Char}
    (h : mapGet lc ℓ = none) : SFun lc ℓ = ∅ := by
  unfold SFun
  rw [h]
  rfl

theorem group_members_iff {A : List Char} {lc : JMap Char (List Char)}
    (hA : A.Nodup) (hwf : LCWF A lc) {κ ms : List Char}
    (he : (κ, ms) ∈ groupByCandidates lc) (x : Char) :
    x ∈ ms ↔ ∃ v, mapGet lc x = some v ∧ stableSort (fun a b => a ≤ b) v = κ := by
  obtain ⟨hknd, hiff⟩ := groupPairs_spec
    (lc.map fun e => (stableSort (fun a b => a ≤ b) e.2, e.1))
  have hget : mapGet (groupByCandidates lc) κ = some ms :=
    mapGet_of_mem_nodup hknd he
  have hlcnd : (jmKeys lc).Nodup := hwf.1 ▸ hA
  constructor
  · intro hx
    have hp : (κ, x) ∈ lc.map fun e => (stableSort (fun a b => a ≤ b) e.2, e.1) :=
      (hiff κ x).mp ⟨ms, hget, hx⟩
    obtain ⟨e', he', heq⟩ := List.mem_map.mp hp
    simp only [Prod.mk.injEq] at heq
    refine ⟨e'.2, ?_, heq.1⟩
    rw [← heq.2]
    exact mapGet_of_mem_nodup hlcnd he'
  · rintro ⟨v, hv, hsort⟩
    have hp : (κ, x) ∈ lc.map fun e => (stableSort (fun a b => a ≤ b) e.2, e.1) := by
      refine List.mem_map.mpr ⟨(x, v), mem_of_mapGet_some hv, ?_⟩
      simp only [Prod.mk.injEq]
      exact ⟨hsort, trivial⟩
    obtain ⟨s, hs, hxs⟩ := (hiff κ x).mpr hp
    have hget2 : mapGet (groupPairs
        (lc.map fun e => (stableSort (fun a b => a ≤ b) e.2, e.1))) κ = some ms := hget
    rw [hget2] at hs
    rw [Option.some.inj hs]
    exact hxs

theorem group_entry_char {A : List Char} {lc : JMap Char (List Char)}
    (hA : A.Nodup) (hwf : LCWF A lc) {κ ms : List Char}
    (he : (κ, ms) ∈ groupByCandidates lc) {k : Char} {vk : List Char}
    (hk : mapGet lc k = some vk)
    (hsort : stableSort (fun a b => a ≤ b) vk = κ) :
    ms.toFinset = classOf A.toFinset (SFun lc) (vk.toFinset) ∧
    ms.length = (classOf A.toFinset (SFun lc) (vk.toFinset)).card ∧
    dedupFirst κ = κ ∧
    κ.toFinset = vk.toFinset ∧
    κ.length = (vk.toFinset).card := by
  have hlcnd : (jmKeys lc).Nodup := hwf.1 ▸ hA
  have hvknd : vk.Nodup := hwf.2 _ (mem_of_mapGet_some hk)
  have hκnd : κ.Nodup := hsort ▸ sortChar_nodup hvknd
  have hms : ∀ x, x ∈ ms ↔ x ∈ classOf A.toFinset (SFun lc) (vk.toFinset) := by
    intro x
    rw [group_members_iff hA hwf he x]
    unfold classOf
    rw [Finset.mem_filter, List.mem_toFinset]
    constructor
    · rintro ⟨v, hv, hvs⟩
      have hx : x ∈ A := by
        rw [← hwf.1]
        exact mem_keys_of_mapGet_some hv
      refine ⟨hx, ?_⟩
      rw [SFun_get hv]
      exact sortChar_toFinset_of_eq (hvs.trans hsort.symm)
    · rintro ⟨hx, hS⟩
      rw [← hwf.1] at hx
      cases hv : mapGet lc x with
      | none => exact absurd ((mapGet_eq_none_iff lc x).mp hv) (by simpa using hx)
      | some v =>
        refine ⟨v, rfl, ?_⟩
        rw [SFun_get hv] at hS
        have hvnd : v.Nodup := hwf.2 _ (mem_of_mapGet_some hv)
        rw [← hsort]
        exact sortChar_eq_of_toFinset hvnd hvknd hS
  have hmsnd : ms.Nodup := (groupPairs_values_wf' _ (κ, ms) he).1
  have hmsfin : ms.toFinset = classOf A.toFinset (SFun lc) (vk.toFinset) := by
    ext x
    rw [List.mem_toFinset]
    exact hms x
  refine ⟨hmsfin, ?_, dedupFirst_of_nodup hκnd, ?_, ?_⟩
  · rw [← hmsfin, List.toFinset_card_of_nodup hmsnd]
  · rw [← hsort]
    exact sortChar_toFinset vk
  · rw [← hsort]
    have h1 : (stableSort (fun a b : Char => a ≤ b) vk).length = vk.length :=
      (stableSort_perm _ vk).length_eq
    rw [h1, List.toFinset_card_of_nodup hvknd]

theorem pigeonholeRemoves_iff (groups : JMap (List Char) (List Char))
    (letter cand : Char) :
    pigeonholeRemoves groups letter cand = true ↔
      ∃ e ∈ groups,
        (((dedupFirst e.1).length = e.2.length ∧ letter ∉ e.2) ∨
          (dedupFirst e.1).length < e.2.length) ∧ cand ∈ dedupFirst e.1 := by
  unfold pigeonholeRemoves
  simp [List.any_eq_true]

theorem removes_iff_remSet {A : List Char} {lc : JMap Char (List Char)}
    (hA : A.Nodup) (hwf : LCWF A lc) {ℓ : Char} (hℓ : ℓ ∈ A) (x : Char) :
    pigeonholeRemoves (groupByCandidates lc) ℓ x = true ↔
      x ∈ remSet A.toFinset (SFun lc) (SFun lc ℓ) := by
  rw [pigeonholeRemoves_iff, mem_remSet]
  constructor
  · rintro ⟨⟨κ, ms⟩, he, hcond, hx⟩
    dsimp only at hcond hx
    have he' : (κ, ms) ∈ groupPairs
        (lc.map fun e => (stableSort (fun a b => a ≤ b) e.2, e.1)) := he
    have hwfms := groupPairs_values_wf'
      (lc.map fun e => (stableSort (fun a b => a ≤ b) e.2, e.1)) (κ, ms) he'
    obtain ⟨y, hy⟩ := List.exists_mem_of_ne_nil ms hwfms.2
    obtain ⟨vy, hvy, hsort⟩ := (group_members_iff hA hwf he y).mp hy
    obtain ⟨hfin, hlen, hded, hkfin, hklen⟩ := group_entry_char hA hwf he hvy hsort
    have hyA : y ∈ A := by
      rw [← hwf.1]
      exact mem_keys_of_mapGet_some hvy
    have hSy : SFun lc y = vy.toFinset := SFun_get hvy
    have hdedlen : (dedupFirst κ).length = (SFun lc y).card := by
      rw [hded, hSy]
      exact hklen
    have hxk : x ∈ SFun lc y := by
      rw [hded] at hx
      rw [hSy, ← hkfin]
      exact List.mem_toFinset.mpr hx
    have hclscard : ms.length = (classOf A.toFinset (SFun lc) (SFun lc y)).card := by
      rw [hSy]
      exact hlen
    have hmemiff : ∀ z, z ∈ ms ↔
        z ∈ classOf A.toFinset (SFun lc) (SFun lc y) := by
      intro z
      rw [← List.mem_toFinset, hfin, hSy]
    refine ⟨y, List.mem_toFinset.mpr hyA, ?_, ?_, hxk⟩
    · unfold trigV
      rcases hcond with ⟨h1, h2⟩ | h1
      · rw [← hdedlen, h1, hclscard]
      · rw [← hdedlen]
        rw [hclscard] at h1
        omega
    · rintro ⟨hex, hval⟩
      rcases hcond with ⟨h1, h2⟩ | h1
      · apply h2
        rw [hmemiff ℓ]
        unfold classOf
        rw [Finset.mem_filter]
        exact ⟨List.mem_toFinset.mpr hℓ, hval.symm⟩
      · unfold exactV at hex
        rw [← hclscard] at hex
        rw [← hdedlen] at hex
        omega
  · rintro ⟨k, hkL, htrig, hnex, hxk⟩
    have hkA : k ∈ A := List.mem_toFinset.mp hkL
    have hkkeys : k ∈ jmKeys lc := by
      rw [hwf.1]
      exact hkA
    obtain ⟨vk, hvk⟩ := Option.isSome_iff_exists.mp (mapGet_isSome_of_mem_keys hkkeys)
    obtain ⟨hknd_g, hiff⟩ := groupPairs_spec
      (lc.map fun e => (stableSort (fun a b => a ≤ b) e.2, e.1))
    have hp : (stableSort (fun a b => a ≤ b) vk, k) ∈
        lc.map fun e => (stableSort (fun a b => a ≤ b) e.2, e.1) := by
      refine List.mem_map.mpr ⟨(k, vk), mem_of_mapGet_some hvk, ?_⟩
      rfl
    obtain ⟨ms, hms, hkms⟩ := (hiff _ k).mpr hp
    have hent : (stableSort (fun a b => a ≤ b) vk, ms) ∈ groupByCandidates lc :=
      mem_of_mapGet_some hms
    obtain ⟨hfin, hlen, hded, hkfin, hklen⟩ := group_entry_char hA hwf hent hvk rfl
    have hSk : SFun lc k = vk.toFinset := SFun_get hvk
    have hdedlen : (dedupFirst (stableSort (fun a b => a ≤ b) vk)).length =
        (SFun lc k).card := by
      rw [hded, hSk]
      exact hklen
    have hclscard : ms.length = (classOf A.toFinset (SFun lc) (SFun lc k)).card := by
      rw [hSk]
      exact hlen
    have hmemiff : ∀ z, z ∈ ms ↔
        z ∈ classOf A.toFinset (SFun lc) (SFun lc k) := by
      intro z
      rw [← List.mem_toFinset, hfin, hSk]
    refine ⟨(stableSort (fun a b => a ≤ b) vk, ms), hent, ?_, ?_⟩
    · dsimp only
      unfold trigV at htrig
      rcases Nat.lt_or_ge (SFun lc k).card
        ((classOf A.toFinset (SFun lc) (SFun lc k)).card) with h | h
      · right
        rw [← hdedlen, ← hclscard] at h
        exact h
      · left
        have hexact : (SFun lc k).card =
            (classOf A.toFinset (SFun lc) (SFun lc k)).card := by omega
        constructor
        · rw [hdedlen, hexact, hclscard]
        · intro hlms
          apply hnex
          have hcc : ℓ ∈ classOf A.toFinset (SFun lc) (SFun lc k) := (hmemiff ℓ).mp hlms
          unfold classOf at hcc
          rw [Finset.mem_filter] at hcc
          exact ⟨hexact.symm, hcc.2.symm⟩
    · dsimp only
      rw [hded]
      rw [← List.mem_toFinset, hkfin, ← hSk]
      exact hxk

theorem pigeonholePass_wf {A : List Char} {lc : JMap Char (List Char)}
    (hwf : LCWF A lc) : LCWF A (pigeonholePass lc) := by
  constructor
  · simp only [pigeonholePass]
    rw [jmKeys_jmMapValues]
    exact hwf.1
  · simp only [pigeonholePass]
    intro e he
    obtain ⟨e0, he0, rfl⟩ := List.mem_map.mp he
    exact (hwf.2 e0 he0).filter _

theorem pigeonholePass_SFun {A : List Char} {lc : JMap Char (List Char)}
    (hA : A.Nodup) (hwf : LCWF A lc) :
    SFun (pigeonholePass lc) = passS A.toFinset (SFun lc) := by
  funext ℓ
  by_cases hℓ : ℓ ∈ A
  · have hkey : ℓ ∈ jmKeys lc := by
      rw [hwf.1]
      exact hℓ
    obtain ⟨v, hv⟩ := Option.isSome_iff_exists.mp (mapGet_isSome_of_mem_keys hkey)
    have hpget : mapGet (pigeonholePass lc) ℓ =
        some (v.filter fun cand =>
          ¬ pigeonholeRemoves (groupByCandidates lc) ℓ cand) := by
      simp only [pigeonholePass]
      rw [mapGet_jmMapValues, hv]
      rfl
    rw [SFun_get hpget]
    unfold passS
    rw [if_pos (List.mem_toFinset.mpr hℓ)]
    ext x
    simp only [Finset.mem_sdiff, List.mem_toFinset, List.mem_filter,
      decide_eq_true_eq]
    have hmv : x ∈ SFun lc ℓ ↔ x ∈ v := by
      rw [SFun_get hv, List.mem_toFinset]
    have hrem := removes_iff_remSet hA hwf hℓ x
    constructor
    · rintro ⟨hxv, hpx⟩
      refine ⟨hmv.mpr hxv, ?_⟩
      intro hxr
      exact hpx (hrem.mpr hxr)
    · rintro ⟨hxv, hxr⟩
      refine ⟨hmv.mp hxv, ?_⟩
      intro hpx
      exact hxr (hrem.mp hpx)
  · have hknone : mapGet lc ℓ = none := by
      rw [mapGet_eq_none_iff, hwf.1]
      exact hℓ
    have hpnone : mapGet (pigeonholePass lc) ℓ = none := by
      rw [mapGet_eq_none_iff]
      rw [(pigeonholePass_wf hwf).1]
      exact hℓ
    rw [SFun_none hpnone]
    unfold passS
    rw [if_neg (fun h => hℓ (List.mem_toFinset.mp h))]
    rw [SFun_none hknone]

theorem pass_eq_of_SFun_eq {A : List Char} {lc : JMap Char (List Char)}
    (hA : A.Nodup) (hwf : LCWF A lc)
    (h : SFun (pigeonholePass lc) = SFun lc) :
    pigeonholePass lc = lc := by
  simp only [pigeonholePass]
  refine (jmMapValues_ext _ (fun _ v => v) lc ?_).trans (jmMapValues_id lc)
  intro e he
  have hv : mapGet lc e.1 = some e.2 := mapGet_of_mem_nodup (hwf.1 ▸ hA) he
  have hpget : mapGet (pigeonholePass lc) e.1 =
      some (e.2.filter fun cand =>
        ¬ pigeonholeRemoves (groupByCandidates lc) e.1 cand) := by
    simp only [pigeonholePass]
    rw [mapGet_jmMapValues, hv]
    rfl
  have hS := congrFun h e.1
  rw [SFun_get hpget, SFun_get hv] at hS
  apply List.filter_eq_self.mpr
  intro a ha
  have ha2 : a ∈ (e.2.filter fun cand =>
      ¬ pigeonholeRemoves (groupByCandidates lc) e.1 cand).toFinset := by
    rw [hS]
    exact List.mem_toFinset.mpr ha
  exact (List.mem_filter.mp (List.mem_toFinset.mp ha2)).2

theorem pigeonholePass_iterate {A : List Char} {lc : JMap Char (List Char)}
    (hA : A.Nodup) (hwf : LCWF A lc) (k : Nat) :
    LCWF A (pigeonholePass^[k] lc) ∧
      SFun (pigeonholePass^[k] lc) = (passS A.toFinset)^[k] (SFun lc) := by
  induction k with
  | zero => exact ⟨hwf, rfl⟩
  | succ n ih =>
    rw [Function.iterate_succ_apply' pigeonholePass n lc,
      Function.iterate_succ_apply' (passS A.toFinset) n (SFun lc)]
    refine ⟨pigeonholePass_wf ih.1, ?_⟩
    rw [pigeonholePass_SFun hA ih.1, ih.2]

theorem foldl_LCWF {A : List Char} {β : Type}
    (step : JMap Char (List Char) → β → JMap Char (List Char))
    (hstep : ∀ lc b, LCWF A lc → LCWF A (step lc b)) :
    ∀ (ms : List β) (init : JMap Char (List Char)), LCWF A init →
      LCWF A (ms.foldl step init) := by
  intro ms
  induction ms with
  | nil => intro init h; exact h
  | cons b rest ih =>
    intro init h
    exact ih (step init b) (hstep init b h)

theorem initialLetterCandidates_wf (wordCandidates : JMap (List Char) (List (List Char)))
    (dictionary : Dictionary) (hA : dictionary.alphabet.Nodup) :
    LCWF dictionary.alphabet
      (initialLetterCandidates wordCandidates dictionary) := by
  unfold initialLetterCandidates
  apply foldl_LCWF
  · intro lc b hwf
    constructor
    · rw [jmKeys_jmMapValues]
      exact hwf.1
    · intro e he
      obtain ⟨e0, he0, rfl⟩ := List.mem_map.mp he
      exact (hwf.2 e0 he0).filter _
  · constructor
    · simp only [jmKeys, List.map_map]
      have hgen : ∀ (l c : List Char),
          List.map (Prod.fst ∘ fun letter => (letter, c)) l = l := by
        intro l c
        induction l with
        | nil => rfl
        | cons a rest ih => simp only [List.map_cons, ih, Function.comp_apply]
      exact hgen dictionary.alphabet dictionary.alphabet
    · intro e he
      obtain ⟨a, ha, rfl⟩ := List.mem_map.mp he
      exact hA

/-- C9.  The pigeonhole-closure loop of `computeLetterCandidates` reaches
    its fixpoint within `|alphabet|` iterations: starting from the initial
    letter-candidates map of any word-candidates map and dictionary with a
    duplicate-free alphabet, the pass applied after `|alphabet| - 1` passes
    changes nothing — so the do-while loop's `|alphabet|`-th iteration (if
    ever reached) is its no-change final iteration. -/
theorem c9_pigeonhole_fixpoint
    (wordCandidates : JMap (List Char) (List (List Char)))
    (dictionary : Dictionary) (hnd : dictionary.alphabet.Nodup) :
    pigeonholePass (pigeonholePass^[dictionary.alphabet.length - 1]
      (initialLetterCandidates wordCandidates dictionary)) =
      pigeonholePass^[dictionary.alphabet.length - 1]
        (initialLetterCandidates wordCandidates dictionary) := by
  have hwf0 := initialLetterCandidates_wf wordCandidates dictionary hnd
  have hiter := pigeonholePass_iterate hnd hwf0 (dictionary.alphabet.length - 1)
  have hcard : dictionary.alphabet.toFinset.card = dictionary.alphabet.length :=
    List.toFinset_card_of_nodup hnd
  have habs := passS_iterate_fixpoint dictionary.alphabet.toFinset
    (SFun (initialLetterCandidates wordCandidates dictionary))
  rw [hcard] at habs
  apply pass_eq_of_SFun_eq hnd hiter.1
  rw [pigeonholePass_SFun hnd hiter.1, hiter.2]
  exact habs

/-- C9 witness: the fixpoint bound applied to the five-letter alphabet
    instance `dictC6` with the word-candidates map `wcC6`. -/
theorem c9_witness :
    pigeonholePass (pigeonholePass^[dictC6.alphabet.length - 1]
      (initialLetterCandidates wcC6 dictC6)) =
      pigeonholePass^[dictC6.alphabet.length - 1]
        (initialLetterCandidates wcC6 dictC6) :=
  c9_pigeonhole_fixpoint wcC6 dictC6 (by decide)
